import Mathlib

/-!
# ListBurst: the shared rate limiter (`src/services/rateLimiter.js`)

A shallow embedding of `createRateLimiter` and of the three closures it
builds (`waitForSlot`, `releaseSlot`, `execute`), followed by the small pure
helpers of the repository (`getImageUrl`, `getAvailableYears`), by
`getMovieRatings` of `src/services/apiOMDB.js` and by two functions of the
fetch scripts (`searchGame` of `scripts/fetch-next-games.js`, `fetchTrakt` of
`scripts/fetch-movies.js` and `scripts/fetch-series.js`).

`execute` is an `async` function, so it is embedded in continuation form:
every segment of code between two `await`s is one atomic transition (JavaScript
runs such a segment to completion before any other code of the same realm).
The environment chooses which pending continuation runs next, when the clock
advances and which new `execute` calls are made; a timer never fires before
its requested duration has elapsed and the clock never goes backwards.

Numbers are `Int` where the source can make them negative (`activeRequests--`,
`now - lastRequestTime`), `Nat` for the retry budget and for identifiers. The
number that `parseInt` reads from the `Retry-After` header is a double
(`JsNumber`), and the duration of the retry wait is what the timer of Node
makes of `retryAfter * 1000`: that duration is computed from a header, which
can be any string.
-/

namespace RateLimiter

/-! ## Data -/

/-- What the limiter reads of a `Response`: `response.status`,
`response.headers.get("Retry-After")` (`none` is `null`), and a payload that
stands for everything else the caller may look at. -/
structure Response where
  status : Nat
  retryAfter : Option String
  payload : Nat
deriving DecidableEq, Repr

/-- The effect of `parseRateLimit(response)` followed by `rateInfo?.remaining`:
the hook throws, or yields a value whose `remaining` is `undefined` (`none`,
also for a `null` or `undefined` rateInfo) or a number. -/
inductive RateInfo where
  | throws (err : Nat)
  | info (remaining : Option Int)
deriving DecidableEq, Repr

/-- How one invocation of `fetchFn` settles: the awaited value, or a thrown
error (a synchronous throw and a rejected promise reach the same `catch`). -/
inductive TaskResult where
  | resolves (r : Response)
  | rejects (err : Nat)
deriving DecidableEq, Repr

/-- A caller-supplied `fetchFn`: its `n`-th invocation (counted from 0)
settles as `task n`. -/
abbrev Task := Nat → TaskResult

/-- The `options` argument of `createRateLimiter`; `none` is an omitted
(`undefined`) field. -/
structure Options where
  maxConcurrent : Option Int := none
  maxRetries : Option Nat := none
  delayBetweenRequests : Option Int := none
  name : Option String := none
  parseRateLimit : Option (Response → RateInfo) := none
  rateLimitThreshold : Option Int := none
  rateLimitPauseMs : Option Int := none

/-- The constants bound by the destructuring at lines 27-35; `parseRateLimit`
is `none` for `null`. -/
structure Config where
  maxConcurrent : Int
  maxRetries : Nat
  delayBetweenRequests : Int
  name : String
  parseRateLimit : Option (Response → RateInfo)
  rateLimitThreshold : Int
  rateLimitPauseMs : Int

/-- The four closure variables of lines 37-40. `requestQueue` holds one entry
per pending `waitForSlot` promise, identified by the call that awaits it;
`rateLimitRemaining = none` is `Infinity`. -/
structure Limiter where
  activeRequests : Int
  requestQueue : List Nat
  lastRequestTime : Int
  rateLimitRemaining : Option Int
deriving DecidableEq, Repr

/-- Lines 26-40: defaults for the omitted options and the initial closure
variables. -/
def createRateLimiter (options : Options) : Config × Limiter :=
  ({ maxConcurrent := options.maxConcurrent.getD 3
     maxRetries := options.maxRetries.getD 3
     delayBetweenRequests := options.delayBetweenRequests.getD 0
     name := options.name.getD "API"
     parseRateLimit := options.parseRateLimit
     rateLimitThreshold := options.rateLimitThreshold.getD 50
     rateLimitPauseMs := options.rateLimitPauseMs.getD 10000 },
   { activeRequests := 0
     requestQueue := []
     lastRequestTime := 0
     rateLimitRemaining := none })

/-! ## `waitForSlot` and `releaseSlot` -/

/-- Lines 42-48, called on behalf of call `c`. The flag is `true` when the
returned promise is already resolved, `false` when its resolver was pushed on
`requestQueue` and the promise is pending. -/
def waitForSlot (cfg : Config) (l : Limiter) (c : Nat) : Limiter × Bool :=
  if l.activeRequests < cfg.maxConcurrent then
    ({ l with activeRequests := l.activeRequests + 1 }, true)
  else
    ({ l with requestQueue := l.requestQueue ++ [c] }, false)

/-- Lines 50-56. The second component is the waiter whose resolver was shifted
off the queue and called, if any. -/
def releaseSlot (l : Limiter) : Limiter × Option Nat :=
  let l1 := { l with activeRequests := l.activeRequests - 1 }
  match l1.requestQueue with
  | [] => (l1, none)
  | w :: rest =>
    ({ l1 with activeRequests := l1.activeRequests + 1, requestQueue := rest }, some w)

/-! ## `parseInt` on the `Retry-After` header and the timer of `delay` -/

/-- White space skipped by `parseInt` (the `StrWhiteSpaceChar` of ECMAScript):
tab, line feed, vertical tab, form feed, carriage return, space, no-break
space, U+1680, U+2000 to U+200A, line separator, paragraph separator, U+202F,
U+205F, U+3000 and the byte order mark. -/
def isJsSpace (c : Char) : Bool :=
  c.toNat = 9 || c.toNat = 10 || c.toNat = 11 || c.toNat = 12 || c.toNat = 13 ||
  c.toNat = 32 || c.toNat = 160 || c.toNat = 5760 ||
  (decide (8192 ≤ c.toNat) && decide (c.toNat ≤ 8202)) ||
  c.toNat = 8232 || c.toNat = 8233 || c.toNat = 8239 || c.toNat = 8287 ||
  c.toNat = 12288 || c.toNat = 65279

/-- Value of a run of decimal digits. -/
def digitsValue (ds : List Char) : Nat :=
  ds.foldl (fun acc d => 10 * acc + (d.toNat - 48)) 0

/-- A JavaScript Number, as far as the limiter computes one from a header:
`NaN`, an infinity, or a finite double whose value is an integer (`-0` is not
told apart from `0`). -/
inductive JsNumber where
  | nan
  | infinite (negative : Bool)
  | finite (value : Int)
deriving DecidableEq, Repr

/-- The number of low-order bits of `v` that do not fit in the 53-bit
significand of a double: the least `e` with `v / 2 ^ e < 2 ^ 53`, or `fuel` if
that is less. -/
def excessBits : Nat → Nat → Nat
  | 0, _ => 0
  | fuel + 1, v => if v < 2 ^ 53 then 0 else excessBits fuel (v / 2) + 1

/-- The significand of `v` at exponent `e`, rounded to nearest, ties to even:
`v / 2 ^ e`, plus one when the `e` bits cut off are more than half a unit, or
exactly half a unit with an odd quotient. -/
def roundedSignificand (v e : Nat) : Nat :=
  let q := v / 2 ^ e
  let r := v % 2 ^ e
  if 2 ^ e < 2 * r ∨ (2 * r = 2 ^ e ∧ q % 2 = 1) then q + 1 else q

/-- The double nearest to the natural number `v`, ties to the even
significand: `v` is cut to a significand of 53 bits at an exponent `e`, the
significand is rounded, and the result is `Infinity` (`none`) when it exceeds
the largest finite double, `(2 ^ 53 - 1) * 2 ^ 971`. A value below `2 ^ 53` is a
double as it stands. -/
def roundToDouble (v : Nat) : Option Nat :=
  let e := excessBits 1100 v
  let q1 := roundedSignificand v e
  if 972 ≤ e ∨ (971 ≤ e ∧ 2 ^ 53 ≤ q1) then none else some (q1 * 2 ^ e)

/-- The Number for the integer of magnitude `v` and the given sign. -/
def JsNumber.ofMagnitude (negative : Bool) (v : Nat) : JsNumber :=
  match roundToDouble v with
  | none => .infinite negative
  | some x => .finite (if negative then -(x : Int) else (x : Int))

/-- `parseInt(s, 10)`: leading white space, an optional sign, then the longest
run of decimal digits, whose value is rounded to a double; `NaN` when there is
no digit. -/
def parseInt (s : String) : JsNumber :=
  let cs := s.toList.dropWhile isJsSpace
  let signed : Bool × List Char :=
    match cs with
    | [] => (false, [])
    | c :: rest =>
      if c.toNat = 45 then (true, rest)
      else if c.toNat = 43 then (false, rest)
      else (false, c :: rest)
  let ds := signed.2.takeWhile Char.isDigit
  if ds.isEmpty then .nan else JsNumber.ofMagnitude signed.1 (digitsValue ds)

/-- Line 96: `parseInt(response.headers.get("Retry-After") || "2", 10)`; a
`null` or empty header is falsy. -/
def retryAfterSeconds (r : Response) : JsNumber :=
  match r.retryAfter with
  | none => parseInt "2"
  | some h => if h.isEmpty then parseInt "2" else parseInt h

/-- Line 99, `retryAfter * 1000` in double arithmetic: the exact product,
rounded to a double. -/
def JsNumber.times1000 (x : JsNumber) : JsNumber :=
  match x with
  | .nan => .nan
  | .infinite negative => .infinite negative
  | .finite v => JsNumber.ofMagnitude (decide (v < 0)) (v.natAbs * 1000)

/-- The largest duration a timer of Node takes, `TIMEOUT_MAX = 2 ** 31 - 1`. -/
def timeoutMax : Int := 2147483647

/-- `setTimeout(resolve, ms)` of Node, which `delay(ms)` calls (line 12): the
duration in milliseconds after which the timer fires. Node replaces a duration
that is `NaN`, below 1 or above `TIMEOUT_MAX` by 1. -/
def timeoutMs (ms : JsNumber) : Int :=
  match ms with
  | .finite v => if 1 ≤ v ∧ v ≤ timeoutMax then v else 1
  | _ => 1

/-- Line 99: the duration of `delay(retryAfter * 1000)`. -/
def retryDelayMs (r : Response) : Int :=
  timeoutMs (retryAfterSeconds r).times1000

/-! ## `execute` in continuation form -/

/-- How the promise returned by `execute` settles. -/
inductive Outcome where
  | resolved (r : Response)
  | rejected (err : Nat)
deriving DecidableEq, Repr

/-- The `await` at which a call of `execute` is suspended. A timer phase
carries the earliest time at which its `delay` promise resolves. -/
inductive Phase where
  /-- line 67, promise of `waitForSlot` pending (resolver in `requestQueue`) -/
  | queued
  /-- line 67, promise of `waitForSlot` resolved, continuation not yet run -/
  | admitted
  /-- line 74, `await delay(delayBetweenRequests - elapsed)` -/
  | pacing (wakeAt : Int)
  /-- line 80, `await fetchFn()` -/
  | fetching
  /-- line 89, `await delay(rateLimitPauseMs)` with the response in hand -/
  | pausing (r : Response) (wakeAt : Int)
  /-- line 99, `await delay(retryAfter * 1000)`, slot already released -/
  | retryWait (wakeAt : Int)
  /-- the promise returned to the caller has settled -/
  | settled (o : Outcome)
deriving DecidableEq, Repr

/-- One call of `execute` made by a client, followed through its recursive
retries (`return execute(fetchFn, retries - 1)` hands the caller's promise
over to the inner call; no code of the outer frame runs afterwards).
`invocations`, `acquires` and `releases` are observation counters: how often
this call has invoked `fetchFn`, been given a slot, and run `releaseSlot`. -/
structure Call where
  task : Task
  retries : Nat
  phase : Phase
  invocations : Nat
  acquires : Nat
  releases : Nat

/-- Timestamped observations, newest first. -/
inductive Obs where
  /-- `fetchFn()` was invoked by call `c` at time `t` (line 80) -/
  | dispatch (c : Nat) (t : Int)
  /-- call `c` processed at time `t` a response whose remaining count is
  positive and below the threshold (line 87 true) -/
  | lowRemaining (c : Nat) (t : Int)
deriving DecidableEq, Repr

/-- A limiter together with every `execute` call made on it so far, the clock
(`Date.now()`) and the observation log. -/
structure State where
  lim : Limiter
  now : Int
  calls : List Call
  log : List Obs

/-- The phases in which a call owns one of the `maxConcurrent` slots. -/
def Phase.holdsSlot : Phase → Bool
  | .admitted => true
  | .pacing _ => true
  | .fetching => true
  | .pausing _ _ => true
  | _ => false

/-- The phase in which `fetchFn` has been started and has not settled. -/
def Phase.isFetching : Phase → Bool
  | .fetching => true
  | _ => false

/-- Settled phases. -/
def Phase.isSettled : Phase → Bool
  | .settled _ => true
  | _ => false

/-- The promise of `waitForSlot` awaited by the call is resolved: the call
owns a slot and its continuation is runnable. -/
def Call.granted (c : Call) : Call :=
  { c with phase := .admitted, acquires := c.acquires + 1 }

/-- Resolving the promise of waiter `w`: it owns the slot that `releaseSlot`
re-counted for it (line 53). -/
def wake (cs : List Call) : Option Nat → List Call
  | none => cs
  | some w =>
    match cs[w]? with
    | some c => cs.set w c.granted
    | none => cs

/-- Line 67, synchronous part: call `i` (with record `c`) runs `waitForSlot()`
and suspends on the returned promise. -/
def enter (cfg : Config) (s : State) (i : Nat) (c : Call) : State :=
  let r := waitForSlot cfg s.lim i
  { s with
    lim := r.1
    calls := s.calls.set i (if r.2 then c.granted else { c with phase := .queued }) }

/-- Lines 77 and 80: `lastRequestTime = Date.now()` and the invocation of
`fetchFn`, on which the call then waits. -/
def dispatch (s : State) (i : Nat) (c : Call) : State :=
  { s with
    lim := { s.lim with lastRequestTime := s.now }
    calls := s.calls.set i { c with phase := .fetching, invocations := c.invocations + 1 }
    log := Obs.dispatch i s.now :: s.log }

/-- Lines 70-76: the pacing wait requested by a call that has just been
admitted, if any. -/
def pacingDelay (cfg : Config) (l : Limiter) (now : Int) : Option Int :=
  if cfg.delayBetweenRequests > 0 then
    let elapsed := now - l.lastRequestTime
    if elapsed < cfg.delayBetweenRequests then some (cfg.delayBetweenRequests - elapsed)
    else none
  else none

/-- Lines 69-80, after `await waitForSlot()`. -/
def afterSlot (cfg : Config) (s : State) (i : Nat) (c : Call) : State :=
  match pacingDelay cfg s.lim s.now with
  | some d => { s with calls := s.calls.set i { c with phase := .pacing (s.now + d) } }
  | none => dispatch s i c

/-- A `releaseSlot()` run by call `i`, which then moves to phase `ph`. -/
def releaseBy (s : State) (i : Nat) (c : Call) (ph : Phase) : State :=
  let r := releaseSlot s.lim
  { s with
    lim := r.1
    calls := wake (s.calls.set i { c with phase := ph, releases := c.releases + 1 }) r.2 }

/-- Lines 94-105: the 429 branch (release, then wait, then retry) or the final
release and return. -/
def handleStatus (s : State) (i : Nat) (c : Call) (r : Response) : State :=
  if r.status = 429 ∧ c.retries > 0 then
    releaseBy s i c (.retryWait (s.now + retryDelayMs r))
  else
    releaseBy s i c (.settled (.resolved r))

/-- Lines 80-109, after `await fetchFn()` has settled. -/
def afterFetch (cfg : Config) (s : State) (i : Nat) (c : Call) : State :=
  match c.task (c.invocations - 1) with
  | .rejects e => releaseBy s i c (.settled (.rejected e))
  | .resolves r =>
    match cfg.parseRateLimit with
    | none => handleStatus s i c r
    | some hook =>
      match hook r with
      | .throws e => releaseBy s i c (.settled (.rejected e))
      | .info none => handleStatus s i c r
      | .info (some rem) =>
        let s1 := { s with lim := { s.lim with rateLimitRemaining := some rem } }
        if rem < cfg.rateLimitThreshold ∧ rem > 0 then
          { s1 with
            calls := s1.calls.set i { c with phase := .pausing r (s1.now + cfg.rateLimitPauseMs) }
            log := Obs.lowRemaining i s1.now :: s1.log }
        else handleStatus s1 i c r

/-- Line 100, after `await delay(retryAfter * 1000)`: the recursive call
`execute(fetchFn, retries - 1)` starts at line 67. -/
def retry (cfg : Config) (s : State) (i : Nat) (c : Call) : State :=
  enter cfg s i { c with retries := c.retries - 1 }

/-- What the environment can do. -/
inductive Event where
  /-- the clock advances by `dt` milliseconds -/
  | tick (dt : Nat)
  /-- a client calls `execute(fetchFn, retries)`; `none` takes the default
  `retries = maxRetries` -/
  | call (task : Task) (retries : Option Nat)
  /-- the continuation of call `i` runs: the promise it awaits has settled -/
  | resume (i : Nat)

/-- A fresh call record. -/
def newCall (cfg : Config) (task : Task) (retries : Option Nat) : Call :=
  { task := task, retries := retries.getD cfg.maxRetries, phase := .queued,
    invocations := 0, acquires := 0, releases := 0 }

/-- The continuation of call `i`, when it can run. A queued call is resumed
only by `releaseSlot`; a timer continuation only once its time has come. -/
def resume (cfg : Config) (s : State) (i : Nat) : Option State :=
  match s.calls[i]? with
  | none => none
  | some c =>
    match c.phase with
    | .queued => none
    | .settled _ => none
    | .admitted => some (afterSlot cfg s i c)
    | .pacing w => if w ≤ s.now then some (dispatch s i c) else none
    | .fetching => some (afterFetch cfg s i c)
    | .pausing r w => if w ≤ s.now then some (handleStatus s i c r) else none
    | .retryWait w => if w ≤ s.now then some (retry cfg s i c) else none

/-- One transition of the system; `none` when the event is not enabled. -/
def step (cfg : Config) (s : State) : Event → Option State
  | .tick dt => some { s with now := s.now + dt }
  | .call task retries =>
    some (enter cfg { s with calls := s.calls ++ [newCall cfg task retries] }
      s.calls.length (newCall cfg task retries))
  | .resume i => resume cfg s i

/-- Running a list of events from a state. -/
def run (cfg : Config) (s : State) : List Event → Option State
  | [] => some s
  | e :: es =>
    match step cfg s e with
    | none => none
    | some s1 => run cfg s1 es

/-- The system right after `createRateLimiter(options)` at clock value `t0`. -/
def init (lim : Limiter) (t0 : Int) : State :=
  { lim := lim, now := t0, calls := [], log := [] }

/-- A freshly created limiter: the closure variables of lines 37-40. -/
def fresh : Limiter := (createRateLimiter {}).2

/-- States reachable from a fresh limiter. -/
def Reachable (cfg : Config) (s : State) : Prop :=
  ∃ (t0 : Int) (es : List Event), run cfg (init fresh t0) es = some s

/-! ## Invariant, slot protocol and drivers: definitions -/

/-- Number of calls that own a slot. -/
def holders (cs : List Call) : Nat := cs.countP (fun c => c.phase.holdsSlot)

/-- Number of calls whose `fetchFn` has been started and has not settled. -/
def inFlight (cs : List Call) : Nat := cs.countP (fun c => c.phase.isFetching)

/-- The invariant that ties the counter and the queue to the calls: the
counter is the number of slot owners and never exceeds `maxConcurrent` (or 0,
should `maxConcurrent` be negative), the queue has no duplicates and holds
only calls suspended in `waitForSlot`. -/
structure Inv (cfg : Config) (s : State) : Prop where
  active_eq : s.lim.activeRequests = (holders s.calls : Int)
  active_le : s.lim.activeRequests ≤ max cfg.maxConcurrent 0
  nodup : s.lim.requestQueue.Nodup
  queued : ∀ j ∈ s.lim.requestQueue, ∃ c, s.calls[j]? = some c ∧ c.phase = .queued

/-- The limiter together with the callers that currently hold a slot (one
entry per slot held). -/
structure SlotState where
  lim : Limiter
  holding : List Nat
deriving DecidableEq, Repr

/-- The two operations on the slot counter. -/
inductive SlotOp where
  | waitForSlot (c : Nat)
  | releaseSlot (c : Nat)
deriving DecidableEq, Repr

/-- One operation; `releaseSlot` is enabled only for a caller that holds a
slot. A caller admitted at once, or woken from the queue, becomes a holder. -/
def slotStep (cfg : Config) (s : SlotState) : SlotOp → Option SlotState
  | .waitForSlot c =>
    let r := waitForSlot cfg s.lim c
    some { lim := r.1, holding := if r.2 then c :: s.holding else s.holding }
  | .releaseSlot c =>
    if c ∈ s.holding then
      let r := releaseSlot s.lim
      some { lim := r.1
             holding := match r.2 with
               | some w => w :: s.holding.erase c
               | none => s.holding.erase c }
    else none

/-- A sequence of slot operations. -/
def slotRun (cfg : Config) (s : SlotState) : List SlotOp → Option SlotState
  | [] => some s
  | o :: os =>
    match slotStep cfg s o with
    | none => none
    | some s1 => slotRun cfg s1 os

/-- A run written as a state: the state reached when every event of `es` is
enabled, the start state otherwise. -/
def runD (cfg : Config) (s : State) (es : List Event) : State :=
  (run cfg s es).getD s

/-! ## Sample limiters, tasks and schedules -/

/-- A task that always succeeds with status 200. -/
def okTask : Task := fun _ => .resolves { status := 200, retryAfter := none, payload := 0 }

/-- `createRateLimiter({ maxConcurrent: 2 })`. -/
def cfgTwo : Config := (createRateLimiter { maxConcurrent := some 2 }).1

/-- Three calls made in the same turn; the continuations of the first two
then run and start their tasks, the third call waits in the queue. -/
def threeCalls : List Event :=
  [.call okTask none, .call okTask none, .call okTask none, .resume 0, .resume 1]

/-- Three callers ask for a slot of a limiter with two slots, then each
releases the slot it got. -/
def threeClients : List SlotOp :=
  [.waitForSlot 0, .waitForSlot 1, .waitForSlot 2,
   .releaseSlot 0, .releaseSlot 1, .releaseSlot 2]

/-! ## The view of a single call -/

/-- The record of a call after lines 94-105 ran on response `r` at time
`now`. -/
def Call.afterResponse (c : Call) (now : Int) (r : Response) : Call :=
  if r.status = 429 ∧ c.retries > 0 then
    { c with phase := .retryWait (now + retryDelayMs r), releases := c.releases + 1 }
  else
    { c with phase := .settled (.resolved r), releases := c.releases + 1 }

/-- The record of a call after lines 80-109 ran at time `now` on the result
of its latest invocation of `fetchFn`. -/
def Call.afterTask (cfg : Config) (c : Call) (now : Int) : Call :=
  match c.task (c.invocations - 1) with
  | .rejects e => { c with phase := .settled (.rejected e), releases := c.releases + 1 }
  | .resolves r =>
    match cfg.parseRateLimit with
    | none => c.afterResponse now r
    | some hook =>
      match hook r with
      | .throws e => { c with phase := .settled (.rejected e), releases := c.releases + 1 }
      | .info none => c.afterResponse now r
      | .info (some rem) =>
        if rem < cfg.rateLimitThreshold ∧ rem > 0 then
          { c with phase := .pausing r (now + cfg.rateLimitPauseMs) }
        else c.afterResponse now r

/-- What running its continuation does to the record of a call, given the
limiter variables `l` and the clock `now` it finds; `none` when the
continuation cannot run. -/
def Call.advance (cfg : Config) (l : Limiter) (now : Int) (c : Call) : Option Call :=
  match c.phase with
  | .queued => none
  | .settled _ => none
  | .admitted =>
    match pacingDelay cfg l now with
    | some d => some { c with phase := .pacing (now + d) }
    | none => some { c with phase := .fetching, invocations := c.invocations + 1 }
  | .pacing w =>
    if w ≤ now then some { c with phase := .fetching, invocations := c.invocations + 1 }
    else none
  | .fetching => some (c.afterTask cfg now)
  | .pausing r w => if w ≤ now then some (c.afterResponse now r) else none
  | .retryWait w =>
    if w ≤ now then
      some (if l.activeRequests < cfg.maxConcurrent then
              { c with retries := c.retries - 1 }.granted
            else { c with retries := c.retries - 1, phase := .queued })
    else none

/-! ## One call driven to completion on its own -/

/-- Bound on the number of continuations a call still has to run before it
settles when nobody else uses the limiter. -/
def Call.fuel (c : Call) : Nat :=
  match c.phase with
  | .queued => 6 * c.retries + 6
  | .admitted => 6 * c.retries + 5
  | .pacing _ => 6 * c.retries + 4
  | .fetching => 6 * c.retries + 3
  | .pausing _ _ => 6 * c.retries + 2
  | .retryWait _ => 6 * (c.retries - 1) + 6
  | .settled _ => 0

/-- Events that let a timer due at `w` fire for call `i`: the clock first
moves up to `w` if needed. -/
def timerEvents (s : State) (i : Nat) (w : Int) : List Event :=
  if w ≤ s.now then [.resume i] else [.tick (w - s.now).toNat, .resume i]

/-- The next events of a schedule that serves call `i` only. -/
def soloEvents (s : State) (i : Nat) : List Event :=
  match s.calls[i]? with
  | none => []
  | some c =>
    match c.phase with
    | .queued => []
    | .settled _ => []
    | .admitted => [.resume i]
    | .fetching => [.resume i]
    | .pacing w => timerEvents s i w
    | .pausing _ w => timerEvents s i w
    | .retryWait w => timerEvents s i w

/-- Serving call `i` only, for `n` rounds. -/
def soloRun (cfg : Config) : Nat → State → Nat → State
  | 0, s, _ => s
  | n + 1, s, i => soloRun cfg n (runD cfg s (soloEvents s i)) i

/-- A client calls `execute(task, retries)` and awaits the result while
nobody else uses the limiter. -/
def executeAlone (cfg : Config) (s : State) (task : Task) (retries : Option Nat) : State :=
  soloRun cfg (6 * retries.getD cfg.maxRetries + 6) (runD cfg s [.call task retries])
    s.calls.length

/-- A client makes the calls of the list one after the other, each awaited
before the next one is made; the result lists the state after each call. -/
def runSequential (cfg : Config) (s : State) : List (Task × Option Nat) → List State
  | [] => []
  | tr :: rest =>
    executeAlone cfg s tr.1 tr.2 :: runSequential cfg (executeAlone cfg s tr.1 tr.2) rest

/-- No call in progress: counter at zero, queue empty, every call made so far
has settled. -/
def Idle (s : State) : Prop :=
  s.lim.activeRequests = 0 ∧ s.lim.requestQueue = [] ∧
    ∀ c ∈ s.calls, c.phase.isSettled = true

/-- Call `i` is the only call in progress and it is not waiting in the
queue. -/
structure Solo (cfg : Config) (s : State) (i : Nat) : Prop where
  inv : Inv cfg s
  others : ∀ j cj, j ≠ i → s.calls[j]? = some cj → cj.phase.isSettled = true
  mine : ∃ c, s.calls[i]? = some c ∧ c.phase ≠ .queued

/-- The timer on which a phase waits, if any, has expired at time `now`. -/
def Phase.dueBy : Phase → Int → Bool
  | .pacing w, now => decide (w ≤ now)
  | .pausing _ w, now => decide (w ≤ now)
  | .retryWait w, now => decide (w ≤ now)
  | _, _ => true

/-- A response with the given status, no `Retry-After` header. -/
def plainResponse (status : Nat) : Response :=
  { status := status, retryAfter := none, payload := status }

/-- A task that always answers with `status`. -/
def statusTask (status : Nat) : Task := fun _ => .resolves (plainResponse status)

/-- A task that is rejected with 429 once and then succeeds. -/
def retryOnceTask : Task := fun n =>
  if n = 0 then .resolves (plainResponse 429) else .resolves (plainResponse 200)

/-- A task that always throws. -/
def throwingTask : Task := fun _ => .rejects 1

/-- `createRateLimiter({ maxConcurrent: 1 })`. -/
def cfgOne : Config := (createRateLimiter { maxConcurrent := some 1 }).1

/-- Ten calls of mixed outcome: success, 404, 429 then success, 429 until the
retries are exhausted, thrown error, and the same again with explicit retry
budgets. -/
def tenCalls : List (Task × Option Nat) :=
  [(okTask, none), (statusTask 404, none), (retryOnceTask, none), (statusTask 429, none),
   (throwingTask, none), (okTask, some 0), (statusTask 500, some 1), (retryOnceTask, some 1),
   (statusTask 429, some 0), (throwingTask, some 2)]

/-- The observation counters follow the slot: going from `c` to `c1`,
`releases` went up by one exactly if the call gave up a slot and `acquires`
went up by one exactly if it was given one. -/
def CountsSlots (c c1 : Call) : Prop :=
  c1.releases =
      c.releases + (if c.phase.holdsSlot = true ∧ c1.phase.holdsSlot = false then 1 else 0) ∧
    c1.acquires =
      c.acquires + (if c.phase.holdsSlot = false ∧ c1.phase.holdsSlot = true then 1 else 0)

/-- Every slot the call was given has been released once, except the one it
owns now. -/
def Balanced (c : Call) : Prop :=
  c.acquires = c.releases + (if c.phase.holdsSlot = true then 1 else 0)

/-- The `parseRateLimit` hook, when there is one, does not throw on `r`. -/
def HookQuiet (cfg : Config) (r : Response) : Prop :=
  ∀ hook, cfg.parseRateLimit = some hook → ∀ e, hook r ≠ .throws e

/-- Bookkeeping of a call whose task answers its `n`-th invocation with
`resp n`, a 429, when the call started with `budget` retries: the invocations
made and the retries left add up, and the call can only resolve with the
answer to invocation number `budget`. -/
def Always429Inv (task : Task) (resp : Nat → Response) (budget : Nat) (c : Call) : Prop :=
  c.task = task ∧
  match c.phase with
  | .queued => c.invocations + c.retries = budget
  | .admitted => c.invocations + c.retries = budget
  | .pacing _ => c.invocations + c.retries = budget
  | .fetching => c.invocations + c.retries = budget + 1 ∧ 1 ≤ c.invocations
  | .pausing r _ =>
    c.invocations + c.retries = budget + 1 ∧ 1 ≤ c.invocations ∧ r = resp (c.invocations - 1)
  | .retryWait _ => c.invocations + c.retries = budget + 1 ∧ 0 < c.retries
  | .settled o => c.invocations = budget + 1 ∧ o = .resolved (resp budget)

/-- A hook that throws on every response. -/
def throwingHook : Response → RateInfo := fun _ => .throws 7

/-- `createRateLimiter({ maxConcurrent: 1, parseRateLimit })` with a hook
that throws. -/
def cfgThrowingHook : Config :=
  (createRateLimiter { maxConcurrent := some 1, parseRateLimit := some throwingHook }).1

/-- What a client can observe of call `j`: how often its task was invoked and
where the call stands. -/
def observe (s : State) (j : Nat) : Option (Nat × Phase) :=
  (s.calls[j]?).map (fun c => (c.invocations, c.phase))

/-- Bookkeeping of a call whose task answers its first invocation with
`resp`, not a 429: the task is invoked at most once and the call can only
resolve with `resp`. -/
def FirstAnswerInv (task : Task) (resp : Response) (c : Call) : Prop :=
  c.task = task ∧
  match c.phase with
  | .queued => c.invocations = 0
  | .admitted => c.invocations = 0
  | .pacing _ => c.invocations = 0
  | .fetching => c.invocations = 1
  | .pausing r _ => c.invocations = 1 ∧ r = resp
  | .retryWait _ => False
  | .settled o => c.invocations = 1 ∧ o = .resolved resp

/-- Bookkeeping of a call whose task throws `err` at its first invocation:
the task is invoked at most once and the call can only reject with `err`. -/
def FirstThrowInv (task : Task) (err : Nat) (c : Call) : Prop :=
  c.task = task ∧
  match c.phase with
  | .queued => c.invocations = 0
  | .admitted => c.invocations = 0
  | .pacing _ => c.invocations = 0
  | .fetching => c.invocations = 1
  | .pausing _ _ => False
  | .retryWait _ => False
  | .settled o => c.invocations = 1 ∧ o = .rejected err

/-- A task that throws at its first invocation and succeeds afterwards. -/
def failOnceTask : Task := fun n =>
  if n = 0 then .rejects 1 else .resolves (plainResponse 200)

/-- A record used where a list index is out of range. -/
def blankCall : Call :=
  { task := okTask, retries := 0, phase := .queued, invocations := 0, acquires := 0,
    releases := 0 }

/-- The record of call `j`. -/
def callAt (s : State) (j : Nat) : Call := s.calls.getD j blankCall

/-- How often call `j` has been given a slot. -/
def acquiresOf (s : State) (j : Nat) : Nat := (callAt s j).acquires

/-- A call whose task is rejected with 429 once: made, dispatched, answered;
it has released its slot and waits for its retry. -/
def retryDemo : List Event := [.call retryOnceTask none, .resume 0, .resume 0]

/-- In queue `q`, waiter `a` stands before waiter `b`. -/
def Before (a b : Nat) (q : List Nat) : Prop :=
  ∃ l1 l2 l3, q = l1 ++ a :: (l2 ++ b :: l3)

/-- The effect of a transition on the queue and on the queued calls: either
the queue is unchanged or one waiter was pushed at its tail, and no queued
call was touched; or the head was removed and woken, and no other queued call
was touched. -/
def QueueEffect (s s1 : State) : Prop :=
  ((s1.lim.requestQueue = s.lim.requestQueue ∨
      ∃ c, s1.lim.requestQueue = s.lim.requestQueue ++ [c]) ∧
    ∀ (j : Nat) (cj : Call), s.calls[j]? = some cj → cj.phase = .queued →
      s1.calls[j]? = some cj) ∨
  (∃ w rest cw, s.lim.requestQueue = w :: rest ∧ s1.lim.requestQueue = rest ∧
    s.calls[w]? = some cw ∧ s1.calls[w]? = some cw.granted ∧
    ∀ (j : Nat) (cj : Call), j ≠ w → s.calls[j]? = some cj → cj.phase = .queued →
      s1.calls[j]? = some cj)

/-- Call 0 takes the only slot, call 1 waits in the queue. -/
def fifoBefore : List Event := [.call okTask none, .call okTask none]

/-- Call 0 runs to its end and hands its slot over, then the call that was
woken runs to its end and hands the slot over in turn. -/
def fifoAfter : List Event := [.resume 0, .resume 0, .resume 1, .resume 1]

/-- The state in which call 0 holds the slot and call 1 is queued. -/
def fifoS0 : State := runD cfgOne (init fresh 0) fifoBefore

/-- Call 2 is made and joins the queue. -/
def fifoS1 : State := runD cfgOne fifoS0 [.call okTask none]

/-- Calls 0 and 1 have run to their end. -/
def fifoS2 : State := runD cfgOne fifoS1 fifoAfter

/-! ## Timing observations -/

/-- The timestamps of the dispatches recorded in a log, newest first. -/
def dispatchTimes : List Obs → List Int
  | [] => []
  | .dispatch _ t :: l => t :: dispatchTimes l
  | .lowRemaining _ _ :: l => dispatchTimes l

/-- Check that any two consecutive timestamps (newest first) are at least `d`
milliseconds apart. -/
def pacedBy (d : Int) : List Int → Bool
  | later :: earlier :: rest => decide (earlier + d ≤ later) && pacedBy d (earlier :: rest)
  | _ => true

/-- Any two consecutive dispatches are at least `d` milliseconds apart. -/
def Paced (d : Int) (times : List Int) : Prop := pacedBy d times = true

instance (d : Int) (times : List Int) : Decidable (Paced d times) :=
  inferInstanceAs (Decidable (pacedBy d times = true))

/-- The limiter of `apiOMDB.js`: `createRateLimiter({ maxConcurrent: 5,
maxRetries: 2, delayBetweenRequests: 50, name: "OMDB" })`. -/
def omdbLimiter : Config :=
  (createRateLimiter
    { maxConcurrent := some 5
      maxRetries := some 2
      delayBetweenRequests := some 50
      name := some "OMDB" }).1

/-- Three calls made in the same turn (as `Promise.all` over three items
does). Their continuations run in order: the first dispatches at once, the
second and the third each find `elapsed = 0` and wait 50 ms; when both timers
have fired, both dispatch. -/
def burst : List Event :=
  [.call okTask none, .call okTask none, .call okTask none,
   .resume 0, .resume 1, .resume 2, .tick 50, .resume 1, .resume 2]

/-- In a log (newest first), every dispatch recorded after a low remaining
count was observed happened at least `p` milliseconds after that
observation. -/
def PauseRespected (p : Int) (log : List Obs) : Prop :=
  ∀ (l1 rest : List Obs) (c2 : Nat) (t2 : Int), log = l1 ++ Obs.dispatch c2 t2 :: rest →
    ∀ (c1 : Nat) (t1 : Int), Obs.lowRemaining c1 t1 ∈ rest → t1 + p ≤ t2

/-- What the preventive pause guarantees at every moment: the pause that
follows each observed low count is over, or the call that observed it is
still in it; and the dispatches logged so far respected the pauses. -/
structure PauseInv (cfg : Config) (s : State) : Prop where
  pending : ∀ (c : Nat) (t : Int), Obs.lowRemaining c t ∈ s.log →
    t + cfg.rateLimitPauseMs ≤ s.now ∨
      ∃ cj r, s.calls[c]? = some cj ∧ cj.phase = .pausing r (t + cfg.rateLimitPauseMs)
  respected : PauseRespected cfg.rateLimitPauseMs s.log

/-- The effect of a transition on clock and log: the clock does not go back,
and the log is unchanged, or a slot owner that is not pausing dispatched, or a
call entered the preventive pause. -/
def LogEffect (cfg : Config) (s s1 : State) : Prop :=
  s.now ≤ s1.now ∧
  (s1.log = s.log ∨
   (∃ i ci, s.calls[i]? = some ci ∧ ci.phase.holdsSlot = true ∧
      (∀ r w, ci.phase ≠ .pausing r w) ∧ s1.log = Obs.dispatch i s.now :: s.log) ∨
   (∃ i ci r, s.calls[i]? = some ci ∧
      s1.calls[i]? = some { ci with phase := .pausing r (s.now + cfg.rateLimitPauseMs) } ∧
      s1.now = s.now ∧ s1.log = Obs.lowRemaining i s.now :: s.log))

/-- A hook that reports 10 remaining requests for responses with payload 1
and nothing for the others. -/
def remainingHook : Response → RateInfo := fun r =>
  if r.payload = 1 then .info (some 10) else .info none

/-- A task whose response makes `remainingHook` report a low count. -/
def lowTask : Task := fun _ => .resolves { status := 200, retryAfter := none, payload := 1 }

/-- `createRateLimiter({ maxConcurrent: 2, parseRateLimit })`: threshold 50,
pause 10000 ms. -/
def cfgHookTwo : Config :=
  (createRateLimiter { maxConcurrent := some 2, parseRateLimit := some remainingHook }).1

/-- `createRateLimiter({ maxConcurrent: 1, parseRateLimit })`. -/
def cfgHookOne : Config :=
  (createRateLimiter { maxConcurrent := some 1, parseRateLimit := some remainingHook }).1

/-- A call is dispatched at 0 and answered at 100 with a low remaining count,
so it pauses until 10100; at 150 another client calls `execute`. -/
def pauseDemo : List Event :=
  [.call lowTask none, .resume 0, .tick 100, .resume 0, .tick 50, .call okTask none, .resume 1]

/-- The same on one slot: the second call has to wait for the slot, which is
released when the pause is over. -/
def pauseDemoOne : List Event :=
  [.call lowTask none, .resume 0, .tick 100, .resume 0, .tick 50, .call okTask none,
   .tick 9950, .resume 0, .resume 1]

/-- One call has been made at clock 5 on a fresh limiter with one slot. -/
def firstCallMade : State := runD cfgOne (init fresh 5) [.call okTask none]

/-- Its continuation has run: the task has been started. -/
def firstCallDispatched : State := runD cfgOne firstCallMade [.resume 0]

/-- The phase of call `j`, when there is such a call. -/
def phaseOf (s : State) (j : Nat) : Option Phase := (s.calls[j]?).map (fun c => c.phase)

/-- A first call sees a low remaining count (10) and pauses; once it has
settled a second call is made and its task started. Its response carries no
remaining count. -/
def staleLowCount : List Event :=
  [.call lowTask none, .resume 0, .resume 0, .tick 10000, .resume 0,
   .call okTask none, .resume 1]

/-- A call whose response will report a low remaining count has been made on
the one-slot limiter with hook and its task has been started. -/
def lowCountPending : State := runD cfgHookOne (init fresh 0) [.call lowTask none, .resume 0]

/-! ## An event loop with tasks of fixed duration -/

/-- The time of the latest invocation of `fetchFn` by call `i` in the log. -/
def dispatchedAt (log : List Obs) (i : Nat) : Option Int :=
  match log with
  | [] => none
  | .dispatch c t :: rest => if c = i then some t else dispatchedAt rest i
  | .lowRemaining _ _ :: rest => dispatchedAt rest i

/-- The time from which the continuation of a call can run when every task
takes `dur` milliseconds to settle: at once after admission, at the due time
of a timer, `dur` after the task was started; `none` for a call that waits in
the queue or has settled. -/
def readyAt (dur : Int) (s : State) (i : Nat) (c : Call) : Option Int :=
  match c.phase with
  | .queued => none
  | .settled _ => none
  | .admitted => some s.now
  | .pacing w => some w
  | .pausing _ w => some w
  | .retryWait w => some w
  | .fetching => (dispatchedAt s.log i).map (fun t => t + dur)

/-- The continuation of call `i` can run now. -/
def readyNow (dur : Int) (s : State) (i : Nat) : Bool :=
  match s.calls[i]? with
  | none => false
  | some c =>
    match readyAt dur s i c with
    | none => false
    | some t => decide (t ≤ s.now)

/-- The ready continuations are run, lowest call index first, until none is
ready (at most `n` of them). -/
def drainEvents (cfg : Config) (dur : Int) : Nat → State → List Event
  | 0, _ => []
  | n + 1, s =>
    match (List.range s.calls.length).find? (readyNow dur s) with
    | none => []
    | some i =>
      match resume cfg s i with
      | none => []
      | some s1 => .resume i :: drainEvents cfg dur n s1

/-- The earliest time at which some continuation becomes ready. -/
def nextWake (dur : Int) (s : State) : Option Int :=
  ((List.range s.calls.length).filterMap
    (fun i => (s.calls[i]?).bind (fun c => readyAt dur s i c))).min?

/-- The schedule of an event loop in which every task takes exactly `dur`
milliseconds: run what is ready, move the clock to the next wake-up, and so
on, for at most `n` rounds of at most `n` continuations. -/
def loopEvents (cfg : Config) (dur : Int) (k : Nat) : Nat → State → List Event
  | 0, _ => []
  | n + 1, s =>
    match nextWake dur (runD cfg s (drainEvents cfg dur k s)) with
    | none => drainEvents cfg dur k s
    | some t =>
      drainEvents cfg dur k s ++
        .tick (t - (runD cfg s (drainEvents cfg dur k s)).now).toNat ::
          loopEvents cfg dur k n
            (runD cfg s (drainEvents cfg dur k s ++
              [.tick (t - (runD cfg s (drainEvents cfg dur k s)).now).toNat]))

/-- The clock value at which call `j` is first seen settled along a run. -/
def settledAt (cfg : Config) (j : Nat) : State → List Event → Option Int
  | s, [] => if ((phaseOf s j).map Phase.isSettled) = some true then some s.now else none
  | s, e :: es =>
    if ((phaseOf s j).map Phase.isSettled) = some true then some s.now
    else
      match step cfg s e with
      | none => none
      | some s1 => settledAt cfg j s1 es

/-- Five calls of `execute` made in the same turn, each with a task that
succeeds. -/
def fiveCalls : List Event :=
  [.call okTask none, .call okTask none, .call okTask none, .call okTask none,
   .call okTask none]

/-- The schedule of the five calls on a limiter with two slots when each task
takes 100 ms. -/
def fiveCallsSchedule : List Event :=
  fiveCalls ++ loopEvents cfgTwo 100 20 20 (runD cfgTwo (init fresh 0) fiveCalls)

/-- An event without the task it carries. -/
inductive Label where
  | tick (dt : Nat)
  | call
  | resume (i : Nat)
deriving DecidableEq, Repr

/-- The label of an event. -/
def Event.label : Event → Label
  | .tick dt => .tick dt
  | .call _ _ => .call
  | .resume i => .resume i

/-! ## The dispatches of one call -/

/-- The times at which call `j` invoked `fetchFn`, newest first. -/
def dispatchesOf (j : Nat) : List Obs → List Int
  | [] => []
  | .dispatch c t :: rest => if c = j then t :: dispatchesOf j rest else dispatchesOf j rest
  | .lowRemaining _ _ :: rest => dispatchesOf j rest

/-- A lower bound on the time of the next dispatch of a call, relative to an
earlier dispatch at `t`, when each retry wait lasts at least `d`: a call that
waits for its retry until `w` has `t + d ≤ w`, a call that has re-entered
admission has `t + d ≤ now`; in the other phases `t` is just in the past. -/
def NextDispatchBound (d now : Int) (ph : Phase) (t : Int) : Prop :=
  match ph with
  | .retryWait w => t + d ≤ w
  | .queued => t + d ≤ now
  | .admitted => t + d ≤ now
  | .pacing _ => t + d ≤ now
  | .fetching => t ≤ now
  | .pausing _ _ => t ≤ now
  | .settled _ => t ≤ now

/-- The response that the call is about to act upon, if any: the result of the
task while the call awaits it, the response in hand during the pause. -/
def Call.pendingResponse (c : Call) : Option Response :=
  match c.phase with
  | .fetching =>
    match c.task (c.invocations - 1) with
    | .resolves r => some r
    | .rejects _ => none
  | .pausing r _ => some r
  | _ => none

/-- Two dispatches of call `j` are at least `d` apart, and the call cannot
dispatch again before `d` has passed since its latest dispatch. -/
structure RetrySpacing (d : Int) (j : Nat) (s : State) : Prop where
  bound : ∀ c, s.calls[j]? = some c →
    ∀ t ∈ dispatchesOf j s.log, NextDispatchBound d s.now c.phase t
  paced : Paced d (dispatchesOf j s.log)
  count : ∀ c, s.calls[j]? = some c → (dispatchesOf j s.log).length = c.invocations

/-- Bookkeeping of a call whose task answers its first invocation with the
429 response `r429` and its second with `rOk`, not a 429, when the call
started with `budget > 0` retries: at most two invocations, and the call can
only resolve with `rOk`, after the second. -/
def RetryOnceInv (task : Task) (r429 rOk : Response) (budget : Nat) (c : Call) : Prop :=
  c.task = task ∧
  match c.phase with
  | .queued =>
    (c.invocations = 0 ∧ c.retries = budget) ∨ (c.invocations = 1 ∧ c.retries + 1 = budget)
  | .admitted =>
    (c.invocations = 0 ∧ c.retries = budget) ∨ (c.invocations = 1 ∧ c.retries + 1 = budget)
  | .pacing _ =>
    (c.invocations = 0 ∧ c.retries = budget) ∨ (c.invocations = 1 ∧ c.retries + 1 = budget)
  | .fetching => (c.invocations = 1 ∧ c.retries = budget) ∨ c.invocations = 2
  | .pausing r _ =>
    (c.invocations = 1 ∧ c.retries = budget ∧ r = r429) ∨ (c.invocations = 2 ∧ r = rOk)
  | .retryWait _ => c.invocations = 1 ∧ c.retries = budget
  | .settled o => c.invocations = 2 ∧ o = .resolved rOk

/-- A response with status 429 and `Retry-After: 1`. -/
def retryAfterOne : Response := { status := 429, retryAfter := some "1", payload := 0 }

/-- A task that answers 429 with `Retry-After: 1` once and then succeeds. -/
def retryAfterOneTask : Task := fun n =>
  if n = 0 then .resolves retryAfterOne else .resolves (plainResponse 200)

/-- `createRateLimiter({ maxRetries: 3 })`. -/
def cfgRetries3 : Config := (createRateLimiter { maxRetries := some 3 }).1

/-- `createRateLimiter({ maxRetries: 3, parseRateLimit })` with a hook that
throws. -/
def cfgRetries3ThrowingHook : Config :=
  (createRateLimiter { maxRetries := some 3, parseRateLimit := some throwingHook }).1

/-! ## What a transition does to the slot counter -/

/-- Call `i` ran `releaseSlot()` between `s` and `s1`: counter and queue are
as `releaseSlot` leaves them, call `i` owned a slot and owns none afterwards,
the waiter whose resolver was shifted off the queue (if any) has its promise
resolved, and no other call was touched. -/
structure ReleaseEffect (s s1 : State) (i : Nat) : Prop where
  active : s1.lim.activeRequests = (releaseSlot s.lim).1.activeRequests
  queue : s1.lim.requestQueue = (releaseSlot s.lim).1.requestQueue
  releaser : ∃ c c1, s.calls[i]? = some c ∧ c.phase.holdsSlot = true ∧
    s1.calls[i]? = some c1 ∧ c1.phase.holdsSlot = false ∧ c1.releases = c.releases + 1
  woken : ∀ w, (releaseSlot s.lim).2 = some w →
    ∃ cw, s.calls[w]? = some cw ∧ cw.phase = .queued ∧ s1.calls[w]? = some cw.granted
  others : ∀ (j : Nat) (cj : Call), j ≠ i → (releaseSlot s.lim).2 ≠ some j →
    s.calls[j]? = some cj → s1.calls[j]? = some cj

/-- Call `k` ran `waitForSlot()` between `s` and `s1`: the limiter variables
are as `waitForSlot` leaves them, call `k` was not waiting in the queue, it is
now admitted or queued as the flag of `waitForSlot` says, and no other call was
touched. -/
structure EnterEffect (cfg : Config) (s s1 : State) (k : Nat) : Prop where
  lim : s1.lim = (waitForSlot cfg s.lim k).1
  fresh : k ∉ s.lim.requestQueue
  caller : ∃ c1, s1.calls[k]? = some c1 ∧
    c1.phase = (if (waitForSlot cfg s.lim k).2 = true then Phase.admitted else Phase.queued)
  others : ∀ (j : Nat) (cj : Call), j ≠ k → s.calls[j]? = some cj → s1.calls[j]? = some cj

/-- The effect of a transition on the slot counter and the queue: no slot
operation (only the call whose continuation ran may have changed, and it
still owns a slot exactly if it did), or one
`waitForSlot()` by a new call or by a retry, or one `releaseSlot()`. -/
def SlotEffect (cfg : Config) (s s1 : State) (e : Event) : Prop :=
  (s1.lim.activeRequests = s.lim.activeRequests ∧
    s1.lim.requestQueue = s.lim.requestQueue ∧
    (∀ (j : Nat) (cj : Call), e ≠ .resume j → s.calls[j]? = some cj →
      s1.calls[j]? = some cj) ∧
    ∀ (j : Nat) (cj c1 : Call), s.calls[j]? = some cj → s1.calls[j]? = some c1 →
      c1.phase.holdsSlot = cj.phase.holdsSlot) ∨
  (∃ k, (((∃ c w, e = .resume k ∧ s.calls[k]? = some c ∧ c.phase = .retryWait w) ∨
      (k = s.calls.length ∧ ∃ task retries, e = .call task retries))) ∧
    EnterEffect cfg s s1 k) ∨
  (∃ i, e = .resume i ∧ ReleaseEffect s s1 i)

/-- While a waiter is queued no slot is free: the counter stands at
`maxConcurrent` (at 0 should `maxConcurrent` be negative). -/
def NoFreeSlot (cfg : Config) (s : State) : Prop :=
  s.lim.requestQueue ≠ [] → s.lim.activeRequests = max cfg.maxConcurrent 0

/-- Call 0 holds the only slot and has started its task, call 1 waits in the
queue. -/
def fifoFetching : State := runD cfgOne (init fresh 0) (fifoBefore ++ [.resume 0])

/-- One slot. Call 0 is rejected with 429 once; call 1 is made while call 0
holds the slot and is handed the slot when call 0 releases it for its retry
wait; call 2 is made during that wait and queues; the clock then reaches
the end of the wait. -/
def retryQueueDemo : List Event :=
  [.call retryOnceTask none, .call okTask none, .resume 0, .resume 0, .call okTask none,
   .tick 2000]

/-- The state at the end of `retryQueueDemo`: call 0 waits for its retry, call
1 holds the slot, call 2 is queued. -/
def retryWaiting : State := runD cfgOne (init fresh 0) retryQueueDemo

/-- A call made on a fresh limiter at clock 0 whose task has been started and
will answer 429 with `Retry-After: 1`. -/
def retryAfterOnePending : State :=
  runD cfgRetries3 (init fresh 0) [.call retryAfterOneTask none, .resume 0]

/-! ## Pacing on one slot -/

/-- The effect of a transition on `lastRequestTime` and on the dispatch times:
both unchanged, or a call that was just admitted and needs no pacing wait, or
whose pacing wait is over, sets `lastRequestTime` to the clock and invokes
`fetchFn`. -/
def PacingEffect (cfg : Config) (s s1 : State) : Prop :=
  (s1.lim.lastRequestTime = s.lim.lastRequestTime ∧
    dispatchTimes s1.log = dispatchTimes s.log) ∨
  (∃ (i : Nat) (c c1 : Call), s.calls[i]? = some c ∧
    ((c.phase = .admitted ∧ pacingDelay cfg s.lim s.now = none) ∨
      ∃ w, c.phase = .pacing w ∧ w ≤ s.now) ∧
    s1.calls[i]? = some c1 ∧ c1.phase = .fetching ∧
    s1.lim.lastRequestTime = s.now ∧ dispatchTimes s1.log = s.now :: dispatchTimes s.log)

/-- What pacing guarantees on one slot: `lastRequestTime` is the time of the
latest dispatch, the dispatches so far are at least `delayBetweenRequests`
apart, and a call in its pacing wait is not due before
`lastRequestTime + delayBetweenRequests`. -/
structure PacingInv (cfg : Config) (s : State) : Prop where
  latest : ∀ (t : Int) (rest : List Int), dispatchTimes s.log = t :: rest →
    s.lim.lastRequestTime = t
  paced : Paced cfg.delayBetweenRequests (dispatchTimes s.log)
  waiting : ∀ (i : Nat) (c : Call) (w : Int), s.calls[i]? = some c → c.phase = .pacing w →
    s.lim.lastRequestTime + cfg.delayBetweenRequests ≤ w

/-- `createRateLimiter({ maxConcurrent: 1, delayBetweenRequests: 50 })`. -/
def cfgPacedOne : Config :=
  (createRateLimiter { maxConcurrent := some 1, delayBetweenRequests := some 50 }).1

/-- The three calls of `burst` on one slot: each call is dispatched once the
call before it has settled and 50 ms have passed since the dispatch before. -/
def burstOne : List Event :=
  [.call okTask none, .call okTask none, .call okTask none,
   .resume 0, .tick 10, .resume 0, .resume 1, .tick 40, .resume 1, .resume 1, .resume 2,
   .tick 50, .resume 2]

/-- A response with status 429 and `Retry-After: 2147484`, the first number
of seconds whose thousandfold exceeds `TIMEOUT_MAX`. -/
def retryAfterLong : Response := { status := 429, retryAfter := some "2147484", payload := 0 }

/-- A task that answers 429 with `Retry-After: 2147484` once and then
succeeds. -/
def retryAfterLongTask : Task := fun n =>
  if n = 0 then .resolves retryAfterLong else .resolves (plainResponse 200)

end RateLimiter

/-! # Image URLs, viewing years and OMDB ratings: definitions -/

namespace Images

/-- `String.prototype.startsWith` for a search string of ASCII characters:
`p` is an initial segment of `s`. -/
def startsWith (s p : String) : Bool := p.data.isPrefixOf s.data

/-- `getImageUrl` of `src/utils/images.js`, lines 11-15. The argument is
`none` for `null` or `undefined`; the result is `none` for `null`. The empty
string is falsy. -/
def getImageUrl (imageUrl : Option String) : Option String :=
  match imageUrl with
  | none => none
  | some u =>
    if u = "" then none
    else if startsWith u "http" then some u
    else some ("https://" ++ u)

/-- The reference of the claim, in its words: `null` for `null`, `undefined`
or the empty string; the input unchanged when it starts with "http"; otherwise
"https://" prepended to the input. -/
def getImageUrlReference (imageUrl : Option String) : Option String :=
  match imageUrl with
  | none => none
  | some u =>
    if u = "" then none
    else if startsWith u "http" then some u
    else some ("https://" ++ u)

/-- The result is a URL with the https protocol. -/
def hasHttps (result : Option String) : Bool :=
  match result with
  | none => false
  | some u => startsWith u "https://"

end Images

namespace ApiTrakt

/-- `getImageUrl` of `src/services/apiTrakt.js`, lines 357-361, the second
exported copy. -/
def getImageUrl (imageUrl : Option String) : Option String :=
  match imageUrl with
  | none => none
  | some u =>
    if u = "" then none
    else if Images.startsWith u "http" then some u
    else some ("https://" ++ u)

end ApiTrakt

namespace SeriesDB

/-- One element of `ListSeriesSeasons`. -/
structure SeasonEntry where
  idTrakt : String
  numberSeason : Nat
  yearViewed : Int
  platformViewed : String
  statusViewed : String
deriving DecidableEq, Repr

/-- An object literal of `ListSeriesSeasons`, fields in the order of the
source. -/
def entry (idTrakt : String) (numberSeason : Nat) (yearViewed : Int)
    (platformViewed statusViewed : String) : SeasonEntry :=
  { idTrakt := idTrakt, numberSeason := numberSeason, yearViewed := yearViewed,
    platformViewed := platformViewed, statusViewed := statusViewed }

/-- The array `ListSeriesSeasons` of `src/data/SeriesDB.js`. -/
def ListSeriesSeasons : List SeasonEntry :=
  [
    entry "the-prince-of-tennis-ii-u-17-world-cup" 1 2024 "crunchyroll" "completed",
    entry "blue-lock" 1 2025 "crunchyroll" "completed",
    entry "castlevania-nocturne" 1 2025 "Netflix" "completed",
    entry "castlevania-nocturne" 2 2025 "Netflix" "completed",
    entry "my-love-story" 1 2025 "crunchyroll" "completed",
    entry "white-collar" 1 2025 "Disney+" "completed",
    entry "white-collar" 2 2025 "Disney+" "completed",
    entry "white-collar" 3 2025 "Disney+" "completed",
    entry "white-collar" 4 2025 "Disney+" "completed",
    entry "white-collar" 5 2025 "Disney+" "completed",
    entry "white-collar" 6 2025 "Disney+" "completed",
    entry "dragon-ball-daima" 1 2025 "crunchyroll" "completed",
    entry "formula-1-drive-to-survive" 7 2025 "netflix" "completed",
    entry "solo-leveling" 1 2025 "crunchyroll" "completed",
    entry "you" 4 2025 "netflix" "completed",
    entry "you" 5 2025 "netflix" "completed",
    entry "black-mirror" 7 2025 "netflix" "completed",
    entry "ghosts-2021" 1 2025 "Netflix" "completed",
    entry "ghosts-2021" 2 2025 "Netflix" "completed",
    entry "chrono-crusade" 1 2025 "crunchyroll" "completed",
    entry "the-beginning-after-the-end" 1 2025 "crunchyroll" "completed",
    entry "squid-game" 3 2025 "Disney+" "completed",
    entry "the-day-of-the-jackal" 1 2025 "Disney+" "completed",
    entry "my-hero-academia-vigilantes" 1 2025 "Crunchyroll" "completed",
    entry "chespirito-not-really-on-purpose" 1 2025 "HBO Max" "completed",
    entry "the-playlist-2022" 1 2025 "Netflix" "completed",
    entry "kaiju-no-8" 1 2025 "Crunchyroll" "completed",
    entry "anne-shirley" 1 2025 "Crunchyroll" "completed",
    entry "it-welcome-to-derry" 1 2025 "HBO Max" "completed",
    entry "ghosts-2021" 3 2025 "Netflix" "completed",
    entry "east-new-york" 1 2026 "HBO Max" "completed",
    entry "wandavision" 1 2026 "Disney+" "completed",
    entry "the-falcon-and-the-winter-soldier" 1 2026 "Disney+" "completed",
    entry "loki-2021" 1 2026 "Disney+" "completed",
    entry "spy-x-family" 3 2026 "Crunchyroll" "ongoing",
    entry "what-if-2021" 1 2026 "Disney+" "completed",
    entry "hawkeye-2021" 1 2026 "Disney+" "completed",
    entry "moon-knight" 1 2026 "Disney+" "completed",
    entry "ms-marvel" 1 2026 "Disney+" "completed",
    entry "i-am-groot" 1 2026 "Disney+" "completed",
    entry "she-hulk-attorney-at-law" 1 2026 "Disney+" "completed",
    entry "secret-invasion" 1 2026 "Disney+" "completed",
    entry "i-am-groot" 2 2026 "Disney+" "completed",
    entry "loki-2021" 2 2026 "Disney+" "completed"
  ]

/-- `[...new Set(xs)]`: the distinct values, in the order of their first
occurrence. -/
def distinct : List Int → List Int
  | [] => []
  | x :: xs => x :: (distinct xs).filter (fun y => y ≠ x)

/-- One step of `Array.prototype.sort(compare)` seen as a stable insertion
sort: `x` goes before the first element `y` with `compare(x, y) <= 0`. -/
def insertBy (compare : Int → Int → Int) (x : Int) : List Int → List Int
  | [] => [x]
  | y :: ys => if compare x y ≤ 0 then x :: y :: ys else y :: insertBy compare x ys

/-- `xs.sort(compare)`. -/
def sortBy (compare : Int → Int → Int) (xs : List Int) : List Int :=
  xs.foldr (insertBy compare) []

/-- Lines 325-328 on an arbitrary array of seasons: the distinct
`yearViewed` values, sorted with the comparator `(a, b) => a - b`. -/
def getAvailableYearsOf (seasons : List SeasonEntry) : List Int :=
  sortBy (fun a b => a - b) (distinct (seasons.map (fun s => s.yearViewed)))

/-- `getAvailableYears()`. -/
def getAvailableYears : List Int := getAvailableYearsOf ListSeriesSeasons

/-- Largest year first: each element is greater than the next. -/
def descending : List Int → Bool
  | x :: y :: rest => decide (y < x) && descending (y :: rest)
  | _ => true

end SeriesDB

namespace OMDB

/-- A property value read from parsed JSON, as far as `getMovieRatings` tells
values apart: `undefined` (missing property), `null`, or a string. -/
inductive Field where
  | undefined
  | null
  | str (s : String)
deriving DecidableEq, Repr

/-- An element of `data.Ratings`. -/
structure RatingEntry where
  Source : Field
  Value : Field
deriving DecidableEq, Repr

/-- The properties of the parsed body that `getMovieRatings` reads.
`Ratings` is `none` when the property is missing or is not an array; an
element `none` is a `null` element, on which `r.Source` throws. -/
structure Data where
  Response : Field
  Error : Field
  imdbRating : Field
  imdbVotes : Field
  Metascore : Field
  Ratings : Option (List (Option RatingEntry))
deriving DecidableEq, Repr

/-- What `await response.json()` does: it throws (malformed JSON, network
error), or yields `null` (on which `data.Response` throws), or yields a value
with properties. -/
inductive JsonResult where
  | throws
  | null
  | data (d : Data)
deriving DecidableEq, Repr

/-- The response of `fetch`, as far as it is read. -/
structure HttpResponse where
  ok : Bool
  status : Nat
  json : JsonResult
deriving DecidableEq, Repr

/-- What `await omdbLimiter.execute(() => fetch(url))` does: it throws the
error of `fetch`, or yields the response. -/
inductive Fetched where
  | rejects
  | resolves (response : HttpResponse)
deriving DecidableEq, Repr

/-- The object built at lines 74-80. -/
structure Ratings where
  imdb : Field
  imdbVotes : Field
  metascore : Field
  rottenTomatoes : Field
  popcornmeter : Field
deriving DecidableEq, Repr

/-- The module variable `ratingsCache`, a `Map` from IMDB id to ratings:
entries newest first. -/
abbrev Cache := List (String × Ratings)

/-- `ratingsCache.get(id)`; `none` when `ratingsCache.has(id)` is false. -/
def Cache.get (cache : Cache) (id : String) : Option Ratings :=
  match cache with
  | [] => none
  | (k, v) :: rest => if k = id then some v else Cache.get rest id

/-- `ratingsCache.set(id, ratings)`. -/
def Cache.set (cache : Cache) (id : String) (ratings : Ratings) : Cache :=
  (id, ratings) :: cache.filter (fun kv => kv.1 ≠ id)

/-- How the promise returned by `getMovieRatings` settles. -/
inductive Settled where
  | resolved (value : Option Ratings)
  | rejected
deriving DecidableEq, Repr

/-- What one call of `getMovieRatings` does: the settlement of its promise,
the cache afterwards, and whether `omdbLimiter.execute` was called. -/
structure Effect where
  settled : Settled
  cache : Cache
  calledLimiter : Bool
deriving DecidableEq, Repr

/-- `x !== "N/A" ? x : null` (lines 75-77). -/
def naToNull (x : Field) : Field :=
  if x ≠ .str "N/A" then x else .null

/-- Lines 83-88: `data.Ratings.find(r => r.Source === "Rotten Tomatoes")`;
`Except.error` when the callback throws on a `null` element met before a
match. -/
def findRotten : List (Option RatingEntry) → Except Unit (Option RatingEntry)
  | [] => .ok none
  | none :: _ => .error ()
  | some r :: rest => if r.Source = .str "Rotten Tomatoes" then .ok (some r) else findRotten rest

/-- Truthiness of a property value. -/
def Field.truthy : Field → Bool
  | .str s => s ≠ ""
  | _ => false

/-- Lines 74-98: the ratings object built from the parsed body, or an error
thrown on the way. `percent` stands for the arithmetic of lines 94-97
(`parseFloat`, times ten, `Math.round`, percent sign). -/
def buildRatings (percent : String → String) (d : Data) : Except Unit Ratings :=
  let base : Ratings :=
    { imdb := naToNull d.imdbRating
      imdbVotes := naToNull d.imdbVotes
      metascore := naToNull d.Metascore
      rottenTomatoes := .null
      popcornmeter := .null }
  let withRotten : Except Unit Ratings :=
    match d.Ratings with
    | none => .ok base
    | some rs =>
      match findRotten rs with
      | .error e => .error e
      | .ok none => .ok base
      | .ok (some r) => .ok { base with rottenTomatoes := r.Value }
  match withRotten with
  | .error e => .error e
  | .ok ratings =>
    match d.imdbRating with
    | .str s =>
      if d.imdbRating.truthy ∧ d.imdbRating ≠ .str "N/A" then
        .ok { ratings with popcornmeter := .str (percent s) }
      else .ok ratings
    | _ => .ok ratings

/-- The `try` block, lines 54-103: `Except.error` when something in it
throws, else the returned value and the cache afterwards. -/
def tryBlock (percent : String → String) (cache : Cache) (imdbId : String)
    (fetched : Fetched) : Except Unit (Option Ratings × Cache) :=
  match fetched with
  | .rejects => .error ()
  | .resolves response =>
    if !response.ok then .ok (none, cache)
    else
      match response.json with
      | .throws => .error ()
      | .null => .error ()
      | .data d =>
        if d.Response = .str "False" then .ok (none, cache)
        else
          match buildRatings percent d with
          | .error e => .error e
          | .ok ratings => .ok (some ratings, Cache.set cache imdbId ratings)

/-- `getMovieRatings(imdbId)`, lines 45-108, on cache `cache` when the limiter
call behaves as `fetched`. `imdbId = none` is `null` or `undefined`; the empty
string is falsy too. -/
def getMovieRatings (percent : String → String) (cache : Cache) (imdbId : Option String)
    (fetched : Fetched) : Effect :=
  match imdbId with
  | none => { settled := .resolved none, cache := cache, calledLimiter := false }
  | some id =>
    if id = "" then { settled := .resolved none, cache := cache, calledLimiter := false }
    else
      match Cache.get cache id with
      | some ratings =>
        { settled := .resolved (some ratings), cache := cache, calledLimiter := false }
      | none =>
        match tryBlock percent cache id fetched with
        | .ok (value, cache1) =>
          { settled := .resolved value, cache := cache1, calledLimiter := true }
        | .error _ => { settled := .resolved none, cache := cache, calledLimiter := true }

/-- The call ends in an error path: `fetch` threw, the status is not OK, the
body is not JSON or is `null`, the body says `Response: "False"`, or building
the ratings threw. -/
def failed (percent : String → String) (fetched : Fetched) : Bool :=
  match fetched with
  | .rejects => true
  | .resolves response =>
    !response.ok ||
      match response.json with
      | .throws => true
      | .null => true
      | .data d =>
        d.Response = .str "False" ||
          match buildRatings percent d with
          | .error _ => true
          | .ok _ => false

end OMDB

/-! # The fetch scripts (`searchGame`, `fetchTrakt`): definitions -/

namespace FetchNextGames

/-- An element of the array returned by IGDB, as far as `searchGame` reads it.
`name` is `none` when the property is missing or is not a string, in which
case `r.name.toLowerCase()` throws; `id` stands for the rest of the record. -/
structure Game where
  id : Nat
  name : Option String
deriving DecidableEq, Repr

/-- What `await fetchIGDB(accessToken, "/games", body)` does (line 131): it
throws, the request having failed, or it yields `undefined` or `null` (`none`)
or the parsed array of results. -/
inductive Fetched where
  | throws
  | value (results : Option (List Game))
deriving DecidableEq, Repr

/-- How the promise returned by `searchGame` settles; `none` is `null`. -/
inductive Settled where
  | resolved (game : Option Game)
  | rejected
deriving DecidableEq, Repr

/-- Lines 137-139: `results.find((r) => r.name.toLowerCase() ===
title.toLowerCase())`; `Except.error` when the callback throws on a result
without a name met before a match. -/
def findExact (toLowerCase : String → String) (title : String) :
    List Game → Except Unit (Option Game)
  | [] => .ok none
  | r :: rest =>
    match r.name with
    | none => .error ()
    | some n =>
      if toLowerCase n = toLowerCase title then .ok (some r)
      else findExact toLowerCase title rest

/-- `searchGame(accessToken, title)`, lines 125-145, when `fetchIGDB` behaves
as `fetched`. `toLowerCase` stands for `String.prototype.toLowerCase`. An
error thrown inside the `try` block is caught and `null` is returned. -/
def searchGame (toLowerCase : String → String) (title : String) (fetched : Fetched) : Settled :=
  match fetched with
  | .throws => .resolved none
  | .value none => .resolved none
  | .value (some []) => .resolved none
  | .value (some (first :: rest)) =>
    match findExact toLowerCase title (first :: rest) with
    | .error _ => .resolved none
    | .ok (some exactMatch) => .resolved (some exactMatch)
    | .ok none => .resolved (some first)

/-- The name of the result equals the title ignoring case. -/
def matchesTitle (toLowerCase : String → String) (title : String) (r : Game) : Bool :=
  match r.name with
  | none => false
  | some n => decide (toLowerCase n = toLowerCase title)

/-- The reference of the claim, in its words: the first result whose name
equals the title ignoring case when there is one, otherwise the first result
of the list. -/
def firstMatchOrFirst (toLowerCase : String → String) (title : String)
    (results : List Game) : Option Game :=
  match results.find? (matchesTitle toLowerCase title) with
  | some m => some m
  | none => results.head?

/-- ASCII lower-casing, a sample for `toLowerCase`. -/
def asciiLower (s : String) : String := String.mk (s.toList.map Char.toLower)

/-- A sample result list: no exact match first, then two results whose names
equal "Hades" ignoring case. -/
def sampleResults : List Game :=
  [{ id := 1, name := some "Hades II" }, { id := 2, name := some "HADES" },
   { id := 3, name := some "hades" }]

end FetchNextGames

namespace Scripts

/-- What `await response.json()` does: it throws, or yields the parsed
value. -/
inductive Body where
  | throws (err : Nat)
  | json (value : Nat)
deriving DecidableEq, Repr

/-- The response of `fetch`, as far as `fetchTrakt` reads it. -/
structure HttpResponse where
  status : Nat
  ok : Bool
  retryAfter : Option String
  body : Body
deriving DecidableEq, Repr

/-- What one `await fetch(url, ...)` does: it throws, or yields a response. -/
inductive FetchResult where
  | rejects (err : Nat)
  | resolves (response : HttpResponse)
deriving DecidableEq, Repr

/-- What the caller of `fetchTrakt` can catch: an error thrown by `fetch` or by
`response.json()`, or the `Error` built from the status of a response that is
not OK. -/
inductive Thrown where
  | error (err : Nat)
  | http (status : Nat)
deriving DecidableEq, Repr

/-- How the promise returned by `fetchTrakt` settles; `returned none` is
`undefined`. -/
inductive Outcome where
  | returned (value : Option Nat)
  | threw (e : Thrown)
deriving DecidableEq, Repr

/-- What a call of `fetchTrakt` does: how it settles, how many times it called
`fetch`, and the durations of the delays it awaited, in order. -/
structure Effect where
  outcome : Outcome
  fetches : Nat
  delays : List Int
deriving DecidableEq, Repr

/-- One more `fetch` and the given delays happened before `e`. -/
def Effect.after (delays : List Int) (e : Effect) : Effect :=
  { outcome := e.outcome, fetches := e.fetches + 1, delays := delays ++ e.delays }

/-- The duration of `delay(retryAfter * 1000)` with `retryAfter =
parseInt(response.headers.get("Retry-After") || "10", 10)`, as the timer of
Node takes it. -/
def retryDelayMs (r : HttpResponse) : Int :=
  let retryAfter : RateLimiter.JsNumber :=
    match r.retryAfter with
    | none => RateLimiter.parseInt "10"
    | some h => if h.isEmpty then RateLimiter.parseInt "10" else RateLimiter.parseInt h
  RateLimiter.timeoutMs retryAfter.times1000

end Scripts

namespace FetchMovies

open Scripts

/-- The `for` loop of `fetchTrakt`, `src/scripts/fetch-movies.js` lines 57-81,
with `k` iterations left and the loop variable at `attempt`; `net n` is what
the `n`-th `fetch` (counted from 0) does. Falling off the end of the loop
returns `undefined`. -/
def attempts (net : Nat → FetchResult) (retries : Nat) : Nat → Nat → Effect
  | 0, _ => { outcome := .returned none, fetches := 0, delays := [] }
  | k + 1, attempt =>
    match net (attempt - 1) with
    | .rejects err =>
      if attempt = retries then { outcome := .threw (.error err), fetches := 1, delays := [] }
      else (attempts net retries k (attempt + 1)).after [2000]
    | .resolves response =>
      if response.status = 429 then
        (attempts net retries k (attempt + 1)).after [retryDelayMs response]
      else if !response.ok then
        if attempt = retries then
          { outcome := .threw (.http response.status), fetches := 1, delays := [] }
        else (attempts net retries k (attempt + 1)).after [2000]
      else
        match response.body with
        | .json value => { outcome := .returned (some value), fetches := 1, delays := [150] }
        | .throws err =>
          if attempt = retries then
            { outcome := .threw (.error err), fetches := 1, delays := [150] }
          else (attempts net retries k (attempt + 1)).after [150, 2000]

/-- `fetchTrakt(endpoint, retries)` of `src/scripts/fetch-movies.js`, lines
54-82: the loop runs from `attempt = 1` while `attempt <= retries`. -/
def fetchTrakt (net : Nat → FetchResult) (retries : Nat) : Effect :=
  attempts net retries retries 1

end FetchMovies

namespace FetchSeries

open Scripts

/-- The `for` loop of `fetchTrakt`, `src/scripts/fetch-series.js` lines 49-73,
the second copy of the function. -/
def attempts (net : Nat → FetchResult) (retries : Nat) : Nat → Nat → Effect
  | 0, _ => { outcome := .returned none, fetches := 0, delays := [] }
  | k + 1, attempt =>
    match net (attempt - 1) with
    | .rejects err =>
      if attempt = retries then { outcome := .threw (.error err), fetches := 1, delays := [] }
      else (attempts net retries k (attempt + 1)).after [2000]
    | .resolves response =>
      if response.status = 429 then
        (attempts net retries k (attempt + 1)).after [retryDelayMs response]
      else if !response.ok then
        if attempt = retries then
          { outcome := .threw (.http response.status), fetches := 1, delays := [] }
        else (attempts net retries k (attempt + 1)).after [2000]
      else
        match response.body with
        | .json value => { outcome := .returned (some value), fetches := 1, delays := [150] }
        | .throws err =>
          if attempt = retries then
            { outcome := .threw (.error err), fetches := 1, delays := [150] }
          else (attempts net retries k (attempt + 1)).after [150, 2000]

/-- `fetchTrakt(endpoint, retries)` of `src/scripts/fetch-series.js`, lines
46-74. -/
def fetchTrakt (net : Nat → FetchResult) (retries : Nat) : Effect :=
  attempts net retries retries 1

end FetchSeries

namespace Scripts

/-- A network that answers every request with status 429 and no `Retry-After`
header. -/
def always429 : Nat → FetchResult := fun _ =>
  .resolves { status := 429, ok := false, retryAfter := none, body := .json 0 }

/-- A network that answers every request with status 500. -/
def always500 : Nat → FetchResult := fun _ =>
  .resolves { status := 500, ok := false, retryAfter := none, body := .json 0 }

end Scripts

/-! # The rate limiter: lemmas and claims -/

namespace RateLimiter

/-! ## Lemmas -/

theorem countP_set_add {α : Type} (p : α → Bool) (l : List α) (i : Nat) (a b : α)
    (h : l[i]? = some a) :
    (l.set i b).countP p + (if p a then 1 else 0) = l.countP p + (if p b then 1 else 0) := by
  induction l generalizing i with
  | nil => simp at h
  | cons x xs ih =>
    cases i with
    | zero =>
      simp only [List.getElem?_cons_zero, Option.some.injEq] at h
      subst h
      simp only [List.set_cons_zero, List.countP_cons]
      omega
    | succ n =>
      simp only [List.getElem?_cons_succ] at h
      have := ih n h
      simp only [List.set_cons_succ, List.countP_cons]
      omega

theorem holders_set (cs : List Call) (i : Nat) (a b : Call) (h : cs[i]? = some a) :
    (holders (cs.set i b) : Int) =
      holders cs - (if a.phase.holdsSlot then 1 else 0) + (if b.phase.holdsSlot then 1 else 0) := by
  have := countP_set_add (fun c : Call => c.phase.holdsSlot) cs i a b h
  simp only [holders]
  split_ifs at this ⊢ <;> omega

@[simp] theorem granted_phase (c : Call) : c.granted.phase = .admitted := rfl

@[simp] theorem holdsSlot_queued : Phase.holdsSlot .queued = false := rfl
@[simp] theorem holdsSlot_admitted : Phase.holdsSlot .admitted = true := rfl
@[simp] theorem holdsSlot_pacing (w : Int) : Phase.holdsSlot (.pacing w) = true := rfl
@[simp] theorem holdsSlot_fetching : Phase.holdsSlot .fetching = true := rfl
@[simp] theorem holdsSlot_pausing (r : Response) (w : Int) :
    Phase.holdsSlot (.pausing r w) = true := rfl
@[simp] theorem holdsSlot_retryWait (w : Int) : Phase.holdsSlot (.retryWait w) = false := rfl
@[simp] theorem holdsSlot_settled (o : Outcome) : Phase.holdsSlot (.settled o) = false := rfl

theorem inv_init (cfg : Config) (t0 : Int) : Inv cfg (init fresh t0) := by
  refine ⟨?_, ?_, ?_, ?_⟩
  · simp [init, fresh, createRateLimiter, holders]
  · show (0 : Int) ≤ max cfg.maxConcurrent 0
    omega
  · simp [init, fresh, createRateLimiter]
  · simp [init, fresh, createRateLimiter]

/-- A transition that rewrites the record of a slot owner into another slot
owner and leaves counter and queue alone keeps the invariant. -/
theorem inv_setHold {cfg : Config} {s s1 : State} {i : Nat} {c0 c : Call}
    (h : Inv cfg s) (hi : s.calls[i]? = some c0) (hc0 : c0.phase.holdsSlot = true)
    (hc : c.phase.holdsSlot = true)
    (ha : s1.lim.activeRequests = s.lim.activeRequests)
    (hq : s1.lim.requestQueue = s.lim.requestQueue)
    (hcalls : s1.calls = s.calls.set i c) : Inv cfg s1 := by
  have hne : c.phase ≠ .queued := by
    intro e; rw [e] at hc; simp [Phase.holdsSlot] at hc
  refine ⟨?_, ?_, ?_, ?_⟩
  · rw [ha, hcalls, holders_set _ _ _ _ hi, h.active_eq, hc0, hc]; simp
  · rw [ha]; exact h.active_le
  · rw [hq]; exact h.nodup
  · intro j hj
    rw [hq] at hj
    obtain ⟨cj, hcj, hph⟩ := h.queued j hj
    have hij : i ≠ j := by
      intro e; subst e
      rw [hi] at hcj; cases hcj
      rw [hph] at hc0; simp [Phase.holdsSlot] at hc0
    exact ⟨cj, by rw [hcalls, List.getElem?_set]; simp [hij, hcj], hph⟩

/-- Entering `waitForSlot` from a phase that owns no slot keeps the
invariant. -/
theorem inv_enter {cfg : Config} {s : State} {i : Nat} {c0 : Call} (c : Call)
    (h : Inv cfg s) (hi : s.calls[i]? = some c0) (hc0 : c0.phase.holdsSlot = false)
    (hq : i ∉ s.lim.requestQueue) : Inv cfg (enter cfg s i c) := by
  have hlt : i < s.calls.length := by
    rcases Nat.lt_or_ge i s.calls.length with h1 | h1
    · exact h1
    · rw [List.getElem?_eq_none h1] at hi; cases hi
  unfold enter waitForSlot
  by_cases hfree : s.lim.activeRequests < cfg.maxConcurrent
  · simp only [hfree, if_true]
    refine ⟨?_, ?_, ?_, ?_⟩
    · show s.lim.activeRequests + 1 = _
      rw [holders_set _ _ _ _ hi, h.active_eq, hc0]
      simp
    · show s.lim.activeRequests + 1 ≤ max cfg.maxConcurrent 0
      omega
    · exact h.nodup
    · intro j hj
      obtain ⟨cj, hcj, hph⟩ := h.queued j hj
      have hij : i ≠ j := fun e => hq (e ▸ hj)
      exact ⟨cj, by simp [List.getElem?_set, hij, hcj], hph⟩
  · simp only [hfree, if_false]
    refine ⟨?_, ?_, ?_, ?_⟩
    · show s.lim.activeRequests = _
      rw [holders_set _ _ _ _ hi, h.active_eq, hc0]
      simp
    · exact h.active_le
    · show (s.lim.requestQueue ++ [i]).Nodup
      rw [List.nodup_append]
      refine ⟨h.nodup, List.nodup_singleton i, ?_⟩
      intro a ha hb
      simp only [List.mem_singleton] at hb
      exact hq (hb ▸ ha)
    · intro j hj
      have hj1 : j ∈ s.lim.requestQueue ∨ j = i := by
        simpa [List.mem_append] using hj
      rcases hj1 with hj1 | hj1
      · obtain ⟨cj, hcj, hph⟩ := h.queued j hj1
        have hij : i ≠ j := fun e => hq (e ▸ hj1)
        exact ⟨cj, by simp [List.getElem?_set, hij, hcj], hph⟩
      · subst hj1
        refine ⟨{ c with phase := .queued }, ?_, rfl⟩
        simp [List.getElem?_set, hlt]

/-- A `releaseSlot()` by a slot owner that moves on to a phase without slot
keeps the invariant. -/
theorem inv_release {cfg : Config} {s : State} {i : Nat} {c0 : Call} (c : Call) (ph : Phase)
    (h : Inv cfg s) (hi : s.calls[i]? = some c0) (hc0 : c0.phase.holdsSlot = true)
    (hph : ph.holdsSlot = false) : Inv cfg (releaseBy s i c ph) := by
  have hlt : i < s.calls.length := by
    rcases Nat.lt_or_ge i s.calls.length with h1 | h1
    · exact h1
    · rw [List.getElem?_eq_none h1] at hi; cases hi
  have hiq : ∀ j ∈ s.lim.requestQueue, i ≠ j := by
    intro j hj e
    subst e
    obtain ⟨cj, hcj, hq⟩ := h.queued i hj
    rw [hi] at hcj; cases hcj
    rw [hq] at hc0; simp at hc0
  unfold releaseBy releaseSlot
  cases hqueue : s.lim.requestQueue with
  | nil =>
    simp only [hqueue, wake]
    refine ⟨?_, ?_, ?_, ?_⟩
    · show s.lim.activeRequests - 1 = _
      rw [holders_set _ _ _ _ hi, h.active_eq, hc0, hph]
      simp
    · show s.lim.activeRequests - 1 ≤ max cfg.maxConcurrent 0
      have := h.active_le
      omega
    · show ([] : List Nat).Nodup
      simp
    · intro j hj
      simp at hj
  | cons w rest =>
    simp only [hqueue, wake]
    have hw : w ∈ s.lim.requestQueue := by rw [hqueue]; simp
    obtain ⟨cw, hcw, hwq⟩ := h.queued w hw
    have hiw : i ≠ w := hiq w hw
    have hnd : (w :: rest).Nodup := hqueue ▸ h.nodup
    have hcw1 : (s.calls.set i { c with phase := ph, releases := c.releases + 1 })[w]? = some cw := by
      rw [List.getElem?_set]; simp [hiw, hcw]
    simp only [hcw1]
    refine ⟨?_, ?_, ?_, ?_⟩
    · show s.lim.activeRequests - 1 + 1 = _
      rw [holders_set _ _ _ _ hcw1, holders_set _ _ _ _ hi, h.active_eq, hc0, hph, hwq]
      simp
    · show s.lim.activeRequests - 1 + 1 ≤ max cfg.maxConcurrent 0
      have := h.active_le
      omega
    · exact (List.nodup_cons.mp hnd).2
    · intro j hj
      have hj1 : j ∈ rest := hj
      have hjq : j ∈ s.lim.requestQueue := by rw [hqueue]; exact List.mem_cons_of_mem _ hj1
      obtain ⟨cj, hcj, hph1⟩ := h.queued j hjq
      have hij : i ≠ j := hiq j hjq
      have hwj : w ≠ j := by
        intro e; subst e
        exact (List.nodup_cons.mp hnd).1 hj1
      refine ⟨cj, ?_, hph1⟩
      rw [List.getElem?_set, if_neg hwj, List.getElem?_set, if_neg hij]
      exact hcj

theorem inv_handleStatus {cfg : Config} {s : State} {i : Nat} {c0 : Call} (c : Call)
    (r : Response) (h : Inv cfg s) (hi : s.calls[i]? = some c0)
    (hc0 : c0.phase.holdsSlot = true) : Inv cfg (handleStatus s i c r) := by
  unfold handleStatus
  split_ifs
  · exact inv_release c _ h hi hc0 rfl
  · exact inv_release c _ h hi hc0 rfl

theorem inv_dispatch {cfg : Config} {s : State} {i : Nat} {c0 : Call} (c : Call)
    (h : Inv cfg s) (hi : s.calls[i]? = some c0)
    (hc0 : c0.phase.holdsSlot = true) : Inv cfg (dispatch s i c) :=
  @inv_setHold cfg s _ i c0 { c with phase := .fetching, invocations := c.invocations + 1 }
    h hi hc0 rfl rfl rfl rfl

/-- The invariant is preserved by every transition. -/
theorem inv_step {cfg : Config} {s s1 : State} (e : Event) (h : Inv cfg s)
    (hs : step cfg s e = some s1) : Inv cfg s1 := by
  cases e with
  | tick dt =>
    simp only [step, Option.some.injEq] at hs
    subst hs
    exact ⟨h.active_eq, h.active_le, h.nodup, h.queued⟩
  | call task retries =>
    simp only [step, Option.some.injEq] at hs
    subst hs
    have hext : Inv cfg { s with calls := s.calls ++ [newCall cfg task retries] } := by
      refine ⟨?_, h.active_le, h.nodup, ?_⟩
      · show s.lim.activeRequests = _
        rw [h.active_eq]
        simp [holders, newCall]
      · intro j hj
        obtain ⟨cj, hcj, hph⟩ := h.queued j hj
        have hlt : j < s.calls.length := by
          rcases Nat.lt_or_ge j s.calls.length with h1 | h1
          · exact h1
          · rw [List.getElem?_eq_none h1] at hcj; cases hcj
        exact ⟨cj, by simp [List.getElem?_append_left hlt, hcj], hph⟩
    refine @inv_enter cfg _ _ (newCall cfg task retries) _ hext ?_ rfl ?_
    · simp
    · intro hmem
      obtain ⟨cj, hcj, _⟩ := h.queued _ hmem
      simp at hcj
  | resume i =>
    simp only [step, resume] at hs
    cases hi : s.calls[i]? with
    | none => simp [hi] at hs
    | some c =>
      simp only [hi] at hs
      cases hph : c.phase with
      | queued => simp [hph] at hs
      | settled o => simp [hph] at hs
      | admitted =>
        simp only [hph, Option.some.injEq] at hs
        subst hs
        have hc : c.phase.holdsSlot = true := by rw [hph]; rfl
        unfold afterSlot
        split
        · exact inv_setHold h hi hc (by rfl) rfl rfl rfl
        · exact inv_dispatch c h hi hc
      | pacing w =>
        simp only [hph] at hs
        split_ifs at hs
        simp only [Option.some.injEq] at hs
        subst hs
        exact inv_dispatch c h hi (by rw [hph]; rfl)
      | fetching =>
        simp only [hph, Option.some.injEq] at hs
        subst hs
        have hc : c.phase.holdsSlot = true := by rw [hph]; rfl
        unfold afterFetch
        split
        · exact inv_release c _ h hi hc rfl
        · split
          · exact inv_handleStatus c _ h hi hc
          · split
            · exact inv_release c _ h hi hc rfl
            · exact inv_handleStatus c _ h hi hc
            · have h1 : Inv cfg { s with lim := { s.lim with rateLimitRemaining := some ‹Int› } } :=
                ⟨h.active_eq, h.active_le, h.nodup, h.queued⟩
              split_ifs
              · exact inv_setHold h1 hi hc (by rfl) rfl rfl rfl
              · exact inv_handleStatus c _ h1 hi hc
      | pausing r w =>
        simp only [hph] at hs
        split_ifs at hs
        simp only [Option.some.injEq] at hs
        subst hs
        exact inv_handleStatus c _ h hi (by rw [hph]; rfl)
      | retryWait w =>
        simp only [hph] at hs
        split_ifs at hs
        simp only [Option.some.injEq] at hs
        subst hs
        refine inv_enter _ h hi (by rw [hph]; rfl) ?_
        intro hmem
        obtain ⟨cj, hcj, hq⟩ := h.queued _ hmem
        rw [hi] at hcj; cases hcj
        rw [hph] at hq; cases hq

theorem inv_run {cfg : Config} (es : List Event) {s s1 : State} (h : Inv cfg s)
    (hs : run cfg s es = some s1) : Inv cfg s1 := by
  induction es generalizing s with
  | nil =>
    simp only [run, Option.some.injEq] at hs
    exact hs ▸ h
  | cons e es ih =>
    simp only [run] at hs
    cases hst : step cfg s e with
    | none => simp [hst] at hs
    | some s2 =>
      simp only [hst] at hs
      exact ih (inv_step e h hst) hs

theorem inv_reachable {cfg : Config} {s : State} (h : Reachable cfg s) : Inv cfg s := by
  obtain ⟨t0, es, hrun⟩ := h
  exact inv_run es (inv_init cfg t0) hrun

theorem slotStep_inv {cfg : Config} {s s1 : SlotState} (o : SlotOp)
    (h : s.lim.activeRequests = (s.holding.length : Int) ∧ s.lim.activeRequests ≤ cfg.maxConcurrent)
    (hs : slotStep cfg s o = some s1) :
    s1.lim.activeRequests = (s1.holding.length : Int) ∧
      s1.lim.activeRequests ≤ cfg.maxConcurrent := by
  obtain ⟨h1, h2⟩ := h
  cases o with
  | waitForSlot c =>
    simp only [slotStep, Option.some.injEq] at hs
    subst hs
    unfold waitForSlot
    by_cases hfree : s.lim.activeRequests < cfg.maxConcurrent
    · simp only [hfree, if_true, List.length_cons]
      constructor
      · push_cast; omega
      · omega
    · simp only [hfree, if_false]
      exact ⟨h1, h2⟩
  | releaseSlot c =>
    simp only [slotStep] at hs
    split_ifs at hs with hmem
    simp only [Option.some.injEq] at hs
    subst hs
    have hlen := List.length_erase_of_mem hmem
    have hpos : 0 < s.holding.length := List.length_pos_of_mem hmem
    unfold releaseSlot
    cases hq : s.lim.requestQueue with
    | nil =>
      simp only [hq, hlen]
      constructor
      · show s.lim.activeRequests - 1 = _
        omega
      · show s.lim.activeRequests - 1 ≤ _
        omega
    | cons w rest =>
      simp only [hq, hlen, List.length_cons]
      constructor
      · show s.lim.activeRequests - 1 + 1 = _
        omega
      · show s.lim.activeRequests - 1 + 1 ≤ _
        omega

theorem slotRun_inv {cfg : Config} (os : List SlotOp) {s s1 : SlotState}
    (h : s.lim.activeRequests = (s.holding.length : Int) ∧ s.lim.activeRequests ≤ cfg.maxConcurrent)
    (hs : slotRun cfg s os = some s1) :
    s1.lim.activeRequests = (s1.holding.length : Int) ∧
      s1.lim.activeRequests ≤ cfg.maxConcurrent := by
  induction os generalizing s with
  | nil =>
    simp only [slotRun, Option.some.injEq] at hs
    exact hs ▸ h
  | cons o os ih =>
    simp only [slotRun] at hs
    cases hst : slotStep cfg s o with
    | none => simp [hst] at hs
    | some s2 =>
      simp only [hst] at hs
      exact ih (slotStep_inv o h hst) hs

theorem run_eq_runD {cfg : Config} {s : State} {es : List Event}
    (h : (run cfg s es).isSome = true) : run cfg s es = some (runD cfg s es) := by
  unfold runD
  cases hr : run cfg s es with
  | none => simp [hr] at h
  | some s1 => rfl

theorem inFlight_le_holders (cs : List Call) : inFlight cs ≤ holders cs := by
  unfold inFlight holders
  apply List.countP_mono_left
  intro c _ hc
  cases hp : c.phase <;> simp_all [Phase.isFetching]

/-- C1. With `maxConcurrent = K ≥ 1`, in every state reachable by any
interleaving of any number of `execute` calls, the number of `fetchFn`
invocations that have started and not yet settled is at most `K`. -/
theorem c1_inFlight_le_maxConcurrent (cfg : Config) (s : State)
    (hK : 1 ≤ cfg.maxConcurrent) (h : Reachable cfg s) :
    (inFlight s.calls : Int) ≤ cfg.maxConcurrent := by
  have hinv := inv_reachable h
  have h1 := inFlight_le_holders s.calls
  have h2 := hinv.active_eq
  have h3 := hinv.active_le
  omega

/-- C1 at a concrete run: two slots, three concurrent calls, two tasks in
flight. -/
theorem c1_witness :
    (1 : Int) ≤ cfgTwo.maxConcurrent ∧
    Reachable cfgTwo (runD cfgTwo (init fresh 0) threeCalls) ∧
    inFlight (runD cfgTwo (init fresh 0) threeCalls).calls = 2 ∧
    (inFlight (runD cfgTwo (init fresh 0) threeCalls).calls : Int) ≤ cfgTwo.maxConcurrent :=
  ⟨by decide, ⟨0, threeCalls, run_eq_runD (by decide)⟩, by decide,
    c1_inFlight_le_maxConcurrent cfgTwo _ (by decide) ⟨0, threeCalls, run_eq_runD (by decide)⟩⟩

/-- C2. With `maxConcurrent ≥ 1`, after any sequence of `waitForSlot` and
`releaseSlot` operations from the initial limiter in which only a caller that
holds a slot releases, `0 ≤ activeRequests ≤ maxConcurrent`. -/
theorem c2_activeRequests_bounds (cfg : Config) (ops : List SlotOp) (s : SlotState)
    (hK : 1 ≤ cfg.maxConcurrent)
    (hrun : slotRun cfg { lim := fresh, holding := [] } ops = some s) :
    0 ≤ s.lim.activeRequests ∧ s.lim.activeRequests ≤ cfg.maxConcurrent := by
  have h0 : (fresh.activeRequests = (([] : List Nat).length : Int)) ∧
      fresh.activeRequests ≤ cfg.maxConcurrent := by
    constructor
    · rfl
    · show (0 : Int) ≤ cfg.maxConcurrent
      omega
  have h := @slotRun_inv cfg ops { lim := fresh, holding := [] } s h0 hrun
  constructor
  · rw [h.1]; exact Int.natCast_nonneg _
  · exact h.2

/-- C2 at a concrete sequence: three callers on two slots, all released. -/
theorem c2_witness :
    (1 : Int) ≤ cfgTwo.maxConcurrent ∧
    slotRun cfgTwo { lim := fresh, holding := [] } threeClients =
      some { lim := fresh, holding := [] } ∧
    (0 ≤ fresh.activeRequests ∧ fresh.activeRequests ≤ cfgTwo.maxConcurrent) :=
  ⟨by decide, by decide,
    c2_activeRequests_bounds cfgTwo threeClients { lim := fresh, holding := [] }
      (by decide) (by decide)⟩

/-- The same bounds for the counter in every state of the `execute` system. -/
theorem reachable_activeRequests_bounds {cfg : Config} {s : State}
    (hK : 1 ≤ cfg.maxConcurrent) (h : Reachable cfg s) :
    0 ≤ s.lim.activeRequests ∧ s.lim.activeRequests ≤ cfg.maxConcurrent := by
  have hinv := inv_reachable h
  exact ⟨by rw [hinv.active_eq]; exact Int.natCast_nonneg _, by have := hinv.active_le; omega⟩

/-! ## What a transition does to each call -/

theorem getElem?_lt {cs : List Call} {i : Nat} {c : Call} (h : cs[i]? = some c) :
    i < cs.length := by
  rcases Nat.lt_or_ge i cs.length with h1 | h1
  · exact h1
  · rw [List.getElem?_eq_none h1] at h; cases h

theorem releaseBy_self {cfg : Config} {s : State} {i : Nat} {c0 : Call} (c : Call) (ph : Phase)
    (h : Inv cfg s) (hi : s.calls[i]? = some c0) (hc0 : c0.phase.holdsSlot = true) :
    (releaseBy s i c ph).calls[i]? = some { c with phase := ph, releases := c.releases + 1 } := by
  have hlt := getElem?_lt hi
  unfold releaseBy releaseSlot
  cases hqueue : s.lim.requestQueue with
  | nil => simp [hqueue, wake, List.getElem?_set, hlt]
  | cons w rest =>
    have hw : w ∈ s.lim.requestQueue := by rw [hqueue]; simp
    obtain ⟨cw, hcw, hwq⟩ := h.queued w hw
    have hiw : i ≠ w := by
      intro e; subst e
      rw [hi] at hcw; cases hcw
      rw [hwq] at hc0; simp at hc0
    have hcw1 : (s.calls.set i { c with phase := ph, releases := c.releases + 1 })[w]? = some cw := by
      rw [List.getElem?_set]; simp [hiw, hcw]
    simp only [hqueue, wake, hcw1]
    rw [List.getElem?_set, if_neg (Ne.symm hiw), List.getElem?_set]
    simp [hlt]

theorem releaseBy_other {cfg : Config} {s : State} {i j : Nat} {c0 cj : Call} (c : Call)
    (ph : Phase) (h : Inv cfg s) (hi : s.calls[i]? = some c0)
    (hc0 : c0.phase.holdsSlot = true) (hij : j ≠ i) (hj : s.calls[j]? = some cj) :
    (releaseBy s i c ph).calls[j]? = some cj ∨
      (cj.phase = .queued ∧ (releaseBy s i c ph).calls[j]? = some cj.granted) := by
  unfold releaseBy releaseSlot
  cases hqueue : s.lim.requestQueue with
  | nil =>
    left
    simp only [hqueue, wake]
    rw [List.getElem?_set, if_neg (Ne.symm hij)]
    exact hj
  | cons w rest =>
    have hw : w ∈ s.lim.requestQueue := by rw [hqueue]; simp
    obtain ⟨cw, hcw, hwq⟩ := h.queued w hw
    have hiw : i ≠ w := by
      intro e; subst e
      rw [hi] at hcw; cases hcw
      rw [hwq] at hc0; simp at hc0
    have hcw1 : (s.calls.set i { c with phase := ph, releases := c.releases + 1 })[w]? = some cw := by
      rw [List.getElem?_set]; simp [hiw, hcw]
    simp only [hqueue, wake, hcw1]
    by_cases hwj : w = j
    · right
      subst hwj
      rw [hcw] at hj; cases hj
      refine ⟨hwq, ?_⟩
      rw [List.getElem?_set]
      simp [getElem?_lt hcw]
    · left
      rw [List.getElem?_set, if_neg hwj, List.getElem?_set, if_neg (Ne.symm hij)]
      exact hj

theorem handleStatus_self {cfg : Config} {s : State} {i : Nat} {c : Call} (r : Response)
    (h : Inv cfg s) (hi : s.calls[i]? = some c) (hc : c.phase.holdsSlot = true) :
    (handleStatus s i c r).calls[i]? = some (c.afterResponse s.now r) := by
  unfold handleStatus Call.afterResponse
  split_ifs
  · exact releaseBy_self c _ h hi hc
  · exact releaseBy_self c _ h hi hc

theorem handleStatus_other {cfg : Config} {s : State} {i j : Nat} {c cj : Call} (r : Response)
    (h : Inv cfg s) (hi : s.calls[i]? = some c) (hc : c.phase.holdsSlot = true)
    (hij : j ≠ i) (hj : s.calls[j]? = some cj) :
    (handleStatus s i c r).calls[j]? = some cj ∨
      (cj.phase = .queued ∧ (handleStatus s i c r).calls[j]? = some cj.granted) := by
  unfold handleStatus
  split_ifs
  · exact releaseBy_other c _ h hi hc hij hj
  · exact releaseBy_other c _ h hi hc hij hj

/-- The continuation of call `i` changes the record of call `i` as
`Call.advance` says. -/
theorem resume_self {cfg : Config} {s s1 : State} {i : Nat} {c : Call} (h : Inv cfg s)
    (hi : s.calls[i]? = some c) (hs : resume cfg s i = some s1) :
    s1.calls[i]? = c.advance cfg s.lim s.now := by
  have hlt := getElem?_lt hi
  simp only [resume, hi] at hs
  unfold Call.advance
  cases hph : c.phase with
  | queued => simp [hph] at hs
  | settled o => simp [hph] at hs
  | admitted =>
    simp only [hph, Option.some.injEq] at hs
    subst hs
    unfold afterSlot
    cases hp : pacingDelay cfg s.lim s.now with
    | some d => simp [List.getElem?_set, hlt]
    | none => simp [dispatch, List.getElem?_set, hlt]
  | pacing w =>
    simp only [hph] at hs
    split_ifs at hs with hw
    simp only [Option.some.injEq] at hs
    subst hs
    simp [dispatch, List.getElem?_set, hlt, hw]
  | fetching =>
    simp only [hph, Option.some.injEq] at hs
    subst hs
    have hc : c.phase.holdsSlot = true := by rw [hph]; rfl
    unfold afterFetch Call.afterTask
    simp only
    split
    · exact releaseBy_self c _ h hi hc
    · split
      · exact handleStatus_self _ h hi hc
      · split
        · exact releaseBy_self c _ h hi hc
        · exact handleStatus_self _ h hi hc
        · have h1 : Inv cfg { s with lim := { s.lim with rateLimitRemaining := some ‹Int› } } :=
            ⟨h.active_eq, h.active_le, h.nodup, h.queued⟩
          split_ifs
          · simp [List.getElem?_set, hlt]
          · exact handleStatus_self _ h1 hi hc
  | pausing r w =>
    simp only [hph] at hs
    split_ifs at hs with hw
    simp only [Option.some.injEq] at hs
    subst hs
    simp only [hw, if_true]
    exact handleStatus_self r h hi (by rw [hph]; rfl)
  | retryWait w =>
    simp only [hph] at hs
    split_ifs at hs with hw
    simp only [Option.some.injEq] at hs
    subst hs
    simp only [hw, if_true, retry, enter, waitForSlot]
    by_cases hfree : s.lim.activeRequests < cfg.maxConcurrent
    · simp [hfree, List.getElem?_set, hlt, Call.granted]
    · simp [hfree, List.getElem?_set, hlt]

/-- The continuation of call `i` leaves every other call alone, except that
a release may hand its slot to a queued call. -/
theorem resume_other {cfg : Config} {s s1 : State} {i j : Nat} {c cj : Call} (h : Inv cfg s)
    (hi : s.calls[i]? = some c) (hs : resume cfg s i = some s1) (hij : j ≠ i)
    (hj : s.calls[j]? = some cj) :
    s1.calls[j]? = some cj ∨ (cj.phase = .queued ∧ s1.calls[j]? = some cj.granted) := by
  have hset : ∀ c1 : Call, (s.calls.set i c1)[j]? = some cj := by
    intro c1
    rw [List.getElem?_set, if_neg (Ne.symm hij)]
    exact hj
  simp only [resume, hi] at hs
  cases hph : c.phase with
  | queued => simp [hph] at hs
  | settled o => simp [hph] at hs
  | admitted =>
    simp only [hph, Option.some.injEq] at hs
    subst hs
    left
    unfold afterSlot
    split
    · exact hset _
    · exact hset _
  | pacing w =>
    simp only [hph] at hs
    split_ifs at hs with hw
    simp only [Option.some.injEq] at hs
    subst hs
    left
    exact hset _
  | fetching =>
    simp only [hph, Option.some.injEq] at hs
    subst hs
    have hc : c.phase.holdsSlot = true := by rw [hph]; rfl
    unfold afterFetch
    simp only
    split
    · exact releaseBy_other c _ h hi hc hij hj
    · split
      · exact handleStatus_other _ h hi hc hij hj
      · split
        · exact releaseBy_other c _ h hi hc hij hj
        · exact handleStatus_other _ h hi hc hij hj
        · have h1 : Inv cfg { s with lim := { s.lim with rateLimitRemaining := some ‹Int› } } :=
            ⟨h.active_eq, h.active_le, h.nodup, h.queued⟩
          split_ifs
          · left; exact hset _
          · exact handleStatus_other _ h1 hi hc hij hj
  | pausing r w =>
    simp only [hph] at hs
    split_ifs at hs with hw
    simp only [Option.some.injEq] at hs
    subst hs
    exact handleStatus_other r h hi (by rw [hph]; rfl) hij hj
  | retryWait w =>
    simp only [hph] at hs
    split_ifs at hs with hw
    simp only [Option.some.injEq] at hs
    subst hs
    left
    exact hset _

@[simp] theorem wake_length (cs : List Call) (w : Option Nat) :
    (wake cs w).length = cs.length := by
  unfold wake
  split
  · rfl
  · split <;> simp

@[simp] theorem releaseBy_length (s : State) (i : Nat) (c : Call) (ph : Phase) :
    (releaseBy s i c ph).calls.length = s.calls.length := by
  simp [releaseBy]

@[simp] theorem handleStatus_length (s : State) (i : Nat) (c : Call) (r : Response) :
    (handleStatus s i c r).calls.length = s.calls.length := by
  unfold handleStatus
  split_ifs <;> simp

theorem resume_length {cfg : Config} {s s1 : State} {i : Nat}
    (hs : resume cfg s i = some s1) : s1.calls.length = s.calls.length := by
  simp only [resume] at hs
  cases hi : s.calls[i]? with
  | none => simp [hi] at hs
  | some c =>
    simp only [hi] at hs
    cases hph : c.phase with
    | queued => simp [hph] at hs
    | settled o => simp [hph] at hs
    | admitted =>
      simp only [hph, Option.some.injEq] at hs
      subst hs
      unfold afterSlot
      split <;> simp [dispatch]
    | pacing w =>
      simp only [hph] at hs
      split_ifs at hs
      simp only [Option.some.injEq] at hs
      subst hs
      simp [dispatch]
    | fetching =>
      simp only [hph, Option.some.injEq] at hs
      subst hs
      unfold afterFetch
      simp only
      split
      · simp
      · split
        · simp
        · split
          · simp
          · simp
          · split_ifs <;> simp
    | pausing r w =>
      simp only [hph] at hs
      split_ifs at hs
      simp only [Option.some.injEq] at hs
      subst hs
      simp
    | retryWait w =>
      simp only [hph] at hs
      split_ifs at hs
      simp only [Option.some.injEq] at hs
      subst hs
      simp [retry, enter]

/-- A transition either leaves the record of a call alone, or hands it a slot
while it is queued, or runs its continuation. -/
theorem step_call_cases {cfg : Config} {s s1 : State} {e : Event} {j : Nat} {cj : Call}
    (h : Inv cfg s) (hs : step cfg s e = some s1) (hj : s.calls[j]? = some cj) :
    ∃ c1, s1.calls[j]? = some c1 ∧
      (c1 = cj ∨ (cj.phase = .queued ∧ c1 = cj.granted) ∨
        cj.advance cfg s.lim s.now = some c1) := by
  have hlt := getElem?_lt hj
  cases e with
  | tick dt =>
    simp only [step, Option.some.injEq] at hs
    subst hs
    exact ⟨cj, hj, Or.inl rfl⟩
  | call task retries =>
    simp only [step, Option.some.injEq] at hs
    subst hs
    refine ⟨cj, ?_, Or.inl rfl⟩
    simp only [enter]
    rw [List.getElem?_set, if_neg (by omega), List.getElem?_append_left hlt]
    exact hj
  | resume i =>
    simp only [step] at hs
    by_cases hij : j = i
    · subst hij
      have := resume_self h hj hs
      cases hadv : cj.advance cfg s.lim s.now with
      | none =>
        exfalso
        rw [hadv] at this
        have hlen : j < s1.calls.length := by rw [resume_length hs]; exact hlt
        rw [List.getElem?_eq_getElem hlen] at this
        cases this
      | some c1 =>
        rw [hadv] at this
        exact ⟨c1, this, Or.inr (Or.inr rfl)⟩
    · cases hi : s.calls[i]? with
      | none => simp [resume, hi] at hs
      | some c =>
        rcases resume_other h hi hs hij hj with h1 | ⟨hq, h1⟩
        · exact ⟨cj, h1, Or.inl rfl⟩
        · exact ⟨cj.granted, h1, Or.inr (Or.inl ⟨hq, rfl⟩)⟩

/-- A property of call records that every continuation and every hand-over
of a slot preserves holds for a call along every run. -/
theorem local_inv_run {cfg : Config} (Q : Call → Prop)
    (hadv : ∀ l now c c1, Call.advance cfg l now c = some c1 → Q c → Q c1)
    (hwake : ∀ c, c.phase = .queued → Q c → Q c.granted)
    (es : List Event) {s s1 : State} {j : Nat} {cj : Call}
    (h : Inv cfg s) (hj : s.calls[j]? = some cj) (hQ : Q cj)
    (hrun : run cfg s es = some s1) : ∃ c1, s1.calls[j]? = some c1 ∧ Q c1 := by
  induction es generalizing s cj with
  | nil =>
    simp only [run, Option.some.injEq] at hrun
    subst hrun
    exact ⟨cj, hj, hQ⟩
  | cons e es ih =>
    simp only [run] at hrun
    cases hst : step cfg s e with
    | none => simp [hst] at hrun
    | some s2 =>
      simp only [hst] at hrun
      obtain ⟨c2, hc2, hcase⟩ := step_call_cases h hst hj
      have hQ2 : Q c2 := by
        rcases hcase with h1 | ⟨hq, h1⟩ | h1
        · exact h1 ▸ hQ
        · exact h1 ▸ hwake cj hq hQ
        · exact hadv _ _ _ _ h1 hQ
      exact ih (inv_step e h hst) hc2 hQ2 hrun

theorem run_append {cfg : Config} (es1 es2 : List Event) (s : State) :
    run cfg s (es1 ++ es2) = (run cfg s es1).bind (fun s1 => run cfg s1 es2) := by
  induction es1 generalizing s with
  | nil => rfl
  | cons e es ih =>
    simp only [List.cons_append, run]
    cases step cfg s e with
    | none => rfl
    | some s2 => exact ih s2

/-! ## A call served alone settles -/

theorem afterResponse_fuel (c : Call) (now : Int) (r : Response) :
    (c.afterResponse now r).fuel ≤ 6 * c.retries ∧ (c.afterResponse now r).phase ≠ .queued := by
  unfold Call.afterResponse
  split_ifs with h
  · simp only [Call.fuel]
    constructor
    · omega
    · simp
  · simp [Call.fuel]

theorem afterTask_fuel (cfg : Config) (c : Call) (now : Int) :
    (c.afterTask cfg now).fuel ≤ 6 * c.retries + 2 ∧ (c.afterTask cfg now).phase ≠ .queued := by
  have h1 := fun r => afterResponse_fuel c now r
  unfold Call.afterTask
  split
  · simp [Call.fuel]
  · split
    · exact ⟨by have := (h1 ‹Response›).1; omega, (h1 _).2⟩
    · split
      · simp [Call.fuel]
      · exact ⟨by have := (h1 ‹Response›).1; omega, (h1 _).2⟩
      · split_ifs
        · simp [Call.fuel]
        · exact ⟨by have := (h1 ‹Response›).1; omega, (h1 _).2⟩

/-- A continuation that can run brings the call strictly closer to its end,
provided a retry finds a free slot. -/
theorem advance_solo {cfg : Config} {l : Limiter} {now : Int} {c : Call}
    (hq : c.phase ≠ .queued) (hs : c.phase.isSettled = false) (hdue : c.phase.dueBy now = true)
    (hfree : ∀ w, c.phase = .retryWait w → l.activeRequests < cfg.maxConcurrent) :
    ∃ c1, c.advance cfg l now = some c1 ∧ c1.fuel < c.fuel ∧ c1.phase ≠ .queued := by
  unfold Call.advance
  cases hph : c.phase with
  | queued => exact absurd hph hq
  | settled o => rw [hph] at hs; simp [Phase.isSettled] at hs
  | admitted =>
    simp only
    split
    · exact ⟨_, rfl, by simp [Call.fuel, hph], by simp⟩
    · exact ⟨_, rfl, by simp [Call.fuel, hph], by simp⟩
  | pacing w =>
    have hw : w ≤ now := by simpa [hph, Phase.dueBy] using hdue
    simp only [hw, if_true]
    exact ⟨_, rfl, by simp [Call.fuel, hph], by simp⟩
  | fetching =>
    simp only
    have := afterTask_fuel cfg c now
    refine ⟨_, rfl, ?_, this.2⟩
    have h2 : c.fuel = 6 * c.retries + 3 := by simp [Call.fuel, hph]
    omega
  | pausing r w =>
    have hw : w ≤ now := by simpa [hph, Phase.dueBy] using hdue
    simp only [hw, if_true]
    have := afterResponse_fuel c now r
    refine ⟨_, rfl, ?_, this.2⟩
    have h2 : c.fuel = 6 * c.retries + 2 := by simp [Call.fuel, hph]
    omega
  | retryWait w =>
    have hw : w ≤ now := by simpa [hph, Phase.dueBy] using hdue
    have hf := hfree w hph
    simp only [hw, hf, if_true]
    exact ⟨_, rfl, by simp [Call.fuel, hph, Call.granted], by simp⟩

theorem resume_enabled {cfg : Config} {s : State} {i : Nat} {c c1 : Call}
    (hi : s.calls[i]? = some c) (hadv : c.advance cfg s.lim s.now = some c1) :
    ∃ s1, resume cfg s i = some s1 := by
  simp only [resume, hi]
  unfold Call.advance at hadv
  cases hph : c.phase with
  | queued => simp [hph] at hadv
  | settled o => simp [hph] at hadv
  | admitted => exact ⟨_, rfl⟩
  | fetching => exact ⟨_, rfl⟩
  | pacing w =>
    simp only [hph] at hadv
    split_ifs at hadv with hw
    simp only [hw, if_true]
    exact ⟨_, rfl⟩
  | pausing r w =>
    simp only [hph] at hadv
    split_ifs at hadv with hw
    simp only [hw, if_true]
    exact ⟨_, rfl⟩
  | retryWait w =>
    simp only [hph] at hadv
    by_cases hw : w ≤ s.now
    · simp only [hw, if_true]
      exact ⟨_, rfl⟩
    · simp [hw] at hadv

theorem holders_eq_zero {cs : List Call} (h : ∀ c ∈ cs, c.phase.holdsSlot = false) :
    holders cs = 0 := by
  unfold holders
  rw [List.countP_eq_zero]
  intro c hc
  simp [h c hc]

theorem settled_not_holds {p : Phase} (h : p.isSettled = true) : p.holdsSlot = false := by
  cases p <;> simp_all [Phase.isSettled]

theorem solo_holders_zero {cfg : Config} {s : State} {i : Nat} {c : Call}
    (hsolo : Solo cfg s i) (hi : s.calls[i]? = some c) (hc : c.phase.holdsSlot = false) :
    s.lim.activeRequests = 0 := by
  rw [hsolo.inv.active_eq, holders_eq_zero]
  · rfl
  · intro c1 hc1
    obtain ⟨j, hj⟩ := List.mem_iff_getElem?.mp hc1
    by_cases hij : j = i
    · subst hij
      rw [hi] at hj; cases hj
      exact hc
    · exact settled_not_holds (hsolo.others j c1 hij hj)

/-- Running the continuation of the only call in progress keeps it the only
call in progress. -/
theorem solo_resume {cfg : Config} {s : State} {i : Nat} {c : Call}
    (hK : 1 ≤ cfg.maxConcurrent) (hsolo : Solo cfg s i) (hi : s.calls[i]? = some c)
    (hs : c.phase.isSettled = false) (hdue : c.phase.dueBy s.now = true) :
    ∃ s1 c1, resume cfg s i = some s1 ∧ Solo cfg s1 i ∧ s1.calls[i]? = some c1 ∧
      c1.fuel < c.fuel := by
  have hq : c.phase ≠ .queued := by
    obtain ⟨c2, hc2, hq2⟩ := hsolo.mine
    rw [hi] at hc2; cases hc2
    exact hq2
  have hfree : ∀ w, c.phase = .retryWait w → s.lim.activeRequests < cfg.maxConcurrent := by
    intro w hw
    have := solo_holders_zero hsolo hi (by rw [hw]; rfl)
    omega
  obtain ⟨c1, hadv, hfuel, hq1⟩ := @advance_solo cfg _ _ _ hq hs hdue hfree
  obtain ⟨s1, hres⟩ := resume_enabled hi hadv
  have hself := resume_self hsolo.inv hi hres
  rw [hadv] at hself
  refine ⟨s1, c1, hres, ⟨inv_step (.resume i) hsolo.inv (by simpa [step] using hres), ?_,
    ⟨c1, hself, hq1⟩⟩, hself, hfuel⟩
  intro j cj hji hj
  cases hj0 : s.calls[j]? with
  | none =>
    exfalso
    have hlt1 := getElem?_lt hj
    rw [resume_length hres] at hlt1
    rw [List.getElem?_eq_getElem hlt1] at hj0
    cases hj0
  | some cj0 =>
    have hset := hsolo.others j cj0 hji hj0
    rcases resume_other hsolo.inv hi hres hji hj0 with h1 | ⟨h1, _⟩
    · rw [h1] at hj; cases hj
      exact hset
    · rw [h1] at hset; simp [Phase.isSettled] at hset

theorem solo_tick {cfg : Config} {s : State} {i : Nat} (dt : Nat) (h : Solo cfg s i) :
    Solo cfg { s with now := s.now + dt } i :=
  ⟨⟨h.inv.active_eq, h.inv.active_le, h.inv.nodup, h.inv.queued⟩, h.others, h.mine⟩

theorem solo_timer {cfg : Config} {s : State} {i : Nat} {c : Call} (w : Int)
    (hK : 1 ≤ cfg.maxConcurrent) (hsolo : Solo cfg s i) (hi : s.calls[i]? = some c)
    (hs : c.phase.isSettled = false) (hdue : ∀ t, w ≤ t → c.phase.dueBy t = true) :
    ∃ s1 c1, run cfg s (timerEvents s i w) = some s1 ∧ Solo cfg s1 i ∧
      s1.calls[i]? = some c1 ∧ c1.fuel < c.fuel := by
  unfold timerEvents
  by_cases hw : w ≤ s.now
  · obtain ⟨s1, c1, hres, h1, h2, h3⟩ := solo_resume hK hsolo hi hs (hdue _ hw)
    refine ⟨s1, c1, ?_, h1, h2, h3⟩
    simp [hw, run, step, hres]
  · have hw2 : w ≤ s.now + ((w - s.now).toNat : Int) := by
      rw [Int.toNat_of_nonneg (by omega)]; omega
    obtain ⟨s1, c1, hres, h1, h2, h3⟩ :=
      @solo_resume cfg { s with now := s.now + ((w - s.now).toNat : Int) } i c hK
        (solo_tick _ hsolo) hi hs (hdue _ hw2)
    refine ⟨s1, c1, ?_, h1, h2, h3⟩
    simp only [hw, if_false, run, step, hres]

/-- One round of the solo schedule is enabled and brings the call closer to
its end. -/
theorem solo_round {cfg : Config} {s : State} {i : Nat} {c : Call}
    (hK : 1 ≤ cfg.maxConcurrent) (hsolo : Solo cfg s i) (hi : s.calls[i]? = some c)
    (hs : c.phase.isSettled = false) :
    ∃ s1 c1, run cfg s (soloEvents s i) = some s1 ∧ Solo cfg s1 i ∧
      s1.calls[i]? = some c1 ∧ c1.fuel < c.fuel := by
  have hq : c.phase ≠ .queued := by
    obtain ⟨c2, hc2, hq2⟩ := hsolo.mine
    rw [hi] at hc2; cases hc2
    exact hq2
  unfold soloEvents
  simp only [hi]
  cases hph : c.phase with
  | queued => exact absurd hph hq
  | settled o => rw [hph] at hs; simp [Phase.isSettled] at hs
  | admitted =>
    obtain ⟨s1, c1, hres, h1, h2, h3⟩ :=
      solo_resume hK hsolo hi hs (by rw [hph]; rfl)
    exact ⟨s1, c1, by simp [run, step, hres], h1, h2, h3⟩
  | fetching =>
    obtain ⟨s1, c1, hres, h1, h2, h3⟩ :=
      solo_resume hK hsolo hi hs (by rw [hph]; rfl)
    exact ⟨s1, c1, by simp [run, step, hres], h1, h2, h3⟩
  | pacing w =>
    exact solo_timer w hK hsolo hi hs (by intro t ht; simp [hph, Phase.dueBy, ht])
  | pausing r w =>
    exact solo_timer w hK hsolo hi hs (by intro t ht; simp [hph, Phase.dueBy, ht])
  | retryWait w =>
    exact solo_timer w hK hsolo hi hs (by intro t ht; simp [hph, Phase.dueBy, ht])

theorem fuel_zero {c : Call} (h : c.fuel = 0) : c.phase.isSettled = true := by
  unfold Call.fuel at h
  cases hph : c.phase <;> simp only [hph] at h <;> first | rfl | omega

theorem soloEvents_settled {s : State} {i : Nat} {c : Call} (hi : s.calls[i]? = some c)
    (hs : c.phase.isSettled = true) : soloEvents s i = [] := by
  unfold soloEvents
  simp only [hi]
  cases hph : c.phase <;> simp_all [Phase.isSettled]

/-- The solo schedule is a run of the system that ends with the call
settled, within the fuel bound of the call. -/
theorem solo_run_settles {cfg : Config} {i : Nat} (hK : 1 ≤ cfg.maxConcurrent) (n : Nat) :
    ∀ (s : State) (c : Call), Solo cfg s i → s.calls[i]? = some c → c.fuel ≤ n →
      ∃ c1 es, run cfg s es = some (soloRun cfg n s i) ∧ Solo cfg (soloRun cfg n s i) i ∧
        (soloRun cfg n s i).calls[i]? = some c1 ∧ c1.phase.isSettled = true := by
  induction n with
  | zero =>
    intro s c hsolo hi hfuel
    exact ⟨c, [], rfl, hsolo, hi, fuel_zero (by omega)⟩
  | succ n ih =>
    intro s c hsolo hi hfuel
    cases hs : c.phase.isSettled with
    | true =>
      have hev := soloEvents_settled hi hs
      have hrd : runD cfg s (soloEvents s i) = s := by rw [hev]; rfl
      simp only [soloRun, hrd]
      exact ih s c hsolo hi (by have := hs; cases hph : c.phase <;> simp_all [Phase.isSettled, Call.fuel])
    | false =>
      obtain ⟨s1, c1, hrun, hsolo1, hi1, hlt⟩ := solo_round hK hsolo hi hs
      have hrd : runD cfg s (soloEvents s i) = s1 := by simp [runD, hrun]
      simp only [soloRun, hrd]
      obtain ⟨c2, es, hrun2, h2, h3, h4⟩ := ih s1 c1 hsolo1 hi1 (by omega)
      refine ⟨c2, soloEvents s i ++ es, ?_, h2, h3, h4⟩
      rw [run_append, hrun]
      exact hrun2

theorem idle_inv {cfg : Config} {s : State} (h : Idle s) : Inv cfg s := by
  obtain ⟨h1, h2, h3⟩ := h
  refine ⟨?_, by omega, by rw [h2]; simp, by rw [h2]; simp⟩
  rw [h1, holders_eq_zero]
  · rfl
  · intro c hc
    exact settled_not_holds (h3 c hc)

theorem solo_settled_idle {cfg : Config} {s : State} {i : Nat} {c : Call} (hsolo : Solo cfg s i)
    (hi : s.calls[i]? = some c) (hs : c.phase.isSettled = true) : Idle s := by
  have hall : ∀ c1 ∈ s.calls, c1.phase.isSettled = true := by
    intro c1 hc1
    obtain ⟨j, hj⟩ := List.mem_iff_getElem?.mp hc1
    by_cases hij : j = i
    · subst hij
      rw [hi] at hj; cases hj
      exact hs
    · exact hsolo.others j c1 hij hj
  refine ⟨solo_holders_zero hsolo hi (settled_not_holds hs), ?_, hall⟩
  rw [List.eq_nil_iff_forall_not_mem]
  intro j hj
  obtain ⟨cj, hcj, hq⟩ := hsolo.inv.queued j hj
  have := hall cj (List.mem_iff_getElem?.mpr ⟨j, hcj⟩)
  rw [hq] at this
  simp [Phase.isSettled] at this

/-- The record of a call right after the synchronous part of `execute`. -/
theorem call_spec {cfg : Config} {s : State} (task : Task) (retries : Option Nat) :
    ∃ s1, step cfg s (.call task retries) = some s1 ∧
      s1.calls[s.calls.length]? =
        some (if s.lim.activeRequests < cfg.maxConcurrent then (newCall cfg task retries).granted
              else newCall cfg task retries) ∧
      ∀ (j : Nat) (cj : Call), s.calls[j]? = some cj → s1.calls[j]? = some cj := by
  refine ⟨_, rfl, ?_, ?_⟩
  · simp only [enter, waitForSlot]
    by_cases hfree : s.lim.activeRequests < cfg.maxConcurrent
    · simp [hfree, List.getElem?_set]
    · simp [hfree, List.getElem?_set, newCall]
  · intro j cj hj
    have hlt := getElem?_lt hj
    simp only [enter]
    rw [List.getElem?_set, if_neg (by omega), List.getElem?_append_left hlt]
    exact hj

/-- From an idle limiter, a call awaited alone settles and leaves the limiter
idle; the schedule is a run of the system. -/
theorem executeAlone_spec {cfg : Config} {s : State} (hK : 1 ≤ cfg.maxConcurrent)
    (hidle : Idle s) (task : Task) (retries : Option Nat) :
    ∃ s1 es c, step cfg s (.call task retries) = some s1 ∧ Inv cfg s1 ∧
      s1.calls[s.calls.length]? = some (newCall cfg task retries).granted ∧
      run cfg s1 es = some (executeAlone cfg s task retries) ∧
      (executeAlone cfg s task retries).calls[s.calls.length]? = some c ∧
      c.phase.isSettled = true ∧ Idle (executeAlone cfg s task retries) := by
  have hinv : Inv cfg s := idle_inv hidle
  obtain ⟨s1, hstep, hnew, hold⟩ := @call_spec cfg s task retries
  have hfree : s.lim.activeRequests < cfg.maxConcurrent := by rw [hidle.1]; omega
  simp only [hfree, if_true] at hnew
  have hinv1 := inv_step _ hinv hstep
  have hlen : s1.calls.length = s.calls.length + 1 := by
    simp only [step, Option.some.injEq] at hstep
    subst hstep
    simp [enter]
  have hsolo : Solo cfg s1 s.calls.length := by
    refine ⟨hinv1, ?_, ⟨_, hnew, by simp⟩⟩
    intro j cj hji hj
    have hlt := getElem?_lt hj
    have hlt0 : j < s.calls.length := by omega
    have := hold j _ (List.getElem?_eq_getElem hlt0)
    rw [this] at hj; cases hj
    exact hidle.2.2 _ (List.getElem_mem _)
  have hfuel : (newCall cfg task retries).granted.fuel ≤ 6 * retries.getD cfg.maxRetries + 6 := by
    simp [Call.fuel, Call.granted, newCall]
  obtain ⟨c, es, hrun, hsolo2, hc, hset⟩ := solo_run_settles hK _ s1 _ hsolo hnew hfuel
  have hrd : runD cfg s [.call task retries] = s1 := by simp [runD, run, hstep]
  have hex : executeAlone cfg s task retries =
      soloRun cfg (6 * retries.getD cfg.maxRetries + 6) s1 s.calls.length := by
    simp only [executeAlone, hrd]
  rw [hex]
  exact ⟨s1, es, c, hstep, hinv1, hnew, hrun, hc, hset, solo_settled_idle hsolo2 hc hset⟩

theorem runSequential_idle {cfg : Config} (hK : 1 ≤ cfg.maxConcurrent)
    (calls : List (Task × Option Nat)) :
    ∀ s, Idle s → ∀ s1 ∈ runSequential cfg s calls, Idle s1 := by
  induction calls with
  | nil =>
    intro s _ s1 h1
    simp [runSequential] at h1
  | cons tr rest ih =>
    intro s hidle s1 h1
    obtain ⟨_, _, _, _, _, _, _, _, _, hidle1⟩ := executeAlone_spec hK hidle tr.1 tr.2
    simp only [runSequential, List.mem_cons] at h1
    rcases h1 with h1 | h1
    · exact h1 ▸ hidle1
    · exact ih _ hidle1 s1 h1

/-- C3. From an idle limiter (`activeRequests = 0`, empty queue, no call in
progress) with `maxConcurrent ≥ 1`, a call of `execute` awaited with no other
caller settles, whatever its task does, and leaves `activeRequests = 0` and
the queue empty; and after each call of any sequence of calls made one after
the other the limiter is idle again. -/
theorem c3_execute_leaves_idle (cfg : Config) (s : State) (task : Task)
    (retries : Option Nat) (calls : List (Task × Option Nat))
    (hK : 1 ≤ cfg.maxConcurrent) (hidle : Idle s) :
    (∃ es c, run cfg s (.call task retries :: es) = some (executeAlone cfg s task retries) ∧
      (executeAlone cfg s task retries).calls[s.calls.length]? = some c ∧
      c.phase.isSettled = true) ∧
    (executeAlone cfg s task retries).lim.activeRequests = 0 ∧
    (executeAlone cfg s task retries).lim.requestQueue = [] ∧
    ∀ s1 ∈ runSequential cfg s calls,
      s1.lim.activeRequests = 0 ∧ s1.lim.requestQueue = [] := by
  obtain ⟨s1, es, c, hstep, _, _, hrun, hc, hset, hidle1⟩ :=
    executeAlone_spec hK hidle task retries
  refine ⟨⟨es, c, ?_, hc, hset⟩, hidle1.1, hidle1.2.1, ?_⟩
  · simp only [run, hstep]
    exact hrun
  · intro s2 h2
    have := runSequential_idle hK calls s hidle s2 h2
    exact ⟨this.1, this.2.1⟩

theorem idle_init (t0 : Int) : Idle (init fresh t0) :=
  ⟨rfl, rfl, fun _ hc => by simp [init] at hc⟩

set_option maxRecDepth 100000 in
/-- C3 at a concrete input: one slot, ten sequential calls of mixed outcome,
the counter is 0 after each. -/
theorem c3_witness :
    (1 : Int) ≤ cfgOne.maxConcurrent ∧ Idle (init fresh 0) ∧
    (runSequential cfgOne (init fresh 0) tenCalls).map (fun s => s.lim.activeRequests) =
      [0, 0, 0, 0, 0, 0, 0, 0, 0, 0] ∧
    (executeAlone cfgOne (init fresh 0) retryOnceTask none).lim.activeRequests = 0 ∧
    ∀ s1 ∈ runSequential cfgOne (init fresh 0) tenCalls,
      s1.lim.activeRequests = 0 ∧ s1.lim.requestQueue = [] :=
  ⟨by decide, idle_init 0, by decide,
    (c3_execute_leaves_idle cfgOne (init fresh 0) retryOnceTask none tenCalls
      (by decide) (idle_init 0)).2.1,
    (c3_execute_leaves_idle cfgOne (init fresh 0) retryOnceTask none tenCalls
      (by decide) (idle_init 0)).2.2.2⟩

/-! ## Properties of every call in every reachable state -/

theorem step_new_call {cfg : Config} {s s1 : State} {e : Event} {j : Nat} {c1 : Call}
    (hs : step cfg s e = some s1) (hj0 : s.calls[j]? = none) (hj : s1.calls[j]? = some c1) :
    ∃ task retries, c1 = newCall cfg task retries ∨ c1 = (newCall cfg task retries).granted := by
  cases e with
  | tick dt =>
    simp only [step, Option.some.injEq] at hs
    subst hs
    rw [hj0] at hj; cases hj
  | call task retries =>
    obtain ⟨s2, hstep, hnew, _⟩ := @call_spec cfg s task retries
    rw [hs] at hstep; cases hstep
    have hlt := getElem?_lt hj
    have hlen : s1.calls.length = s.calls.length + 1 := by
      simp only [step, Option.some.injEq] at hs
      subst hs
      simp [enter]
    have hge : s.calls.length ≤ j := by
      rcases Nat.lt_or_ge j s.calls.length with h1 | h1
      · rw [List.getElem?_eq_getElem h1] at hj0; cases hj0
      · exact h1
    have hje : j = s.calls.length := by omega
    subst hje
    rw [hnew] at hj
    refine ⟨task, retries, ?_⟩
    split_ifs at hj
    · right; cases hj; rfl
    · left; cases hj; rfl
  | resume i =>
    simp only [step] at hs
    have hlt := getElem?_lt hj
    rw [resume_length hs] at hlt
    rw [List.getElem?_eq_getElem hlt] at hj0
    cases hj0

/-- A property of call records that holds for fresh calls and is preserved by
every continuation and every hand-over of a slot holds for every call of
every state reached from a state where it holds. -/
theorem all_calls_run {cfg : Config} (Q : Call → Prop)
    (hadv : ∀ l now c c1, Call.advance cfg l now c = some c1 → Q c → Q c1)
    (hwake : ∀ c, c.phase = .queued → Q c → Q c.granted)
    (hnew : ∀ task retries, Q (newCall cfg task retries) ∧ Q (newCall cfg task retries).granted)
    (es : List Event) {s s1 : State} (h : Inv cfg s)
    (hQ : ∀ (j : Nat) (c : Call), s.calls[j]? = some c → Q c)
    (hrun : run cfg s es = some s1) :
    ∀ (j : Nat) (c : Call), s1.calls[j]? = some c → Q c := by
  induction es generalizing s with
  | nil =>
    simp only [run, Option.some.injEq] at hrun
    subst hrun
    exact hQ
  | cons e es ih =>
    simp only [run] at hrun
    cases hst : step cfg s e with
    | none => simp [hst] at hrun
    | some s2 =>
      simp only [hst] at hrun
      refine ih (inv_step e h hst) ?_ hrun
      intro j c2 hj2
      cases hj0 : s.calls[j]? with
      | none =>
        obtain ⟨task, retries, hc | hc⟩ := step_new_call hst hj0 hj2
        · exact hc ▸ (hnew task retries).1
        · exact hc ▸ (hnew task retries).2
      | some c0 =>
        obtain ⟨c3, hc3, hcase⟩ := step_call_cases h hst hj0
        rw [hj2] at hc3; cases hc3
        rcases hcase with h1 | ⟨hq, h1⟩ | h1
        · exact h1 ▸ hQ j c0 hj0
        · exact h1 ▸ hwake c0 hq (hQ j c0 hj0)
        · exact hadv _ _ _ _ h1 (hQ j c0 hj0)

theorem all_calls_reachable {cfg : Config} (Q : Call → Prop)
    (hadv : ∀ l now c c1, Call.advance cfg l now c = some c1 → Q c → Q c1)
    (hwake : ∀ c, c.phase = .queued → Q c → Q c.granted)
    (hnew : ∀ task retries, Q (newCall cfg task retries) ∧ Q (newCall cfg task retries).granted)
    {s : State} (h : Reachable cfg s) {j : Nat} {c : Call} (hj : s.calls[j]? = some c) : Q c := by
  obtain ⟨t0, es, hrun⟩ := h
  refine all_calls_run Q hadv hwake hnew es (inv_init cfg t0) ?_ hrun j c hj
  intro j c hc
  simp [init] at hc

theorem afterResponse_counts (c : Call) (now : Int) (r : Response)
    (hc : c.phase.holdsSlot = true) : CountsSlots c (c.afterResponse now r) := by
  unfold Call.afterResponse
  split <;> simp [CountsSlots, hc]

theorem afterTask_counts (cfg : Config) (c : Call) (now : Int)
    (hc : c.phase.holdsSlot = true) : CountsSlots c (c.afterTask cfg now) := by
  have h1 := fun r => afterResponse_counts c now r hc
  unfold Call.afterTask
  split
  · simp [CountsSlots, hc]
  · split
    · exact h1 _
    · split
      · simp [CountsSlots, hc]
      · exact h1 _
      · split
        · simp [CountsSlots, hc]
        · exact h1 _

theorem advance_counts {cfg : Config} {l : Limiter} {now : Int} {c c1 : Call}
    (h : c.advance cfg l now = some c1) : CountsSlots c c1 := by
  unfold Call.advance at h
  cases hph : c.phase with
  | queued => simp [hph] at h
  | settled o => simp [hph] at h
  | admitted =>
    simp only [hph] at h
    split at h <;> (cases h; simp [CountsSlots, hph])
  | pacing w =>
    simp only [hph] at h
    split_ifs at h
    cases h
    simp [CountsSlots, hph]
  | fetching =>
    simp only [hph, Option.some.injEq] at h
    subst h
    exact afterTask_counts cfg c now (by rw [hph]; rfl)
  | pausing r w =>
    simp only [hph] at h
    split_ifs at h
    cases h
    exact afterResponse_counts c now r (by rw [hph]; rfl)
  | retryWait w =>
    simp only [hph] at h
    split at h
    · split at h <;> (cases h; simp [CountsSlots, hph, Call.granted])
    · cases h

theorem granted_counts {c : Call} (h : c.phase = .queued) : CountsSlots c c.granted := by
  simp [CountsSlots, h, Call.granted]

theorem counts_balanced {c c1 : Call} (h : CountsSlots c c1) (hb : Balanced c) :
    Balanced c1 := by
  unfold CountsSlots at h
  unfold Balanced at hb ⊢
  obtain ⟨h1, h2⟩ := h
  cases hc : c.phase.holdsSlot <;> cases hc1 : c1.phase.holdsSlot <;>
    simp only [hc, hc1] at h1 h2 hb ⊢ <;> simp at h1 h2 hb ⊢ <;> omega

/-- C4. In every reachable state every call has run `releaseSlot` exactly
once for each slot it was given, the slot it currently owns excepted (so a
settled call, however it settled, and a call waiting for its retry have
released every slot they acquired exactly once); and every transition raises
the release count of a call by one exactly when the call gives up its slot and
its acquisition count by one exactly when it is given a slot. -/
theorem c4_release_exactly_once (cfg : Config) (s : State) (j : Nat) (c : Call)
    (h : Reachable cfg s) (hj : s.calls[j]? = some c) :
    c.acquires = c.releases + (if c.phase.holdsSlot = true then 1 else 0) ∧
    ∀ (e : Event) (s1 : State) (c1 : Call), step cfg s e = some s1 → s1.calls[j]? = some c1 →
      c1.releases =
        c.releases + (if c.phase.holdsSlot = true ∧ c1.phase.holdsSlot = false then 1 else 0) ∧
      c1.acquires =
        c.acquires + (if c.phase.holdsSlot = false ∧ c1.phase.holdsSlot = true then 1 else 0) := by
  constructor
  · refine all_calls_reachable Balanced ?_ ?_ ?_ h hj
    · intro l now c c1 hadv hb
      exact counts_balanced (advance_counts hadv) hb
    · intro c hq hb
      exact counts_balanced (granted_counts hq) hb
    · intro task retries
      simp [Balanced, newCall, Call.granted]
  · intro e s1 c1 hstep hj1
    obtain ⟨c2, hc2, hcase⟩ := step_call_cases (inv_reachable h) hstep hj
    rw [hj1] at hc2; cases hc2
    rcases hcase with h1 | ⟨hq, h1⟩ | h1
    · subst h1
      cases hc : c1.phase.holdsSlot <;> simp
    · subst h1
      exact granted_counts hq
    · exact advance_counts h1

/-! ## Outcome of a single call -/

/-- A property of the record of one call that holds when the call is made and
is preserved by its continuations and by the hand-over of a slot holds in
every interleaving, and holds at the end when the call is awaited alone, where
the call does settle. -/
theorem call_outcome {cfg : Config} (Q : Call → Prop) (task : Task) (retries : Option Nat)
    (hadv : ∀ l now c c1, Call.advance cfg l now c = some c1 → Q c → Q c1)
    (hwake : ∀ c, c.phase = .queued → Q c → Q c.granted)
    (hnew : Q (newCall cfg task retries) ∧ Q (newCall cfg task retries).granted) :
    (∀ (s s1 : State) (es : List Event) (c : Call), Reachable cfg s →
      run cfg s (.call task retries :: es) = some s1 → s1.calls[s.calls.length]? = some c →
      Q c) ∧
    (1 ≤ cfg.maxConcurrent → ∀ s : State, Idle s →
      ∃ c, (executeAlone cfg s task retries).calls[s.calls.length]? = some c ∧
        c.phase.isSettled = true ∧ Q c) := by
  constructor
  · intro s s1 es c hreach hrun hc
    obtain ⟨s2, hstep, hnew2, _⟩ := @call_spec cfg s task retries
    simp only [run, hstep] at hrun
    have hQ2 : Q (if s.lim.activeRequests < cfg.maxConcurrent then
        (newCall cfg task retries).granted else newCall cfg task retries) := by
      split_ifs
      · exact hnew.2
      · exact hnew.1
    obtain ⟨c1, hc1, hQ1⟩ := local_inv_run Q hadv hwake es
      (inv_step _ (inv_reachable hreach) hstep) hnew2 hQ2 hrun
    rw [hc] at hc1; cases hc1
    exact hQ1
  · intro hK s hidle
    obtain ⟨s1, es, c, hstep, hinv1, hnew1, hrun, hc, hset, _⟩ :=
      executeAlone_spec hK hidle task retries
    obtain ⟨c1, hc1, hQ1⟩ := local_inv_run Q hadv hwake es hinv1 hnew1 hnew.2 hrun
    rw [hc] at hc1; cases hc1
    exact ⟨c, hc, hset, hQ1⟩

theorem always429_afterResponse {task : Task} {resp : Nat → Response} {budget : Nat}
    {c : Call} (now : Int) (h429 : ∀ n, (resp n).status = 429) (htask : c.task = task)
    (hsum : c.invocations + c.retries = budget + 1) (hpos : 1 ≤ c.invocations) :
    Always429Inv task resp budget (c.afterResponse now (resp (c.invocations - 1))) := by
  unfold Call.afterResponse
  by_cases hr : 0 < c.retries
  · simp only [h429, hr, gt_iff_lt, and_self, if_true]
    exact ⟨htask, hsum, hr⟩
  · simp only [h429, hr, gt_iff_lt, and_false, if_false]
    refine ⟨htask, ?_, ?_⟩
    · show c.invocations = budget + 1
      omega
    · have : c.invocations - 1 = budget := by omega
      rw [this]

theorem always429_advance {cfg : Config} {task : Task} {resp : Nat → Response} {budget : Nat}
    (htask : ∀ n, task n = .resolves (resp n)) (h429 : ∀ n, (resp n).status = 429)
    (hquiet : ∀ n, HookQuiet cfg (resp n)) (l : Limiter) (now : Int) (c c1 : Call)
    (hadv : c.advance cfg l now = some c1) (h : Always429Inv task resp budget c) :
    Always429Inv task resp budget c1 := by
  obtain ⟨ht, hph⟩ := h
  unfold Call.advance at hadv
  cases hp : c.phase with
  | queued => simp [hp] at hadv
  | settled o => simp [hp] at hadv
  | admitted =>
    simp only [hp] at hadv hph
    split at hadv
    · cases hadv; exact ⟨ht, hph⟩
    · cases hadv
      exact ⟨ht, by show c.invocations + 1 + c.retries = budget + 1; omega, by simp⟩
  | pacing w =>
    simp only [hp] at hadv hph
    split_ifs at hadv
    cases hadv
    exact ⟨ht, by show c.invocations + 1 + c.retries = budget + 1; omega, by simp⟩
  | fetching =>
    simp only [hp] at hadv hph
    cases hadv
    have hres : c.task (c.invocations - 1) = .resolves (resp (c.invocations - 1)) := by
      rw [ht]; exact htask _
    have hfin := @always429_afterResponse task resp budget c now h429 ht hph.1 hph.2
    unfold Call.afterTask
    simp only [hres]
    cases hhook : cfg.parseRateLimit with
    | none => exact hfin
    | some hook =>
      simp only
      cases hinfo : hook (resp (c.invocations - 1)) with
      | throws e => exact absurd hinfo (hquiet _ hook hhook e)
      | info rem =>
        cases rem with
        | none => exact hfin
        | some rem =>
          simp only
          split
          · exact ⟨ht, hph.1, hph.2, rfl⟩
          · exact hfin
  | pausing r w =>
    simp only [hp] at hadv hph
    split_ifs at hadv
    cases hadv
    rw [hph.2.2]
    exact always429_afterResponse now h429 ht hph.1 hph.2.1
  | retryWait w =>
    simp only [hp] at hadv hph
    split at hadv
    · split at hadv
      · cases hadv
        exact ⟨ht, by show c.invocations + (c.retries - 1) = budget; omega⟩
      · cases hadv
        exact ⟨ht, by show c.invocations + (c.retries - 1) = budget; omega⟩
    · cases hadv

theorem always429_granted {task : Task} {resp : Nat → Response} {budget : Nat} (c : Call)
    (hq : c.phase = .queued) (h : Always429Inv task resp budget c) :
    Always429Inv task resp budget c.granted := by
  obtain ⟨ht, hph⟩ := h
  simp only [hq] at hph
  exact ⟨ht, hph⟩

theorem always429_bound {task : Task} {resp : Nat → Response} {budget : Nat} {c : Call}
    (h : Always429Inv task resp budget c) :
    c.invocations ≤ budget + 1 ∧
      ∀ o, c.phase = .settled o → c.invocations = budget + 1 ∧ o = .resolved (resp budget) := by
  obtain ⟨_, hph⟩ := h
  constructor
  · cases hp : c.phase <;> simp only [hp] at hph <;> omega
  · intro o ho
    simp only [ho] at hph
    exact hph

theorem settled_phase {c : Call} (h : c.phase.isSettled = true) : ∃ o, c.phase = .settled o := by
  cases hp : c.phase <;> simp_all [Phase.isSettled]

/-- C5 refuted as stated: on a limiter whose `parseRateLimit` hook throws, a
task that always answers 429, called with one retry, is invoked once (not
twice) and `execute` rejects with the error of the hook instead of resolving
with the 429 response. -/
theorem c5_counterexample :
    (∀ n, statusTask 429 n = .resolves (plainResponse 429)) ∧
    (plainResponse 429).status = 429 ∧
    observe (runD cfgThrowingHook (init fresh 0)
      [.call (statusTask 429) (some 1), .resume 0, .resume 0]) 0 =
        some (1, .settled (.rejected 7)) ∧
    observe (executeAlone cfgThrowingHook (init fresh 0) (statusTask 429) (some 1)) 0 =
        some (1, .settled (.rejected 7)) :=
  ⟨fun _ => rfl, by decide, by decide, by decide⟩

/-- C5 as amended. On a limiter whose `parseRateLimit` hook, if any, does not
throw on the responses of the task, a task that answers 429 on every
invocation, called with `r` retries (`maxRetries` by default): in every
interleaving the call invokes the task at most `r + 1` times and can settle
only after exactly `r + 1` invocations, resolving with the last 429 response;
and awaited alone on an idle limiter with `maxConcurrent ≥ 1` it does settle
that way. -/
theorem c5_always_429_attempts (cfg : Config) (task : Task) (resp : Nat → Response)
    (retries : Option Nat) (htask : ∀ n, task n = .resolves (resp n))
    (h429 : ∀ n, (resp n).status = 429) (hquiet : ∀ n, HookQuiet cfg (resp n)) :
    (∀ (s s1 : State) (es : List Event) (c : Call), Reachable cfg s →
      run cfg s (.call task retries :: es) = some s1 → s1.calls[s.calls.length]? = some c →
      c.invocations ≤ retries.getD cfg.maxRetries + 1 ∧
      ∀ o, c.phase = .settled o →
        c.invocations = retries.getD cfg.maxRetries + 1 ∧
        o = .resolved (resp (retries.getD cfg.maxRetries))) ∧
    (1 ≤ cfg.maxConcurrent → ∀ s : State, Idle s →
      observe (executeAlone cfg s task retries) s.calls.length =
        some (retries.getD cfg.maxRetries + 1,
          .settled (.resolved (resp (retries.getD cfg.maxRetries))))) := by
  have hout := @call_outcome cfg (Always429Inv task resp (retries.getD cfg.maxRetries))
    task retries (always429_advance htask h429 hquiet)
    (fun c hq h => always429_granted c hq h)
    ⟨⟨rfl, by simp [newCall]⟩, ⟨rfl, by simp [newCall, Call.granted]⟩⟩
  constructor
  · intro s s1 es c hreach hrun hc
    exact always429_bound (hout.1 s s1 es c hreach hrun hc)
  · intro hK s hidle
    obtain ⟨c, hc, hset, hQ⟩ := hout.2 hK s hidle
    obtain ⟨o, ho⟩ := settled_phase hset
    obtain ⟨h1, h2⟩ := (always429_bound hQ).2 o ho
    simp only [observe, hc, Option.map_some', ho, h1, h2]

/-- C5 as amended, at a concrete input: the default limiter with one slot,
a task that always answers 429, default retries: four invocations. -/
theorem c5_witness :
    (∀ n, statusTask 429 n = .resolves (plainResponse 429)) ∧
    (plainResponse 429).status = 429 ∧
    HookQuiet cfgOne (plainResponse 429) ∧
    observe (executeAlone cfgOne (init fresh 0) (statusTask 429) none) 0 =
      some (4, .settled (.resolved (plainResponse 429))) :=
  ⟨fun _ => rfl, by decide, fun hook hh => by simp [cfgOne, createRateLimiter] at hh,
    (c5_always_429_attempts cfgOne (statusTask 429) (fun _ => plainResponse 429) none
      (fun _ => rfl) (fun _ => rfl)
      (fun _ hook hh => by simp [cfgOne, createRateLimiter] at hh)).2
      (by decide) (init fresh 0) (idle_init 0)⟩

theorem firstThrow_advance {cfg : Config} {task : Task} {err : Nat}
    (htask : task 0 = .rejects err) (l : Limiter) (now : Int) (c c1 : Call)
    (hadv : c.advance cfg l now = some c1) (h : FirstThrowInv task err c) :
    FirstThrowInv task err c1 := by
  obtain ⟨ht, hph⟩ := h
  unfold Call.advance at hadv
  cases hp : c.phase with
  | queued => simp [hp] at hadv
  | settled o => simp [hp] at hadv
  | admitted =>
    simp only [hp] at hadv hph
    split at hadv
    · cases hadv; exact ⟨ht, hph⟩
    · cases hadv
      exact ⟨ht, by show c.invocations + 1 = 1; omega⟩
  | pacing w =>
    simp only [hp] at hadv hph
    split_ifs at hadv
    cases hadv
    exact ⟨ht, by show c.invocations + 1 = 1; omega⟩
  | fetching =>
    simp only [hp] at hadv hph
    cases hadv
    have hres : c.task (c.invocations - 1) = .rejects err := by
      rw [ht, hph]; exact htask
    unfold Call.afterTask
    simp only [hres]
    exact ⟨ht, hph, rfl⟩
  | pausing r w => simp only [hp] at hph
  | retryWait w => simp only [hp] at hph

theorem firstThrow_bound {task : Task} {err : Nat} {c : Call} (h : FirstThrowInv task err c) :
    c.invocations ≤ 1 ∧
      ∀ o, c.phase = .settled o → c.invocations = 1 ∧ o = .rejected err := by
  obtain ⟨_, hph⟩ := h
  constructor
  · cases hp : c.phase <;> simp only [hp] at hph <;> omega
  · intro o ho
    simp only [ho] at hph
    exact hph

set_option maxRecDepth 100000 in
/-- C6 refuted as stated: with `maxRetries = 3`, a task that throws at its
first invocation and would succeed at the second is invoked once only, and
`execute` rejects with the thrown error. -/
theorem c6_counterexample :
    cfgOne.maxRetries = 3 ∧ failOnceTask 0 = .rejects 1 ∧
    failOnceTask 1 = .resolves (plainResponse 200) ∧
    observe (runD cfgOne (init fresh 0) [.call failOnceTask none, .resume 0, .resume 0]) 0 =
      some (1, .settled (.rejected 1)) ∧
    observe (executeAlone cfgOne (init fresh 0) failOnceTask none) 0 =
      some (1, .settled (.rejected 1)) :=
  ⟨rfl, rfl, rfl, by decide, by decide⟩

/-- C6 as amended. A thrown error is not retried: for every limiter and every
retry budget, a call whose task throws at its first invocation invokes the
task at most once in every interleaving and can settle only by rejecting with
that error; awaited alone on an idle limiter with `maxConcurrent ≥ 1` it does
settle that way, after exactly one invocation. -/
theorem c6_throw_not_retried (cfg : Config) (task : Task) (err : Nat) (retries : Option Nat)
    (htask : task 0 = .rejects err) :
    (∀ (s s1 : State) (es : List Event) (c : Call), Reachable cfg s →
      run cfg s (.call task retries :: es) = some s1 → s1.calls[s.calls.length]? = some c →
      c.invocations ≤ 1 ∧
      ∀ o, c.phase = .settled o → c.invocations = 1 ∧ o = .rejected err) ∧
    (1 ≤ cfg.maxConcurrent → ∀ s : State, Idle s →
      observe (executeAlone cfg s task retries) s.calls.length =
        some (1, .settled (.rejected err))) := by
  have hout := @call_outcome cfg (FirstThrowInv task err) task retries
    (firstThrow_advance htask)
    (fun c hq h => ⟨h.1, by have := h.2; simp only [hq] at this; exact this⟩)
    ⟨⟨rfl, by simp [newCall]⟩, ⟨rfl, by simp [newCall, Call.granted]⟩⟩
  constructor
  · intro s s1 es c hreach hrun hc
    exact firstThrow_bound (hout.1 s s1 es c hreach hrun hc)
  · intro hK s hidle
    obtain ⟨c, hc, hset, hQ⟩ := hout.2 hK s hidle
    obtain ⟨o, ho⟩ := settled_phase hset
    obtain ⟨h1, h2⟩ := (firstThrow_bound hQ).2 o ho
    simp only [observe, hc, Option.map_some', ho, h1, h2]

/-- C6 as amended, at a concrete input: the task that throws once, three
retries available, one invocation. -/
theorem c6_witness :
    failOnceTask 0 = .rejects 1 ∧
    observe (executeAlone cfgOne (init fresh 0) failOnceTask none) 0 =
      some (1, .settled (.rejected 1)) :=
  ⟨rfl, (c6_throw_not_retried cfgOne failOnceTask 1 none rfl).2 (by decide) (init fresh 0)
    (idle_init 0)⟩

theorem firstAnswer_afterResponse {task : Task} {resp : Response} {c : Call} (now : Int)
    (hst : resp.status ≠ 429) (htask : c.task = task) (hinv : c.invocations = 1) :
    FirstAnswerInv task resp (c.afterResponse now resp) := by
  unfold Call.afterResponse
  simp only [hst, false_and, if_false]
  exact ⟨htask, hinv, rfl⟩

theorem firstAnswer_advance {cfg : Config} {task : Task} {resp : Response}
    (htask : task 0 = .resolves resp) (hst : resp.status ≠ 429) (hquiet : HookQuiet cfg resp)
    (l : Limiter) (now : Int) (c c1 : Call)
    (hadv : c.advance cfg l now = some c1) (h : FirstAnswerInv task resp c) :
    FirstAnswerInv task resp c1 := by
  obtain ⟨ht, hph⟩ := h
  unfold Call.advance at hadv
  cases hp : c.phase with
  | queued => simp [hp] at hadv
  | settled o => simp [hp] at hadv
  | admitted =>
    simp only [hp] at hadv hph
    split at hadv
    · cases hadv; exact ⟨ht, hph⟩
    · cases hadv
      exact ⟨ht, by show c.invocations + 1 = 1; omega⟩
  | pacing w =>
    simp only [hp] at hadv hph
    split_ifs at hadv
    cases hadv
    exact ⟨ht, by show c.invocations + 1 = 1; omega⟩
  | fetching =>
    simp only [hp] at hadv hph
    cases hadv
    have hres : c.task (c.invocations - 1) = .resolves resp := by
      rw [ht, hph]; exact htask
    have hfin := @firstAnswer_afterResponse task resp c now hst ht hph
    unfold Call.afterTask
    simp only [hres]
    cases hhook : cfg.parseRateLimit with
    | none => exact hfin
    | some hook =>
      simp only
      cases hinfo : hook resp with
      | throws e => exact absurd hinfo (hquiet hook hhook e)
      | info rem =>
        cases rem with
        | none => exact hfin
        | some rem =>
          simp only
          split
          · exact ⟨ht, hph, rfl⟩
          · exact hfin
  | pausing r w =>
    simp only [hp] at hadv hph
    split_ifs at hadv
    cases hadv
    rw [hph.2]
    exact firstAnswer_afterResponse now hst ht hph.1
  | retryWait w => simp only [hp] at hph

theorem firstAnswer_bound {task : Task} {resp : Response} {c : Call}
    (h : FirstAnswerInv task resp c) :
    c.invocations ≤ 1 ∧
      ∀ o, c.phase = .settled o → c.invocations = 1 ∧ o = .resolved resp := by
  obtain ⟨_, hph⟩ := h
  constructor
  · cases hp : c.phase <;> simp only [hp] at hph <;> omega
  · intro o ho
    simp only [ho] at hph
    exact hph

set_option maxRecDepth 100000 in
/-- C10 refuted as stated: on a limiter whose `parseRateLimit` hook throws, a
task whose first invocation answers 200 is invoked once but `execute` rejects
with the error of the hook instead of resolving with the response. -/
theorem c10_counterexample :
    okTask 0 = .resolves { status := 200, retryAfter := none, payload := 0 } ∧
    observe (runD cfgThrowingHook (init fresh 0) [.call okTask none, .resume 0, .resume 0]) 0 =
      some (1, .settled (.rejected 7)) ∧
    observe (executeAlone cfgThrowingHook (init fresh 0) okTask none) 0 =
      some (1, .settled (.rejected 7)) :=
  ⟨rfl, by decide, by decide⟩

/-- C10 as amended. For every limiter whose `parseRateLimit` hook, if any,
does not throw on the response, every retry budget and every task whose first
invocation answers with a status other than 429: in every interleaving the
call invokes the task at most once and can settle only by resolving with that
very response; awaited alone on an idle limiter with `maxConcurrent ≥ 1` it
does settle that way, after exactly one invocation. -/
theorem c10_non429_returned_as_is (cfg : Config) (task : Task) (resp : Response)
    (retries : Option Nat) (htask : task 0 = .resolves resp) (hst : resp.status ≠ 429)
    (hquiet : HookQuiet cfg resp) :
    (∀ (s s1 : State) (es : List Event) (c : Call), Reachable cfg s →
      run cfg s (.call task retries :: es) = some s1 → s1.calls[s.calls.length]? = some c →
      c.invocations ≤ 1 ∧
      ∀ o, c.phase = .settled o → c.invocations = 1 ∧ o = .resolved resp) ∧
    (1 ≤ cfg.maxConcurrent → ∀ s : State, Idle s →
      observe (executeAlone cfg s task retries) s.calls.length =
        some (1, .settled (.resolved resp))) := by
  have hout := @call_outcome cfg (FirstAnswerInv task resp) task retries
    (firstAnswer_advance htask hst hquiet)
    (fun c hq h => ⟨h.1, by have := h.2; simp only [hq] at this; exact this⟩)
    ⟨⟨rfl, by simp [newCall]⟩, ⟨rfl, by simp [newCall, Call.granted]⟩⟩
  constructor
  · intro s s1 es c hreach hrun hc
    exact firstAnswer_bound (hout.1 s s1 es c hreach hrun hc)
  · intro hK s hidle
    obtain ⟨c, hc, hset, hQ⟩ := hout.2 hK s hidle
    obtain ⟨o, ho⟩ := settled_phase hset
    obtain ⟨h1, h2⟩ := (firstAnswer_bound hQ).2 o ho
    simp only [observe, hc, Option.map_some', ho, h1, h2]

/-- C10 as amended, at a concrete input: a 404 answer is returned as it is
after one invocation. -/
theorem c10_witness :
    statusTask 404 0 = .resolves (plainResponse 404) ∧ (plainResponse 404).status ≠ 429 ∧
    HookQuiet cfgOne (plainResponse 404) ∧
    observe (executeAlone cfgOne (init fresh 0) (statusTask 404) none) 0 =
      some (1, .settled (.resolved (plainResponse 404))) :=
  ⟨rfl, by decide, fun hook hh => by simp [cfgOne, createRateLimiter] at hh,
    (c10_non429_returned_as_is cfgOne (statusTask 404) (plainResponse 404) none rfl
      (by decide) (fun hook hh => by simp [cfgOne, createRateLimiter] at hh)).2
      (by decide) (init fresh 0) (idle_init 0)⟩

/-- C4 at a concrete state: after a 429 the call has acquired one slot and
released it once. -/
theorem c4_witness :
    Reachable cfgOne (runD cfgOne (init fresh 0) retryDemo) ∧
    (runD cfgOne (init fresh 0) retryDemo).calls[0]? =
      some (callAt (runD cfgOne (init fresh 0) retryDemo) 0) ∧
    (callAt (runD cfgOne (init fresh 0) retryDemo) 0).acquires = 1 ∧
    (callAt (runD cfgOne (init fresh 0) retryDemo) 0).releases = 1 ∧
    (callAt (runD cfgOne (init fresh 0) retryDemo) 0).acquires =
      (callAt (runD cfgOne (init fresh 0) retryDemo) 0).releases +
        (if (callAt (runD cfgOne (init fresh 0) retryDemo) 0).phase.holdsSlot = true
          then 1 else 0) :=
  ⟨⟨0, retryDemo, run_eq_runD (by decide)⟩, rfl, by decide, by decide,
    (c4_release_exactly_once cfgOne (runD cfgOne (init fresh 0) retryDemo) 0
      (callAt (runD cfgOne (init fresh 0) retryDemo) 0)
      ⟨0, retryDemo, run_eq_runD (by decide)⟩ rfl).1⟩

/-! ## What a transition does to the queue -/

theorem queueEffect_set {s s1 : State} {i : Nat} {c0 c : Call}
    (hi : s.calls[i]? = some c0) (hc0 : c0.phase ≠ .queued)
    (hq : s1.lim.requestQueue = s.lim.requestQueue)
    (hcalls : s1.calls = s.calls.set i c) : QueueEffect s s1 := by
  left
  refine ⟨Or.inl hq, ?_⟩
  intro j cj hj hjq
  have hij : i ≠ j := by
    intro e; subst e
    rw [hi] at hj; cases hj
    exact hc0 hjq
  rw [hcalls, List.getElem?_set, if_neg hij]
  exact hj

theorem queueEffect_enter {cfg : Config} {s : State} {i : Nat} {c0 : Call} (c : Call)
    (hi : s.calls[i]? = some c0) (hc0 : c0.phase ≠ .queued) :
    QueueEffect s (enter cfg s i c) := by
  left
  constructor
  · simp only [enter, waitForSlot]
    split_ifs
    · left; rfl
    · right; exact ⟨i, rfl⟩
  · intro j cj hj hjq
    have hij : i ≠ j := by
      intro e; subst e
      rw [hi] at hj; cases hj
      exact hc0 hjq
    simp only [enter]
    rw [List.getElem?_set, if_neg hij]
    exact hj

theorem queueEffect_release {cfg : Config} {s : State} {i : Nat} {c0 : Call} (c : Call)
    (ph : Phase) (h : Inv cfg s) (hi : s.calls[i]? = some c0)
    (hc0 : c0.phase.holdsSlot = true) : QueueEffect s (releaseBy s i c ph) := by
  have hne : ∀ (j : Nat) (cj : Call), s.calls[j]? = some cj → cj.phase = .queued → i ≠ j := by
    intro j cj hj hjq e
    subst e
    rw [hi] at hj; cases hj
    rw [hjq] at hc0; simp at hc0
  cases hqueue : s.lim.requestQueue with
  | nil =>
    left
    constructor
    · left
      simp [releaseBy, releaseSlot, hqueue]
    · intro j cj hj hjq
      simp only [releaseBy, releaseSlot, hqueue, wake]
      rw [List.getElem?_set, if_neg (hne j cj hj hjq)]
      exact hj
  | cons w rest =>
    right
    have hw : w ∈ s.lim.requestQueue := by rw [hqueue]; simp
    obtain ⟨cw, hcw, hwq⟩ := h.queued w hw
    have hiw : i ≠ w := hne w cw hcw hwq
    have hcw1 : (s.calls.set i { c with phase := ph, releases := c.releases + 1 })[w]? = some cw := by
      rw [List.getElem?_set]; simp [hiw, hcw]
    refine ⟨w, rest, cw, hqueue, ?_, hcw, ?_, ?_⟩
    · simp [releaseBy, releaseSlot, hqueue]
    · simp only [releaseBy, releaseSlot, hqueue, wake, hcw1]
      rw [List.getElem?_set]
      simp [getElem?_lt hcw]
    · intro j cj hjw hj hjq
      simp only [releaseBy, releaseSlot, hqueue, wake, hcw1]
      rw [List.getElem?_set, if_neg (Ne.symm hjw), List.getElem?_set, if_neg (hne j cj hj hjq)]
      exact hj

theorem queueEffect_handleStatus {cfg : Config} {s : State} {i : Nat} {c0 : Call} (c : Call)
    (r : Response) (h : Inv cfg s) (hi : s.calls[i]? = some c0)
    (hc0 : c0.phase.holdsSlot = true) : QueueEffect s (handleStatus s i c r) := by
  unfold handleStatus
  split_ifs
  · exact queueEffect_release c _ h hi hc0
  · exact queueEffect_release c _ h hi hc0

/-- Every transition pushes at the tail of the queue, or removes and wakes
its head, or leaves queue and queued calls alone. -/
theorem step_queue {cfg : Config} {s s1 : State} {e : Event} (h : Inv cfg s)
    (hs : step cfg s e = some s1) : QueueEffect s s1 := by
  cases e with
  | tick dt =>
    simp only [step, Option.some.injEq] at hs
    subst hs
    exact Or.inl ⟨Or.inl rfl, fun _ _ hj _ => hj⟩
  | call task retries =>
    simp only [step, Option.some.injEq] at hs
    subst hs
    left
    constructor
    · simp only [enter, waitForSlot]
      split_ifs
      · left; rfl
      · right; exact ⟨_, rfl⟩
    · intro j cj hj _
      have hlt := getElem?_lt hj
      simp only [enter]
      rw [List.getElem?_set, if_neg (by omega), List.getElem?_append_left hlt]
      exact hj
  | resume i =>
    simp only [step, resume] at hs
    cases hi : s.calls[i]? with
    | none => simp [hi] at hs
    | some c =>
      simp only [hi] at hs
      cases hph : c.phase with
      | queued => simp [hph] at hs
      | settled o => simp [hph] at hs
      | admitted =>
        simp only [hph, Option.some.injEq] at hs
        subst hs
        have hnq : c.phase ≠ .queued := by rw [hph]; simp
        unfold afterSlot
        split
        · exact queueEffect_set hi hnq rfl rfl
        · exact queueEffect_set hi hnq rfl rfl
      | pacing w =>
        simp only [hph] at hs
        split_ifs at hs
        simp only [Option.some.injEq] at hs
        subst hs
        exact queueEffect_set hi (by rw [hph]; simp) rfl rfl
      | fetching =>
        simp only [hph, Option.some.injEq] at hs
        subst hs
        have hc : c.phase.holdsSlot = true := by rw [hph]; rfl
        unfold afterFetch
        simp only
        split
        · exact queueEffect_release c _ h hi hc
        · split
          · exact queueEffect_handleStatus c _ h hi hc
          · split
            · exact queueEffect_release c _ h hi hc
            · exact queueEffect_handleStatus c _ h hi hc
            · have h1 : Inv cfg { s with lim := { s.lim with rateLimitRemaining := some ‹Int› } } :=
                ⟨h.active_eq, h.active_le, h.nodup, h.queued⟩
              split_ifs
              · exact queueEffect_set hi (by rw [hph]; simp) rfl rfl
              · exact queueEffect_handleStatus c _ h1 hi hc
      | pausing r w =>
        simp only [hph] at hs
        split_ifs at hs
        simp only [Option.some.injEq] at hs
        subst hs
        exact queueEffect_handleStatus c _ h hi (by rw [hph]; rfl)
      | retryWait w =>
        simp only [hph] at hs
        split_ifs at hs
        simp only [Option.some.injEq] at hs
        subst hs
        exact queueEffect_enter _ hi (by rw [hph]; simp)

/-! ## First in, first out -/

theorem callAt_eq {s : State} {j : Nat} {c : Call} (h : s.calls[j]? = some c) :
    callAt s j = c := by
  unfold callAt
  rw [List.getD_eq_getElem?_getD, h]
  rfl

theorem acquires_mono_step {cfg : Config} {s s1 : State} {e : Event} (j : Nat)
    (h : Inv cfg s) (hs : step cfg s e = some s1) : acquiresOf s j ≤ acquiresOf s1 j := by
  cases hj : s.calls[j]? with
  | none =>
    have : acquiresOf s j = 0 := by
      unfold acquiresOf callAt
      rw [List.getD_eq_getElem?_getD, hj]
      rfl
    omega
  | some c =>
    obtain ⟨c1, hc1, hcase⟩ := step_call_cases h hs hj
    simp only [acquiresOf, callAt_eq hj, callAt_eq hc1]
    rcases hcase with h1 | ⟨_, h1⟩ | h1
    · rw [h1]
    · rw [h1]; simp [Call.granted]
    · have := (advance_counts h1).2
      omega

theorem acquires_mono_run {cfg : Config} (j : Nat) (es : List Event) {s s1 : State}
    (h : Inv cfg s) (hs : run cfg s es = some s1) : acquiresOf s j ≤ acquiresOf s1 j := by
  induction es generalizing s with
  | nil =>
    simp only [run, Option.some.injEq] at hs
    subst hs
    exact Nat.le_refl _
  | cons e es ih =>
    simp only [run] at hs
    cases hst : step cfg s e with
    | none => simp [hst] at hs
    | some s2 =>
      simp only [hst] at hs
      exact Nat.le_trans (acquires_mono_step j h hst) (ih (inv_step e h hst) hs)

/-- While `a` stands before `b` in the queue, a transition that does not
admit `a` does not admit `b` either and keeps `a` before `b`. -/
theorem fifo_step {cfg : Config} {s s1 : State} {e : Event} {a b : Nat} (h : Inv cfg s)
    (hb : Before a b s.lim.requestQueue) (hs : step cfg s e = some s1)
    (ha : acquiresOf s1 a = acquiresOf s a) :
    Before a b s1.lim.requestQueue ∧ acquiresOf s1 b = acquiresOf s b := by
  obtain ⟨l1, l2, l3, hq⟩ := hb
  have hamem : a ∈ s.lim.requestQueue := by rw [hq]; simp
  have hbmem : b ∈ s.lim.requestQueue := by rw [hq]; simp
  obtain ⟨ca, hca, hcaq⟩ := h.queued a hamem
  obtain ⟨cb, hcb, hcbq⟩ := h.queued b hbmem
  rcases step_queue h hs with ⟨hqueue, hsame⟩ | ⟨w, rest, cw, hw, hrest, hcw, hcw1, hsame⟩
  · have hb1 := hsame b cb hcb hcbq
    refine ⟨?_, by simp only [acquiresOf, callAt_eq hb1, callAt_eq hcb]⟩
    rcases hqueue with h1 | ⟨c, h1⟩
    · exact ⟨l1, l2, l3, by rw [h1, hq]⟩
    · exact ⟨l1, l2, l3 ++ [c], by rw [h1, hq]; simp⟩
  · have hnd := h.nodup
    rw [hq] at hw
    cases l1 with
    | nil =>
      exfalso
      simp only [List.nil_append, List.cons.injEq] at hw
      obtain ⟨haw, _⟩ := hw
      subst haw
      rw [hca] at hcw; cases hcw
      simp only [acquiresOf, callAt_eq hcw1, callAt_eq hca, Call.granted] at ha
      omega
    | cons x l1t =>
      simp only [List.cons_append, List.cons.injEq] at hw
      obtain ⟨hxw, hrest2⟩ := hw
      subst hxw
      have hbw : b ≠ x := by
        intro e; subst e
        rw [hq] at hnd
        simp only [List.cons_append, List.nodup_cons] at hnd
        exact hnd.1 (by simp)
      have hb1 := hsame b cb hbw hcb hcbq
      refine ⟨⟨l1t, l2, l3, by rw [hrest, ← hrest2]⟩,
        by simp only [acquiresOf, callAt_eq hb1, callAt_eq hcb]⟩

theorem fifo_run {cfg : Config} {a b : Nat} (es : List Event) {s s2 : State} (h : Inv cfg s)
    (hb : Before a b s.lim.requestQueue) (hs : run cfg s es = some s2)
    (ha : acquiresOf s2 a = acquiresOf s a) : acquiresOf s2 b = acquiresOf s b := by
  induction es generalizing s with
  | nil =>
    simp only [run, Option.some.injEq] at hs
    subst hs
    rfl
  | cons e es ih =>
    simp only [run] at hs
    cases hst : step cfg s e with
    | none => simp [hst] at hs
    | some s1 =>
      simp only [hst] at hs
      have hinv1 := inv_step e h hst
      have m1 := acquires_mono_step a h hst
      have m2 := acquires_mono_run a es hinv1 hs
      obtain ⟨hb1, hbacq⟩ := fifo_step h hb hst (by omega)
      have := ih hinv1 hb1 hs (by omega)
      omega

/-- C7. `waitForSlot` pushes a waiter at the tail of `requestQueue` and
`releaseSlot` wakes the head. Hence, when call `a` is waiting in the queue and
call `b` joins the queue afterwards, `b` stands behind `a`, and in every later
state in which `b` has been admitted (given a slot) `a` has been admitted
too. -/
theorem c7_fifo_admission (cfg : Config) (s s1 s2 : State) (a b : Nat) (e : Event)
    (es : List Event) (hreach : Reachable cfg s) (ha : a ∈ s.lim.requestQueue)
    (hb0 : b ∉ s.lim.requestQueue) (hstep : step cfg s e = some s1)
    (hb : b ∈ s1.lim.requestQueue) (hrun : run cfg s1 es = some s2) :
    (∀ (l : Limiter) (c : Nat), ¬ l.activeRequests < cfg.maxConcurrent →
      (waitForSlot cfg l c).1.requestQueue = l.requestQueue ++ [c]) ∧
    (∀ l : Limiter, (releaseSlot l).2 = l.requestQueue.head? ∧
      (releaseSlot l).1.requestQueue = l.requestQueue.tail) ∧
    Before a b s1.lim.requestQueue ∧
    (acquiresOf s1 b < acquiresOf s2 b → acquiresOf s1 a < acquiresOf s2 a) := by
  have hinv := inv_reachable hreach
  have hinv1 := inv_step e hinv hstep
  have hbefore : Before a b s1.lim.requestQueue := by
    rcases step_queue hinv hstep with ⟨hqueue, _⟩ | ⟨w, rest, _, hw, hrest, _⟩
    · rcases hqueue with h1 | ⟨c, h1⟩
      · rw [h1] at hb; exact absurd hb hb0
      · rw [h1] at hb ⊢
        have hbc : b = c := by
          rcases List.mem_append.mp hb with h2 | h2
          · exact absurd h2 hb0
          · simpa using h2
        subst hbc
        obtain ⟨l1, l2, hsplit⟩ := List.append_of_mem ha
        exact ⟨l1, l2, [], by rw [hsplit]; simp⟩
    · rw [hrest] at hb
      exact absurd (by rw [hw]; exact List.mem_cons_of_mem _ hb) hb0
  refine ⟨?_, ?_, hbefore, ?_⟩
  · intro l c hfull
    simp [waitForSlot, hfull]
  · intro l
    unfold releaseSlot
    cases hq : l.requestQueue <;> simp [hq]
  · intro hlt
    have m := acquires_mono_run a es hinv1 hrun
    by_contra hcon
    have := fifo_run es hinv1 hbefore hrun (by omega)
    omega

/-- C7 at a concrete run: one slot held by call 0, call 1 queued, then call 2
queued; once call 2 has been admitted, call 1 has been admitted. -/
theorem c7_witness :
    Reachable cfgOne fifoS0 ∧ 1 ∈ fifoS0.lim.requestQueue ∧ 2 ∉ fifoS0.lim.requestQueue ∧
    fifoS1.lim.requestQueue = [1, 2] ∧
    acquiresOf fifoS1 2 = 0 ∧ acquiresOf fifoS2 2 = 1 ∧
    (acquiresOf fifoS1 2 < acquiresOf fifoS2 2 → acquiresOf fifoS1 1 < acquiresOf fifoS2 1) :=
  ⟨⟨0, fifoBefore, run_eq_runD (by decide)⟩, by decide, by decide, by decide, by decide,
    by decide,
    (c7_fifo_admission cfgOne fifoS0 fifoS1 fifoS2 1 2 (.call okTask none) fifoAfter
      ⟨0, fifoBefore, run_eq_runD (by decide)⟩ (by decide) (by decide) rfl (by decide)
      (run_eq_runD (by decide))).2.2.2⟩

/-! ## Pacing -/

/-- C8, the code at the failing input: on the OMDB limiter (five slots,
50 ms between requests) three calls made in the same turn at clock 1000 are
dispatched at 1000, 1050 and 1050: the last two dispatches are 0 ms apart. -/
theorem c8_pacing_violation :
    omdbLimiter.delayBetweenRequests = 50 ∧
    (run omdbLimiter (init fresh 1000) burst).isSome = true ∧
    (runD omdbLimiter (init fresh 1000) burst).log =
      [.dispatch 2 1050, .dispatch 1 1050, .dispatch 0 1000] ∧
    ¬ Paced omdbLimiter.delayBetweenRequests
      (dispatchTimes (runD omdbLimiter (init fresh 1000) burst).log) :=
  ⟨by decide, by decide, by decide, by decide⟩

/-! ## The preventive pause -/

theorem logEffect_same {cfg : Config} {s s1 : State} (hn : s1.now = s.now)
    (hl : s1.log = s.log) : LogEffect cfg s s1 :=
  ⟨by rw [hn], Or.inl hl⟩

theorem logEffect_handleStatus {cfg : Config} (s : State) (i : Nat) (c : Call) (r : Response) :
    LogEffect cfg s (handleStatus s i c r) := by
  unfold handleStatus
  split_ifs <;> exact logEffect_same rfl rfl

theorem logEffect_dispatch {cfg : Config} {s : State} {i : Nat} {c : Call}
    (hi : s.calls[i]? = some c) (hc : c.phase.holdsSlot = true)
    (hp : ∀ r w, c.phase ≠ .pausing r w) : LogEffect cfg s (dispatch s i c) :=
  ⟨Int.le_refl _, Or.inr (Or.inl ⟨i, c, hi, hc, hp, rfl⟩)⟩

/-- Every transition changes clock and log as `LogEffect` says. -/
theorem step_log {cfg : Config} {s s1 : State} {e : Event} (hs : step cfg s e = some s1) :
    LogEffect cfg s s1 := by
  cases e with
  | tick dt =>
    simp only [step, Option.some.injEq] at hs
    subst hs
    exact ⟨by show s.now ≤ s.now + (dt : Int); omega, Or.inl rfl⟩
  | call task retries =>
    simp only [step, Option.some.injEq] at hs
    subst hs
    exact logEffect_same rfl rfl
  | resume i =>
    simp only [step, resume] at hs
    cases hi : s.calls[i]? with
    | none => simp [hi] at hs
    | some c =>
      simp only [hi] at hs
      cases hph : c.phase with
      | queued => simp [hph] at hs
      | settled o => simp [hph] at hs
      | admitted =>
        simp only [hph, Option.some.injEq] at hs
        subst hs
        unfold afterSlot
        split
        · exact logEffect_same rfl rfl
        · exact logEffect_dispatch hi (by rw [hph]; rfl) (by rw [hph]; simp)
      | pacing w =>
        simp only [hph] at hs
        split_ifs at hs
        simp only [Option.some.injEq] at hs
        subst hs
        exact logEffect_dispatch hi (by rw [hph]; rfl) (by rw [hph]; simp)
      | fetching =>
        simp only [hph, Option.some.injEq] at hs
        subst hs
        unfold afterFetch
        simp only
        split
        · exact logEffect_same rfl rfl
        · split
          · exact logEffect_handleStatus _ _ _ _
          · split
            · exact logEffect_same rfl rfl
            · exact logEffect_handleStatus _ _ _ _
            · split_ifs
              · refine ⟨Int.le_refl _, Or.inr (Or.inr ⟨i, c, ‹Response›, hi, ?_, rfl, rfl⟩)⟩
                simp [List.getElem?_set, getElem?_lt hi]
              · exact logEffect_handleStatus
                  { s with lim := { s.lim with rateLimitRemaining := some ‹Int› } } _ _ _
      | pausing r w =>
        simp only [hph] at hs
        split_ifs at hs
        simp only [Option.some.injEq] at hs
        subst hs
        exact logEffect_handleStatus _ _ _ _
      | retryWait w =>
        simp only [hph] at hs
        split_ifs at hs
        simp only [Option.some.injEq] at hs
        subst hs
        exact logEffect_same rfl rfl

theorem two_holders {cs : List Call} {i j : Nat} {ci cj : Call} (hij : i ≠ j)
    (hi : cs[i]? = some ci) (hj : cs[j]? = some cj) (hci : ci.phase.holdsSlot = true)
    (hcj : cj.phase.holdsSlot = true) : 2 ≤ holders cs := by
  have h1 := holders_set cs i ci blankCall hi
  have hj1 : (cs.set i blankCall)[j]? = some cj := by
    rw [List.getElem?_set, if_neg hij]; exact hj
  have h2 := holders_set (cs.set i blankCall) j cj blankCall hj1
  have hb : blankCall.phase.holdsSlot = false := rfl
  rw [hci, hb] at h1
  rw [hcj, hb] at h2
  simp only [if_true] at h1 h2
  have h3 : (0 : Int) ≤ (holders ((cs.set i blankCall).set j blankCall) : Int) :=
    Int.natCast_nonneg _
  have h4 : (2 : Int) ≤ (holders cs : Int) := by
    simp at h1 h2
    omega
  exact_mod_cast h4

/-- A pause that is pending before a transition is pending or over after
it. -/
theorem pending_step {cfg : Config} {s s1 : State} {e : Event} {c : Nat} {t : Int}
    (h : Inv cfg s) (hs : step cfg s e = some s1)
    (hp : t + cfg.rateLimitPauseMs ≤ s.now ∨
      ∃ cj r, s.calls[c]? = some cj ∧ cj.phase = .pausing r (t + cfg.rateLimitPauseMs)) :
    t + cfg.rateLimitPauseMs ≤ s1.now ∨
      ∃ cj r, s1.calls[c]? = some cj ∧ cj.phase = .pausing r (t + cfg.rateLimitPauseMs) := by
  have hnow := (step_log hs).1
  rcases hp with hp | ⟨cj, r, hcj, hph⟩
  · left; omega
  · obtain ⟨c1, hc1, hcase⟩ := step_call_cases h hs hcj
    rcases hcase with h1 | ⟨hq, _⟩ | h1
    · right; exact ⟨c1, r, hc1, by rw [h1]; exact hph⟩
    · rw [hph] at hq; cases hq
    · left
      unfold Call.advance at h1
      simp only [hph] at h1
      split_ifs at h1 with hw
      omega

/-- With at most one slot, the pause invariant is preserved by every
transition. -/
theorem pause_step {cfg : Config} {s s1 : State} {e : Event} (hK : cfg.maxConcurrent ≤ 1)
    (h : Inv cfg s) (hp : PauseInv cfg s) (hs : step cfg s e = some s1) : PauseInv cfg s1 := by
  obtain ⟨hnow, hlog⟩ := step_log hs
  rcases hlog with hl | ⟨i, ci, hi, hci, hnp, hl⟩ | ⟨i, ci, r, hi, hi1, hn1, hl⟩
  · refine ⟨?_, by rw [hl]; exact hp.respected⟩
    intro c t hmem
    rw [hl] at hmem
    exact pending_step h hs (hp.pending c t hmem)
  · constructor
    · intro c t hmem
      rw [hl] at hmem
      simp only [List.mem_cons] at hmem
      rcases hmem with hmem | hmem
      · cases hmem
      · exact pending_step h hs (hp.pending c t hmem)
    · intro l1 rest c2 t2 hsplit c1 t1 hmem
      rw [hl] at hsplit
      cases l1 with
      | nil =>
        simp only [List.nil_append, List.cons.injEq, Obs.dispatch.injEq] at hsplit
        obtain ⟨⟨_, ht⟩, hrest⟩ := hsplit
        subst ht hrest
        rcases hp.pending c1 t1 hmem with h1 | ⟨cj, r, hcj, hph⟩
        · exact h1
        · exfalso
          have hne : i ≠ c1 := by
            intro e1; subst e1
            rw [hi] at hcj; cases hcj
            exact hnp r _ hph
          have h2 := two_holders hne hi hcj hci (by rw [hph]; rfl)
          have h3 := h.active_eq
          have h4 := h.active_le
          omega
      | cons x l1t =>
        simp only [List.cons_append, List.cons.injEq] at hsplit
        exact hp.respected l1t rest c2 t2 hsplit.2 c1 t1 hmem
  · constructor
    · intro c t hmem
      rw [hl] at hmem
      simp only [List.mem_cons, Obs.lowRemaining.injEq] at hmem
      rcases hmem with ⟨hc, ht⟩ | hmem
      · subst hc ht
        right
        exact ⟨_, r, hi1, rfl⟩
      · exact pending_step h hs (hp.pending c t hmem)
    · intro l1 rest c2 t2 hsplit c1 t1 hmem
      rw [hl] at hsplit
      cases l1 with
      | nil => simp at hsplit
      | cons x l1t =>
        simp only [List.cons_append, List.cons.injEq] at hsplit
        exact hp.respected l1t rest c2 t2 hsplit.2 c1 t1 hmem

theorem pause_run {cfg : Config} (hK : cfg.maxConcurrent ≤ 1) (es : List Event) {s s1 : State}
    (h : Inv cfg s) (hp : PauseInv cfg s) (hs : run cfg s es = some s1) : PauseInv cfg s1 := by
  induction es generalizing s with
  | nil =>
    simp only [run, Option.some.injEq] at hs
    exact hs ▸ hp
  | cons e es ih =>
    simp only [run] at hs
    cases hst : step cfg s e with
    | none => simp [hst] at hs
    | some s2 =>
      simp only [hst] at hs
      exact ih (inv_step e h hst) (pause_step hK h hp hst) hs

/-- C9 refuted as stated: with two slots, a call answered at 100 with a low
remaining count pauses until 10100, yet a call made at 150 takes the free
slot and is dispatched at 150. -/
theorem c9_counterexample :
    cfgHookTwo.rateLimitPauseMs = 10000 ∧ cfgHookTwo.rateLimitThreshold = 50 ∧
    remainingHook { status := 200, retryAfter := none, payload := 1 } = .info (some 10) ∧
    (run cfgHookTwo (init fresh 0) pauseDemo).isSome = true ∧
    (runD cfgHookTwo (init fresh 0) pauseDemo).log =
      [.dispatch 1 150, .lowRemaining 0 100, .dispatch 0 0] ∧
    ¬ PauseRespected cfgHookTwo.rateLimitPauseMs (runD cfgHookTwo (init fresh 0) pauseDemo).log :=
  ⟨by decide, by decide, by decide, by decide, by decide, fun h => by
    have h1 := h [] [.lowRemaining 0 100, .dispatch 0 0] 1 150 (by decide) 0 100 (by simp)
    revert h1
    decide⟩

/-- C9 as amended. On a limiter with `maxConcurrent = 1`, in every reachable
state every dispatch logged after a response with a remaining count `r`,
`0 < r < rateLimitThreshold`, was processed happened at least
`rateLimitPauseMs` milliseconds after that moment, whoever the caller. (With
more slots only the call that saw the low count pauses, keeping its slot.) -/
theorem c9_pause_single_slot (cfg : Config) (s : State) (l1 rest : List Obs) (c1 c2 : Nat)
    (t1 t2 : Int) (hK : cfg.maxConcurrent = 1) (hreach : Reachable cfg s)
    (hlog : s.log = l1 ++ Obs.dispatch c2 t2 :: rest)
    (hlow : Obs.lowRemaining c1 t1 ∈ rest) : t1 + cfg.rateLimitPauseMs ≤ t2 := by
  obtain ⟨t0, es, hrun⟩ := hreach
  have hinit : PauseInv cfg (init fresh t0) := by
    constructor
    · intro c t hmem
      simp [init] at hmem
    · intro l1 rest c2 t2 hsplit
      simp [init] at hsplit
  have hp := pause_run (by omega) es (inv_init cfg t0) hinit hrun
  exact hp.respected l1 rest c2 t2 hlog c1 t1 hlow

/-- C9 as amended, at a concrete run: one slot, low count seen at 100, the
next dispatch happens at 10100. -/
theorem c9_witness :
    cfgHookOne.maxConcurrent = 1 ∧
    Reachable cfgHookOne (runD cfgHookOne (init fresh 0) pauseDemoOne) ∧
    (runD cfgHookOne (init fresh 0) pauseDemoOne).log =
      [] ++ Obs.dispatch 1 10100 :: [.lowRemaining 0 100, .dispatch 0 0] ∧
    (100 : Int) + cfgHookOne.rateLimitPauseMs ≤ 10100 :=
  ⟨by decide, ⟨0, pauseDemoOne, run_eq_runD (by decide)⟩, by decide,
    c9_pause_single_slot cfgHookOne (runD cfgHookOne (init fresh 0) pauseDemoOne) []
      [.lowRemaining 0 100, .dispatch 0 0] 0 1 100 10100 (by decide)
      ⟨0, pauseDemoOne, run_eq_runD (by decide)⟩ (by decide) (by simp)⟩

/-! ## Construction defaults -/

/-- C12. `createRateLimiter` called with no options uses `maxConcurrent = 3`,
`maxRetries = 3`, `delayBetweenRequests = 0`, `rateLimitThreshold = 50`,
`rateLimitPauseMs = 10000`, `name = "API"` and no `parseRateLimit` hook; called
with an options object, each field that is omitted takes that default and
each field that is supplied is used as given. -/
theorem c12_defaults (o : Options) :
    ((createRateLimiter {}).1.maxConcurrent = 3 ∧
      (createRateLimiter {}).1.maxRetries = 3 ∧
      (createRateLimiter {}).1.delayBetweenRequests = 0 ∧
      (createRateLimiter {}).1.rateLimitThreshold = 50 ∧
      (createRateLimiter {}).1.rateLimitPauseMs = 10000 ∧
      (createRateLimiter {}).1.name = "API" ∧
      (createRateLimiter {}).1.parseRateLimit.isNone = true) ∧
    ((createRateLimiter o).1.maxConcurrent = o.maxConcurrent.getD 3 ∧
      (createRateLimiter o).1.maxRetries = o.maxRetries.getD 3 ∧
      (createRateLimiter o).1.delayBetweenRequests = o.delayBetweenRequests.getD 0 ∧
      (createRateLimiter o).1.rateLimitThreshold = o.rateLimitThreshold.getD 50 ∧
      (createRateLimiter o).1.rateLimitPauseMs = o.rateLimitPauseMs.getD 10000 ∧
      (createRateLimiter o).1.name = o.name.getD "API" ∧
      (createRateLimiter o).1.parseRateLimit = o.parseRateLimit) :=
  ⟨⟨rfl, rfl, rfl, rfl, rfl, rfl, rfl⟩, ⟨rfl, rfl, rfl, rfl, rfl, rfl, rfl⟩⟩

/-! ## `lastRequestTime` -/

theorem releaseBy_lastRequestTime (s : State) (i : Nat) (c : Call) (ph : Phase) :
    (releaseBy s i c ph).lim.lastRequestTime = s.lim.lastRequestTime := by
  unfold releaseBy releaseSlot
  cases s.lim.requestQueue <;> rfl

theorem handleStatus_lastRequestTime (s : State) (i : Nat) (c : Call) (r : Response) :
    (handleStatus s i c r).lim.lastRequestTime = s.lim.lastRequestTime := by
  unfold handleStatus
  split_ifs <;> exact releaseBy_lastRequestTime _ _ _ _

theorem enter_lastRequestTime (cfg : Config) (s : State) (i : Nat) (c : Call) :
    (enter cfg s i c).lim.lastRequestTime = s.lim.lastRequestTime := by
  unfold enter waitForSlot
  split_ifs <;> rfl

/-- C13. `waitForSlot` and `releaseSlot` leave `lastRequestTime` unchanged,
and so does every transition of the system (admission at once or through the
queue, start of the pacing wait, of the rate-limit pause and of the retry
wait, release of a slot, clock ticks) except the one that invokes `fetchFn`:
the continuation of an admitted call that needs no pacing wait, or of a call
whose pacing wait is over, which sets `lastRequestTime` to the clock and
starts the task. -/
theorem c13_lastRequestTime_frame (cfg : Config) (s s1 : State) (e : Event)
    (hs : step cfg s e = some s1) :
    (∀ (l : Limiter) (c : Nat), (waitForSlot cfg l c).1.lastRequestTime = l.lastRequestTime) ∧
    (∀ l : Limiter, (releaseSlot l).1.lastRequestTime = l.lastRequestTime) ∧
    (s1.lim.lastRequestTime = s.lim.lastRequestTime ∨
      ∃ i c, e = .resume i ∧ s.calls[i]? = some c ∧
        ((c.phase = .admitted ∧ pacingDelay cfg s.lim s.now = none) ∨
          ∃ w, c.phase = .pacing w ∧ w ≤ s.now) ∧
        s1 = dispatch s i c) := by
  refine ⟨?_, ?_, ?_⟩
  · intro l c
    unfold waitForSlot
    split_ifs <;> rfl
  · intro l
    unfold releaseSlot
    cases l.requestQueue <;> rfl
  · cases e with
    | tick dt =>
      simp only [step, Option.some.injEq] at hs
      subst hs
      exact Or.inl rfl
    | call task retries =>
      simp only [step, Option.some.injEq] at hs
      subst hs
      exact Or.inl (enter_lastRequestTime _ _ _ _)
    | resume i =>
      simp only [step, resume] at hs
      cases hi : s.calls[i]? with
      | none => simp [hi] at hs
      | some c =>
        simp only [hi] at hs
        cases hph : c.phase with
        | queued => simp [hph] at hs
        | settled o => simp [hph] at hs
        | admitted =>
          simp only [hph, Option.some.injEq] at hs
          subst hs
          unfold afterSlot
          cases hp : pacingDelay cfg s.lim s.now with
          | some d => exact Or.inl rfl
          | none => exact Or.inr ⟨i, c, rfl, hi, Or.inl ⟨hph, rfl⟩, rfl⟩
        | pacing w =>
          simp only [hph] at hs
          split_ifs at hs with hw
          simp only [Option.some.injEq] at hs
          subst hs
          exact Or.inr ⟨i, c, rfl, hi, Or.inr ⟨w, hph, hw⟩, rfl⟩
        | fetching =>
          simp only [hph, Option.some.injEq] at hs
          subst hs
          left
          unfold afterFetch
          simp only
          split
          · exact releaseBy_lastRequestTime _ _ _ _
          · split
            · exact handleStatus_lastRequestTime _ _ _ _
            · split
              · exact releaseBy_lastRequestTime _ _ _ _
              · exact handleStatus_lastRequestTime _ _ _ _
              · split_ifs
                · rfl
                · exact handleStatus_lastRequestTime
                    { s with lim := { s.lim with rateLimitRemaining := some ‹Int› } } _ _ _
        | pausing r w =>
          simp only [hph] at hs
          split_ifs at hs
          simp only [Option.some.injEq] at hs
          subst hs
          exact Or.inl (handleStatus_lastRequestTime _ _ _ _)
        | retryWait w =>
          simp only [hph] at hs
          split_ifs at hs
          simp only [Option.some.injEq] at hs
          subst hs
          exact Or.inl (enter_lastRequestTime _ _ _ _)

/-- C13 at a concrete step: the continuation of the first call made at clock 5
sets `lastRequestTime` from 0 to 5 and starts the task. -/
theorem c13_witness :
    step cfgOne firstCallMade (.resume 0) = some firstCallDispatched ∧
    firstCallMade.lim.lastRequestTime = 0 ∧ firstCallDispatched.lim.lastRequestTime = 5 ∧
    (firstCallDispatched.lim.lastRequestTime = firstCallMade.lim.lastRequestTime ∨
      ∃ i c, Event.resume 0 = .resume i ∧ firstCallMade.calls[i]? = some c ∧
        ((c.phase = .admitted ∧ pacingDelay cfgOne firstCallMade.lim firstCallMade.now = none) ∨
          ∃ w, c.phase = .pacing w ∧ w ≤ firstCallMade.now) ∧
        firstCallDispatched = dispatch firstCallMade i c) :=
  ⟨rfl, by decide, by decide,
    (c13_lastRequestTime_frame cfgOne firstCallMade firstCallDispatched (.resume 0) rfl).2.2⟩

/-! ## When the preventive pause is taken -/

theorem afterResponse_not_pausing (c : Call) (now : Int) (r r1 : Response) (w : Int) :
    (c.afterResponse now r).phase ≠ .pausing r1 w := by
  unfold Call.afterResponse
  split_ifs <;> simp

/-- The record after the task result is processed is in the pause exactly when
the hook reports, for this very response, a remaining count that is positive
and below the threshold. -/
theorem afterTask_pausing_iff (cfg : Config) (c : Call) (now : Int) (r : Response) (w : Int) :
    (c.afterTask cfg now).phase = .pausing r w ↔
      (w = now + cfg.rateLimitPauseMs ∧
        ∃ hook rem, cfg.parseRateLimit = some hook ∧
          c.task (c.invocations - 1) = .resolves r ∧ hook r = .info (some rem) ∧
          0 < rem ∧ rem < cfg.rateLimitThreshold) := by
  unfold Call.afterTask
  cases htask : c.task (c.invocations - 1) with
  | rejects e => simp
  | resolves r0 =>
    simp only
    cases hhook : cfg.parseRateLimit with
    | none =>
      simp only
      constructor
      · intro h; exact absurd h (afterResponse_not_pausing _ _ _ _ _)
      · rintro ⟨_, hook, _, h, _⟩; cases h
    | some hook =>
      simp only
      cases hinfo : hook r0 with
      | throws e =>
        simp only
        constructor
        · intro h; cases h
        · rintro ⟨_, hook1, rem, h1, h2, h3, _⟩
          cases h1; cases h2
          rw [hinfo] at h3; cases h3
      | info rem0 =>
        cases rem0 with
        | none =>
          simp only
          constructor
          · intro h; exact absurd h (afterResponse_not_pausing _ _ _ _ _)
          · rintro ⟨_, hook1, rem, h1, h2, h3, _⟩
            cases h1; cases h2
            rw [hinfo] at h3; cases h3
        | some rem0 =>
          simp only
          by_cases hlow : rem0 < cfg.rateLimitThreshold ∧ rem0 > 0
          · simp only [hlow, and_self, if_true]
            constructor
            · intro h
              simp only [Phase.pausing.injEq] at h
              obtain ⟨h1, h2⟩ := h
              subst h1
              exact ⟨h2.symm, hook, rem0, rfl, rfl, hinfo, hlow.2, hlow.1⟩
            · rintro ⟨hw, hook1, rem, h1, h2, h3, _⟩
              cases h1; cases h2
              rw [hw]
          · simp only [hlow, if_false]
            constructor
            · intro h; exact absurd h (afterResponse_not_pausing _ _ _ _ _)
            · rintro ⟨_, hook1, rem, h1, h2, h3, h4, h5⟩
              cases h1; cases h2
              rw [hinfo] at h3; cases h3
              exact absurd ⟨h5, h4⟩ hlow

/-- C19 refuted as stated: the limiter has stored a remaining count of 10
(positive, below the threshold 50) from an earlier response; the response of
the second call carries no count, and the call settles at once, without
pause. -/
theorem c19_counterexample :
    cfgHookOne.rateLimitThreshold = 50 ∧
    (run cfgHookOne (init fresh 0) staleLowCount).isSome = true ∧
    (runD cfgHookOne (init fresh 0) staleLowCount).lim.rateLimitRemaining = some 10 ∧
    phaseOf (runD cfgHookOne (init fresh 0) staleLowCount) 1 = some .fetching ∧
    remainingHook { status := 200, retryAfter := none, payload := 0 } = .info none ∧
    phaseOf (runD cfgHookOne (init fresh 0) (staleLowCount ++ [.resume 1])) 1 =
      some (.settled (.resolved { status := 200, retryAfter := none, payload := 0 })) ∧
    (runD cfgHookOne (init fresh 0) (staleLowCount ++ [.resume 1])).lim.rateLimitRemaining =
      some 10 :=
  ⟨by decide, by decide, by decide, by decide, by decide, by decide, by decide⟩

/-- C19 as amended. When the continuation of a call processes the result of
its task, the call enters the pause of `rateLimitPauseMs` exactly when there
is a `parseRateLimit` hook, the task resolved, and the hook reports for this
very response a remaining count `r` with `0 < r < rateLimitThreshold`; the
count stored by earlier responses plays no part. A reported count is stored
as the new remaining count; without a reported count the stored one is kept
and there is no pause. -/
theorem c19_pause_condition (cfg : Config) (s : State) (i : Nat) (c : Call)
    (hreach : Reachable cfg s) (hi : s.calls[i]? = some c) (hph : c.phase = .fetching) :
    (∀ (r : Response) (w : Int),
      phaseOf (afterFetch cfg s i c) i = some (.pausing r w) ↔
        (w = s.now + cfg.rateLimitPauseMs ∧
          ∃ hook rem, cfg.parseRateLimit = some hook ∧
            c.task (c.invocations - 1) = .resolves r ∧ hook r = .info (some rem) ∧
            0 < rem ∧ rem < cfg.rateLimitThreshold)) ∧
    (∀ hook r rem, cfg.parseRateLimit = some hook →
      c.task (c.invocations - 1) = .resolves r → hook r = .info (some rem) →
      (afterFetch cfg s i c).lim.rateLimitRemaining = some rem) ∧
    ((cfg.parseRateLimit = none ∨
      ∃ hook r, cfg.parseRateLimit = some hook ∧
        c.task (c.invocations - 1) = .resolves r ∧ hook r = .info none) →
      (afterFetch cfg s i c).lim.rateLimitRemaining = s.lim.rateLimitRemaining ∧
      ∀ r w, phaseOf (afterFetch cfg s i c) i ≠ some (.pausing r w)) := by
  have hinv := inv_reachable hreach
  have hres : resume cfg s i = some (afterFetch cfg s i c) := by
    simp [resume, hi, hph]
  have hself := resume_self hinv hi hres
  simp only [Call.advance, hph] at hself
  have hphase : phaseOf (afterFetch cfg s i c) i = some (c.afterTask cfg s.now).phase := by
    simp [phaseOf, hself]
  have hrem : ∀ (s0 : State) (ph : Phase),
      (releaseBy s0 i c ph).lim.rateLimitRemaining = s0.lim.rateLimitRemaining := by
    intro s0 ph
    unfold releaseBy releaseSlot
    cases s0.lim.requestQueue <;> rfl
  have hrem2 : ∀ (s0 : State) (r : Response),
      (handleStatus s0 i c r).lim.rateLimitRemaining = s0.lim.rateLimitRemaining := by
    intro s0 r
    unfold handleStatus
    split_ifs <;> exact hrem _ _
  refine ⟨?_, ?_, ?_⟩
  · intro r w
    rw [hphase, Option.some.injEq]
    exact afterTask_pausing_iff cfg c s.now r w
  · intro hook r rem hhook htask hinfo
    unfold afterFetch
    simp only [htask, hhook, hinfo]
    split_ifs
    · rfl
    · exact hrem2 _ _
  · intro hno
    constructor
    · unfold afterFetch
      rcases hno with hnone | ⟨hook, r, hhook, htask, hinfo⟩
      · simp only [hnone]
        split
        · exact hrem _ _
        · exact hrem2 _ _
      · simp only [htask, hhook, hinfo]
        exact hrem2 _ _
    · intro r w hp
      rw [hphase, Option.some.injEq] at hp
      obtain ⟨_, hook1, rem, h1, h2, h3, _⟩ := (afterTask_pausing_iff cfg c s.now r w).mp hp
      rcases hno with hnone | ⟨hook, r0, hhook, htask, hinfo⟩
      · rw [hnone] at h1; cases h1
      · rw [hhook] at h1; cases h1
        rw [htask] at h2; cases h2
        rw [hinfo] at h3; cases h3

/-- C19 as amended, at a concrete state: the response reports 10 remaining
requests, the call pauses until 10000. -/
theorem c19_witness :
    Reachable cfgHookOne lowCountPending ∧
    lowCountPending.calls[0]? = some (callAt lowCountPending 0) ∧
    (callAt lowCountPending 0).phase = .fetching ∧
    phaseOf (afterFetch cfgHookOne lowCountPending 0 (callAt lowCountPending 0)) 0 =
      some (.pausing { status := 200, retryAfter := none, payload := 1 } 10000) :=
  ⟨⟨0, [.call lowTask none, .resume 0], run_eq_runD (by decide)⟩, rfl, by decide,
    ((c19_pause_condition cfgHookOne lowCountPending 0 (callAt lowCountPending 0)
      ⟨0, [.call lowTask none, .resume 0], run_eq_runD (by decide)⟩ rfl (by decide)).1
      { status := 200, retryAfter := none, payload := 1 } 10000).mpr
      ⟨by decide, remainingHook, 10, rfl, rfl, by decide, by decide, by decide⟩⟩

/-! ## Admission -/

/-- C20. With `activeRequests < maxConcurrent`, `waitForSlot` adds exactly 1
to `activeRequests`, leaves `requestQueue` unchanged and returns a resolved
promise; otherwise it leaves `activeRequests` unchanged, appends exactly the
caller at the tail of `requestQueue` and returns a pending promise. A call
suspended on such a pending promise stays as it is under every transition,
except the one in which `releaseSlot` removes it from the head of the queue
and resolves its promise. -/
theorem c20_waitForSlot_admission (cfg : Config) (s s1 : State) (e : Event) (j : Nat)
    (cj : Call) (hreach : Reachable cfg s) (hj : s.calls[j]? = some cj)
    (hq : cj.phase = .queued) (hs : step cfg s e = some s1) :
    (∀ (l : Limiter) (c : Nat), l.activeRequests < cfg.maxConcurrent →
      waitForSlot cfg l c = ({ l with activeRequests := l.activeRequests + 1 }, true)) ∧
    (∀ (l : Limiter) (c : Nat), ¬ l.activeRequests < cfg.maxConcurrent →
      waitForSlot cfg l c = ({ l with requestQueue := l.requestQueue ++ [c] }, false)) ∧
    (s1.calls[j]? = some cj ∨
      ∃ rest, s.lim.requestQueue = j :: rest ∧ s1.lim.requestQueue = rest ∧
        s1.calls[j]? = some cj.granted) := by
  refine ⟨?_, ?_, ?_⟩
  · intro l c h
    simp [waitForSlot, h]
  · intro l c h
    simp [waitForSlot, h]
  · rcases step_queue (inv_reachable hreach) hs with ⟨_, hsame⟩ |
      ⟨w, rest, cw, hw, hrest, hcw, hcw1, hsame⟩
    · exact Or.inl (hsame j cj hj hq)
    · by_cases hjw : j = w
      · subst hjw
        rw [hj] at hcw; cases hcw
        exact Or.inr ⟨rest, hw, hrest, hcw1⟩
      · exact Or.inl (hsame j cj hjw hj hq)

/-- C20 at a concrete step: call 1 waits in the queue of the one-slot limiter
while call 0 starts its task. -/
theorem c20_witness :
    Reachable cfgOne fifoS0 ∧ fifoS0.calls[1]? = some (callAt fifoS0 1) ∧
    (callAt fifoS0 1).phase = .queued ∧
    step cfgOne fifoS0 (.resume 0) = some (runD cfgOne fifoS0 [.resume 0]) ∧
    ((runD cfgOne fifoS0 [.resume 0]).calls[1]? = some (callAt fifoS0 1) ∨
      ∃ rest, fifoS0.lim.requestQueue = 1 :: rest ∧
        (runD cfgOne fifoS0 [.resume 0]).lim.requestQueue = rest ∧
        (runD cfgOne fifoS0 [.resume 0]).calls[1]? = some (callAt fifoS0 1).granted) :=
  ⟨⟨0, fifoBefore, run_eq_runD (by decide)⟩, rfl, by decide, rfl,
    (c20_waitForSlot_admission cfgOne fifoS0 (runD cfgOne fifoS0 [.resume 0]) (.resume 0) 1
      (callAt fifoS0 1) ⟨0, fifoBefore, run_eq_runD (by decide)⟩ rfl (by decide) rfl).2.2⟩

/-! ## Five tasks of 100 ms on two slots -/

set_option maxRecDepth 100000 in
/-- C14. Logical clock, `maxConcurrent = 2`, `delayBetweenRequests = 0`, no
`parseRateLimit`, five calls of `execute` made at time 0 with tasks that take
exactly 100 ms and succeed: the event loop runs the tasks in three waves,
two dispatched at 0, two at 100, one at 200; the calls settle at 100, 100,
200, 200 and 300, so the last one settles at 300 (not at 100, not at 500). -/
theorem c14_three_waves :
    cfgTwo.maxConcurrent = 2 ∧ cfgTwo.delayBetweenRequests = 0 ∧
    cfgTwo.parseRateLimit.isNone = true ∧
    fiveCallsSchedule.map Event.label =
      [.call, .call, .call, .call, .call, .resume 0, .resume 1, .tick 100,
       .resume 0, .resume 1, .resume 2, .resume 3, .tick 100,
       .resume 2, .resume 3, .resume 4, .tick 100, .resume 4] ∧
    (run cfgTwo (init fresh 0) fiveCallsSchedule).isSome = true ∧
    (runD cfgTwo (init fresh 0) fiveCallsSchedule).log =
      [.dispatch 4 200, .dispatch 3 100, .dispatch 2 100, .dispatch 1 0, .dispatch 0 0] ∧
    (List.range 5).map (fun j => settledAt cfgTwo j (init fresh 0) fiveCallsSchedule) =
      [some 100, some 100, some 200, some 200, some 300] ∧
    (runD cfgTwo (init fresh 0) fiveCallsSchedule).now = 300 ∧
    (runD cfgTwo (init fresh 0) fiveCallsSchedule).lim.activeRequests = 0 := by
  decide

/-! ## Dispatches of one call and its retry waits -/

theorem afterResponse_invocations (c : Call) (now : Int) (r : Response) :
    (c.afterResponse now r).invocations = c.invocations := by
  unfold Call.afterResponse
  split_ifs <;> rfl

theorem afterTask_invocations (cfg : Config) (c : Call) (now : Int) :
    (c.afterTask cfg now).invocations = c.invocations := by
  unfold Call.afterTask
  split
  · rfl
  · split
    · exact afterResponse_invocations _ _ _
    · split
      · rfl
      · exact afterResponse_invocations _ _ _
      · split
        · rfl
        · exact afterResponse_invocations _ _ _

theorem handleStatus_log (s : State) (i : Nat) (c : Call) (r : Response) :
    (handleStatus s i c r).log = s.log ∧ (handleStatus s i c r).now = s.now := by
  unfold handleStatus
  split_ifs <;> exact ⟨rfl, rfl⟩

/-- The continuation of call `i` keeps the clock and adds to the dispatches of
call `j` exactly the clock value when `i = j` and the continuation invoked
`fetchFn`. -/
theorem resume_dispatches {cfg : Config} {s s1 : State} {i : Nat} {c c1 : Call} (j : Nat)
    (hi : s.calls[i]? = some c) (hs : resume cfg s i = some s1)
    (hadv : c.advance cfg s.lim s.now = some c1) :
    s1.now = s.now ∧
    dispatchesOf j s1.log =
      (if i = j ∧ c1.invocations ≠ c.invocations then [s.now] else []) ++
        dispatchesOf j s.log := by
  simp only [resume, hi] at hs
  unfold Call.advance at hadv
  cases hph : c.phase with
  | queued => simp [hph] at hs
  | settled o => simp [hph] at hs
  | admitted =>
    simp only [hph, Option.some.injEq] at hs hadv
    subst hs
    unfold afterSlot
    cases hp : pacingDelay cfg s.lim s.now with
    | some d =>
      simp only [hp, Option.some.injEq] at hadv
      subst hadv
      simp
    | none =>
      simp only [hp, Option.some.injEq] at hadv
      subst hadv
      by_cases hij : i = j <;> simp [dispatch, dispatchesOf, hij]
  | pacing w =>
    simp only [hph] at hs hadv
    split_ifs at hs with hw
    simp only [hw, if_true, Option.some.injEq] at hs hadv
    subst hs hadv
    by_cases hij : i = j <;> simp [dispatch, dispatchesOf, hij]
  | fetching =>
    simp only [hph, Option.some.injEq] at hs hadv
    subst hs hadv
    simp only [afterTask_invocations, ne_eq, not_true_eq_false, and_false, if_false,
      List.nil_append]
    unfold afterFetch
    simp only
    split
    · exact ⟨rfl, rfl⟩
    · split
      · exact ⟨(handleStatus_log _ _ _ _).2, by rw [(handleStatus_log _ _ _ _).1]⟩
      · split
        · exact ⟨rfl, rfl⟩
        · exact ⟨(handleStatus_log _ _ _ _).2, by rw [(handleStatus_log _ _ _ _).1]⟩
        · split_ifs
          · exact ⟨rfl, rfl⟩
          · exact ⟨(handleStatus_log _ _ _ _).2, by rw [(handleStatus_log _ _ _ _).1]⟩
  | pausing r w =>
    simp only [hph] at hs hadv
    split_ifs at hs with hw
    simp only [hw, if_true, Option.some.injEq] at hs hadv
    subst hs hadv
    simp only [afterResponse_invocations, ne_eq, not_true_eq_false, and_false, if_false,
      List.nil_append]
    exact ⟨(handleStatus_log _ _ _ _).2, by rw [(handleStatus_log _ _ _ _).1]⟩
  | retryWait w =>
    simp only [hph] at hs hadv
    split_ifs at hs with hw
    simp only [Option.some.injEq] at hs
    subst hs
    have hinv : c1.invocations = c.invocations := by
      simp only [hw, if_true, Option.some.injEq] at hadv
      split_ifs at hadv <;> (subst hadv; rfl)
    simp [hinv, retry, enter]

/-- What a transition does to the record of call `j`, to the clock and to the
dispatches of call `j`, together. -/
theorem step_call_log {cfg : Config} {s s1 : State} {e : Event} {j : Nat} {c : Call}
    (h : Inv cfg s) (hs : step cfg s e = some s1) (hj : s.calls[j]? = some c) :
    ∃ c1, s1.calls[j]? = some c1 ∧ s.now ≤ s1.now ∧
      (((c1 = c ∨ (c.phase = .queued ∧ c1 = c.granted)) ∧
          dispatchesOf j s1.log = dispatchesOf j s.log) ∨
        (c.advance cfg s.lim s.now = some c1 ∧ s1.now = s.now ∧
          dispatchesOf j s1.log =
            (if c1.invocations ≠ c.invocations then [s.now] else []) ++
              dispatchesOf j s.log)) := by
  have hlt := getElem?_lt hj
  cases e with
  | tick dt =>
    simp only [step, Option.some.injEq] at hs
    subst hs
    exact ⟨c, hj, by show s.now ≤ s.now + (dt : Int); omega, Or.inl ⟨Or.inl rfl, rfl⟩⟩
  | call task retries =>
    obtain ⟨s2, hstep, _, hold⟩ := @call_spec cfg s task retries
    rw [hs] at hstep; cases hstep
    simp only [step, Option.some.injEq] at hs
    subst hs
    exact ⟨c, hold j c hj, Int.le_refl _, Or.inl ⟨Or.inl rfl, rfl⟩⟩
  | resume i =>
    simp only [step] at hs
    cases hi : s.calls[i]? with
    | none => simp [resume, hi] at hs
    | some ci =>
      have hstep : step cfg s (.resume i) = some s1 := by simpa [step] using hs
      obtain ⟨c2, hc2, hcase2⟩ := step_call_cases h hstep hi
      have hadv : ∃ ci1, ci.advance cfg s.lim s.now = some ci1 := by
        have := resume_self h hi hs
        rw [hc2] at this
        exact ⟨c2, this.symm⟩
      obtain ⟨ci1, hadv⟩ := hadv
      obtain ⟨hnow, hdisp⟩ := resume_dispatches j hi hs hadv
      by_cases hij : i = j
      · subst hij
        rw [hj] at hi; cases hi
        have hself := resume_self h hj hs
        rw [hadv] at hself
        refine ⟨ci1, hself, by rw [hnow], Or.inr ⟨hadv, hnow, ?_⟩⟩
        rw [hdisp]
        simp
      · have hdisp2 : dispatchesOf j s1.log = dispatchesOf j s.log := by
          rw [hdisp]; simp [hij]
        rcases resume_other h hi hs (Ne.symm hij) hj with h1 | ⟨hq, h1⟩
        · exact ⟨c, h1, by rw [hnow], Or.inl ⟨Or.inl rfl, hdisp2⟩⟩
        · exact ⟨c.granted, h1, by rw [hnow], Or.inl ⟨Or.inr ⟨hq, rfl⟩, hdisp2⟩⟩

theorem bound_mono {d now now1 : Int} {ph : Phase} {t : Int} (hle : now ≤ now1)
    (h : NextDispatchBound d now ph t) : NextDispatchBound d now1 ph t := by
  cases ph <;> simp only [NextDispatchBound] at h ⊢ <;> omega

theorem paced_cons {d t : Int} {ts : List Int} (hb : ∀ x ∈ ts, x + d ≤ t)
    (hp : Paced d ts) : Paced d (t :: ts) := by
  cases ts with
  | nil => rfl
  | cons y ys =>
    unfold Paced at hp ⊢
    simp only [pacedBy, Bool.and_eq_true, decide_eq_true_eq]
    exact ⟨hb y (by simp), hp⟩

theorem afterResponse_phase (c : Call) (now : Int) (r : Response) :
    ((c.afterResponse now r).phase = .retryWait (now + retryDelayMs r) ∧ r.status = 429) ∨
      (c.afterResponse now r).phase = .settled (.resolved r) := by
  unfold Call.afterResponse
  split_ifs with h
  · exact Or.inl ⟨rfl, h.1⟩
  · exact Or.inr rfl

theorem afterTask_phase (cfg : Config) (c : Call) (now : Int) :
    (∃ r, c.task (c.invocations - 1) = .resolves r ∧
        (c.afterTask cfg now).phase = .retryWait (now + retryDelayMs r) ∧ r.status = 429) ∨
      (∃ o, (c.afterTask cfg now).phase = .settled o) ∨
      (∃ r w, (c.afterTask cfg now).phase = .pausing r w) := by
  unfold Call.afterTask
  cases htask : c.task (c.invocations - 1) with
  | rejects e => exact Or.inr (Or.inl ⟨_, rfl⟩)
  | resolves r =>
    have hresp : (∃ r0, TaskResult.resolves r = .resolves r0 ∧
        (c.afterResponse now r).phase = .retryWait (now + retryDelayMs r0) ∧ r0.status = 429) ∨
        (∃ o, (c.afterResponse now r).phase = .settled o) ∨
        (∃ r1 w, (c.afterResponse now r).phase = .pausing r1 w) := by
      rcases afterResponse_phase c now r with ⟨h1, h2⟩ | h1
      · exact Or.inl ⟨r, rfl, h1, h2⟩
      · exact Or.inr (Or.inl ⟨_, h1⟩)
    simp only
    split
    · exact hresp
    · split
      · exact Or.inr (Or.inl ⟨_, rfl⟩)
      · exact hresp
      · split
        · exact Or.inr (Or.inr ⟨_, _, rfl⟩)
        · exact hresp

/-- The spacing of the dispatches of call `j` is preserved by a transition,
provided the response the call is about to act upon, if it is a 429, asks for
a retry wait of at least `d`. -/
theorem spacing_step {cfg : Config} {d : Int} {j : Nat} {s s1 : State} {e : Event} {c : Call}
    (hd : 0 ≤ d) (h : Inv cfg s) (hs : step cfg s e = some s1) (hj : s.calls[j]? = some c)
    (hdelay : ∀ r, c.pendingResponse = some r → r.status = 429 → d ≤ retryDelayMs r)
    (hsp : RetrySpacing d j s) : RetrySpacing d j s1 := by
  obtain ⟨c1, hc1, hnow, hcase⟩ := step_call_log h hs hj
  have hb := hsp.bound c hj
  have hcount := hsp.count c hj
  rcases hcase with ⟨hrec, hdisp⟩ | ⟨hadv, hnow1, hdisp⟩
  · refine ⟨?_, by rw [hdisp]; exact hsp.paced, ?_⟩
    · intro c2 hc2 t ht
      rw [hc1] at hc2; cases hc2
      rw [hdisp] at ht
      rcases hrec with h1 | ⟨hq, h1⟩
      · rw [h1]; exact bound_mono hnow (hb t ht)
      · have := hb t ht
        rw [hq] at this
        rw [h1]
        simp only [NextDispatchBound, granted_phase] at this ⊢
        omega
    · intro c2 hc2
      rw [hc1] at hc2; cases hc2
      rw [hdisp, hcount]
      rcases hrec with h1 | ⟨_, h1⟩ <;> rw [h1]
      rfl
  · unfold Call.advance at hadv
    cases hph : c.phase with
    | queued => simp [hph] at hadv
    | settled o => simp [hph] at hadv
    | admitted =>
      simp only [hph] at hadv hb
      split at hadv
      · cases hadv
        simp only [ne_eq, not_true_eq_false, if_false, List.nil_append] at hdisp
        refine ⟨?_, by rw [hdisp]; exact hsp.paced, ?_⟩
        · intro c2 hc2 t ht
          rw [hc1] at hc2; cases hc2
          rw [hdisp] at ht
          rw [hnow1]
          exact hb t ht
        · intro c2 hc2
          rw [hc1] at hc2; cases hc2
          rw [hdisp, hcount]
      · cases hadv
        simp only [ne_eq, Nat.succ_ne_self, not_false_eq_true, if_true,
          List.singleton_append] at hdisp
        refine ⟨?_, ?_, ?_⟩
        · intro c2 hc2 t ht
          rw [hc1] at hc2; cases hc2
          rw [hdisp, List.mem_cons] at ht
          simp only [NextDispatchBound]
          rcases ht with ht | ht
          · omega
          · have := hb t ht
            simp only [NextDispatchBound] at this
            omega
        · rw [hdisp]
          exact paced_cons (fun x hx => by
            have := hb x hx
            simp only [NextDispatchBound] at this
            exact this) hsp.paced
        · intro c2 hc2
          rw [hc1] at hc2; cases hc2
          rw [hdisp, List.length_cons, hcount]
    | pacing w =>
      simp only [hph] at hadv hb
      split_ifs at hadv
      cases hadv
      simp only [ne_eq, Nat.succ_ne_self, not_false_eq_true, if_true,
        List.singleton_append] at hdisp
      refine ⟨?_, ?_, ?_⟩
      · intro c2 hc2 t ht
        rw [hc1] at hc2; cases hc2
        rw [hdisp, List.mem_cons] at ht
        simp only [NextDispatchBound]
        rcases ht with ht | ht
        · omega
        · have := hb t ht
          simp only [NextDispatchBound] at this
          omega
      · rw [hdisp]
        exact paced_cons (fun x hx => by
          have := hb x hx
          simp only [NextDispatchBound] at this
          exact this) hsp.paced
      · intro c2 hc2
        rw [hc1] at hc2; cases hc2
        rw [hdisp, List.length_cons, hcount]
    | fetching =>
      simp only [hph, Option.some.injEq] at hadv hb
      subst hadv
      simp only [afterTask_invocations, ne_eq, not_true_eq_false, if_false,
        List.nil_append] at hdisp
      refine ⟨?_, by rw [hdisp]; exact hsp.paced, ?_⟩
      · intro c2 hc2 t ht
        rw [hc1] at hc2; cases hc2
        rw [hdisp] at ht
        have hbt := hb t ht
        simp only [NextDispatchBound] at hbt
        rcases afterTask_phase cfg c s.now with ⟨r, hr, hp, h429⟩ | ⟨o, hp⟩ | ⟨r, w, hp⟩
        · rw [hp]
          have := hdelay r (by simp [Call.pendingResponse, hph, hr]) h429
          simp only [NextDispatchBound]
          omega
        · rw [hp, hnow1]; exact hbt
        · rw [hp, hnow1]; exact hbt
      · intro c2 hc2
        rw [hc1] at hc2; cases hc2
        rw [hdisp, hcount, afterTask_invocations]
    | pausing r w =>
      simp only [hph] at hadv hb
      split_ifs at hadv
      cases hadv
      simp only [afterResponse_invocations, ne_eq, not_true_eq_false, if_false,
        List.nil_append] at hdisp
      refine ⟨?_, by rw [hdisp]; exact hsp.paced, ?_⟩
      · intro c2 hc2 t ht
        rw [hc1] at hc2; cases hc2
        rw [hdisp] at ht
        have hbt := hb t ht
        simp only [NextDispatchBound] at hbt
        rcases afterResponse_phase c s.now r with ⟨hp, h429⟩ | hp
        · rw [hp]
          have := hdelay r (by simp [Call.pendingResponse, hph]) h429
          simp only [NextDispatchBound]
          omega
        · rw [hp, hnow1]; exact hbt
      · intro c2 hc2
        rw [hc1] at hc2; cases hc2
        rw [hdisp, hcount, afterResponse_invocations]
    | retryWait w =>
      simp only [hph] at hadv hb
      split at hadv
      · rename_i hw
        have hinv : c1.invocations = c.invocations := by
          split_ifs at hadv <;> (cases hadv; rfl)
        have hphase : c1.phase = .admitted ∨ c1.phase = .queued := by
          split_ifs at hadv
          · cases hadv; exact Or.inl rfl
          · cases hadv; exact Or.inr rfl
        simp only [hinv, ne_eq, not_true_eq_false, if_false, List.nil_append] at hdisp
        refine ⟨?_, by rw [hdisp]; exact hsp.paced, ?_⟩
        · intro c2 hc2 t ht
          rw [hc1] at hc2; cases hc2
          rw [hdisp] at ht
          have hbt := hb t ht
          simp only [NextDispatchBound] at hbt
          rcases hphase with hp | hp <;> rw [hp] <;> simp only [NextDispatchBound] <;> omega
        · intro c2 hc2
          rw [hc1] at hc2; cases hc2
          rw [hdisp, hcount, hinv]
      · cases hadv

theorem dispatchesOf_nil {j : Nat} {log : List Obs}
    (h : ∀ t, Obs.dispatch j t ∉ log) : dispatchesOf j log = [] := by
  induction log with
  | nil => rfl
  | cons x xs ih =>
    have hxs : ∀ t, Obs.dispatch j t ∉ xs := fun t ht => h t (List.mem_cons_of_mem _ ht)
    cases x with
    | dispatch c t =>
      have hc : c ≠ j := by
        intro e; subst e
        exact h t (by simp)
      simp [dispatchesOf, hc, ih hxs]
    | lowRemaining c t => simp [dispatchesOf, ih hxs]

/-- Every dispatch in the log of a reachable state belongs to a call that has
been made. -/
theorem log_known {cfg : Config} {s : State} (h : Reachable cfg s) :
    ∀ (i : Nat) (t : Int), Obs.dispatch i t ∈ s.log → i < s.calls.length := by
  obtain ⟨t0, es, hrun⟩ := h
  have hgen : ∀ (es : List Event) (s0 s1 : State), Inv cfg s0 →
      (∀ (i : Nat) (t : Int), Obs.dispatch i t ∈ s0.log → i < s0.calls.length) →
      run cfg s0 es = some s1 →
      ∀ (i : Nat) (t : Int), Obs.dispatch i t ∈ s1.log → i < s1.calls.length := by
    intro es
    induction es with
    | nil =>
      intro s0 s1 _ h0 hr
      simp only [run, Option.some.injEq] at hr
      subst hr
      exact h0
    | cons e es ih =>
      intro s0 s1 hinv h0 hr
      simp only [run] at hr
      cases hst : step cfg s0 e with
      | none => simp [hst] at hr
      | some s2 =>
        simp only [hst] at hr
        refine ih s2 s1 (inv_step e hinv hst) ?_ hr
        have hgrow : ∀ i, i < s0.calls.length → i < s2.calls.length := by
          intro i hi
          obtain ⟨c1, hc1, _⟩ := step_call_cases hinv hst (List.getElem?_eq_getElem hi)
          exact getElem?_lt hc1
        intro i t hmem
        rcases (step_log hst).2 with hl | ⟨i1, ci, hi1, _, _, hl⟩ | ⟨i1, ci, r, _, _, _, hl⟩
        · rw [hl] at hmem
          exact hgrow i (h0 i t hmem)
        · rw [hl, List.mem_cons] at hmem
          rcases hmem with hmem | hmem
          · cases hmem
            exact hgrow i (getElem?_lt hi1)
          · exact hgrow i (h0 i t hmem)
        · rw [hl, List.mem_cons] at hmem
          rcases hmem with hmem | hmem
          · cases hmem
          · exact hgrow i (h0 i t hmem)
  exact hgen es (init fresh t0) s (inv_init cfg t0) (by intro i t hm; simp [init] at hm) hrun

theorem retryOnce_afterResponse429 {task : Task} {r429 rOk : Response} {budget : Nat}
    {c : Call} (now : Int) (hs429 : r429.status = 429) (hbudget : 0 < budget)
    (htask : c.task = task) (hinv : c.invocations = 1) (hret : c.retries = budget) :
    RetryOnceInv task r429 rOk budget (c.afterResponse now r429) := by
  unfold Call.afterResponse
  have hr : 0 < c.retries := by omega
  simp only [hs429, hr, gt_iff_lt, and_self, if_true]
  exact ⟨htask, hinv, hret⟩

theorem retryOnce_afterResponseOk {task : Task} {r429 rOk : Response} {budget : Nat}
    {c : Call} (now : Int) (hok : rOk.status ≠ 429)
    (htask : c.task = task) (hinv : c.invocations = 2) :
    RetryOnceInv task r429 rOk budget (c.afterResponse now rOk) := by
  unfold Call.afterResponse
  simp only [hok, false_and, if_false]
  exact ⟨htask, hinv, rfl⟩

theorem retryOnce_afterTask {cfg : Config} {r : Response} {c : Call}
    (Q : Call → Prop) (now : Int) (hres : c.task (c.invocations - 1) = .resolves r)
    (hquiet : HookQuiet cfg r) (hfin : Q (c.afterResponse now r))
    (hpause : ∀ w, Q { c with phase := .pausing r w }) : Q (c.afterTask cfg now) := by
  unfold Call.afterTask
  simp only [hres]
  cases hhook : cfg.parseRateLimit with
  | none => exact hfin
  | some hook =>
    simp only
    cases hinfo : hook r with
    | throws e => exact absurd hinfo (hquiet hook hhook e)
    | info rem =>
      cases rem with
      | none => exact hfin
      | some rem =>
        simp only
        split
        · exact hpause _
        · exact hfin

theorem retryOnce_advance {cfg : Config} {task : Task} {r429 rOk : Response} {budget : Nat}
    (h0 : task 0 = .resolves r429) (h1 : task 1 = .resolves rOk)
    (hs429 : r429.status = 429) (hok : rOk.status ≠ 429) (hbudget : 0 < budget)
    (hq1 : HookQuiet cfg r429) (hq2 : HookQuiet cfg rOk)
    (l : Limiter) (now : Int) (c c1 : Call)
    (hadv : c.advance cfg l now = some c1) (h : RetryOnceInv task r429 rOk budget c) :
    RetryOnceInv task r429 rOk budget c1 := by
  obtain ⟨ht, hph⟩ := h
  unfold Call.advance at hadv
  cases hp : c.phase with
  | queued => simp [hp] at hadv
  | settled o => simp [hp] at hadv
  | admitted =>
    simp only [hp] at hadv hph
    split at hadv
    · cases hadv; exact ⟨ht, hph⟩
    · cases hadv
      refine ⟨ht, ?_⟩
      show (c.invocations + 1 = 1 ∧ c.retries = budget) ∨ c.invocations + 1 = 2
      omega
  | pacing w =>
    simp only [hp] at hadv hph
    split_ifs at hadv
    cases hadv
    refine ⟨ht, ?_⟩
    show (c.invocations + 1 = 1 ∧ c.retries = budget) ∨ c.invocations + 1 = 2
    omega
  | fetching =>
    simp only [hp] at hadv hph
    cases hadv
    rcases hph with ⟨hi, hr⟩ | hi
    · have hres : c.task (c.invocations - 1) = .resolves r429 := by rw [ht, hi]; exact h0
      exact retryOnce_afterTask (RetryOnceInv task r429 rOk budget) now hres hq1
        (retryOnce_afterResponse429 now hs429 hbudget ht hi hr)
        (fun w => ⟨ht, Or.inl ⟨hi, hr, rfl⟩⟩)
    · have hres : c.task (c.invocations - 1) = .resolves rOk := by rw [ht, hi]; exact h1
      exact retryOnce_afterTask (RetryOnceInv task r429 rOk budget) now hres hq2
        (retryOnce_afterResponseOk now hok ht hi)
        (fun w => ⟨ht, Or.inr ⟨hi, rfl⟩⟩)
  | pausing r w =>
    simp only [hp] at hadv hph
    split_ifs at hadv
    cases hadv
    rcases hph with ⟨hi, hr, hrr⟩ | ⟨hi, hrr⟩
    · rw [hrr]; exact retryOnce_afterResponse429 now hs429 hbudget ht hi hr
    · rw [hrr]; exact retryOnce_afterResponseOk now hok ht hi
  | retryWait w =>
    simp only [hp] at hadv hph
    split at hadv
    · split at hadv
      · cases hadv
        refine ⟨ht, ?_⟩
        show (c.invocations = 0 ∧ c.retries - 1 = budget) ∨
          (c.invocations = 1 ∧ c.retries - 1 + 1 = budget)
        omega
      · cases hadv
        refine ⟨ht, ?_⟩
        show (c.invocations = 0 ∧ c.retries - 1 = budget) ∨
          (c.invocations = 1 ∧ c.retries - 1 + 1 = budget)
        omega
    · cases hadv

theorem retryOnce_bound {task : Task} {r429 rOk : Response} {budget : Nat} {c : Call}
    (h : RetryOnceInv task r429 rOk budget c) :
    c.invocations ≤ 2 ∧
      ∀ o, c.phase = .settled o → c.invocations = 2 ∧ o = .resolved rOk := by
  obtain ⟨_, hph⟩ := h
  constructor
  · cases hp : c.phase <;> simp only [hp] at hph <;> omega
  · intro o ho
    simp only [ho] at hph
    exact hph

theorem retryOnce_delay {task : Task} {r429 rOk : Response} {budget : Nat} {c : Call} {d : Int}
    (h0 : task 0 = .resolves r429) (h1 : task 1 = .resolves rOk) (hok : rOk.status ≠ 429)
    (hd : d ≤ retryDelayMs r429) (h : RetryOnceInv task r429 rOk budget c) :
    ∀ r, c.pendingResponse = some r → r.status = 429 → d ≤ retryDelayMs r := by
  obtain ⟨ht, hph⟩ := h
  intro r hr h429
  unfold Call.pendingResponse at hr
  cases hp : c.phase with
  | fetching =>
    simp only [hp] at hr hph
    rcases hph with ⟨hi, _⟩ | hi
    · rw [ht, hi] at hr
      simp only [Nat.sub_self, h0, Option.some.injEq] at hr
      rw [← hr]; exact hd
    · rw [ht, hi] at hr
      simp only [show 2 - 1 = 1 from rfl, h1, Option.some.injEq] at hr
      rw [← hr] at h429
      exact absurd h429 hok
  | pausing r1 w =>
    simp only [hp, Option.some.injEq] at hr hph
    subst hr
    rcases hph with ⟨_, _, hrr⟩ | ⟨_, hrr⟩
    · rw [hrr]; exact hd
    · rw [hrr] at h429; exact absurd h429 hok
  | queued => simp [hp] at hr
  | admitted => simp [hp] at hr
  | pacing w => simp [hp] at hr
  | retryWait w => simp [hp] at hr
  | settled o => simp [hp] at hr

/-- Along every run, the bookkeeping of the retried call and the spacing of
its dispatches are kept together. -/
theorem retryOnce_run {cfg : Config} {task : Task} {r429 rOk : Response} {budget : Nat}
    {d : Int} {j : Nat}
    (h0 : task 0 = .resolves r429) (h1 : task 1 = .resolves rOk)
    (hs429 : r429.status = 429) (hok : rOk.status ≠ 429) (hbudget : 0 < budget)
    (hq1 : HookQuiet cfg r429) (hq2 : HookQuiet cfg rOk)
    (hd0 : 0 ≤ d) (hd : d ≤ retryDelayMs r429) (es : List Event) :
    ∀ (s s2 : State) (c : Call), Inv cfg s → s.calls[j]? = some c →
      RetryOnceInv task r429 rOk budget c → RetrySpacing d j s →
      run cfg s es = some s2 →
      ∃ c2, s2.calls[j]? = some c2 ∧ RetryOnceInv task r429 rOk budget c2 ∧
        RetrySpacing d j s2 := by
  induction es with
  | nil =>
    intro s s2 c _ hj hQ hsp hrun
    simp only [run, Option.some.injEq] at hrun
    subst hrun
    exact ⟨c, hj, hQ, hsp⟩
  | cons e es ih =>
    intro s s2 c hinv hj hQ hsp hrun
    simp only [run] at hrun
    cases hst : step cfg s e with
    | none => simp [hst] at hrun
    | some s1 =>
      simp only [hst] at hrun
      obtain ⟨c1, hc1, hcase⟩ := step_call_cases hinv hst hj
      have hQ1 : RetryOnceInv task r429 rOk budget c1 := by
        rcases hcase with h2 | ⟨hq, h2⟩ | h2
        · exact h2 ▸ hQ
        · rw [h2]
          exact ⟨hQ.1, by have := hQ.2; simp only [hq] at this; exact this⟩
        · exact retryOnce_advance h0 h1 hs429 hok hbudget hq1 hq2 _ _ _ _ h2 hQ
      have hsp1 := spacing_step hd0 hinv hst hj (retryOnce_delay h0 h1 hok hd hQ) hsp
      exact ih s1 s2 c1 (inv_step e hinv hst) hc1 hQ1 hsp1 hrun

theorem retryDelay_one {r : Response} (h : r.retryAfter = some "1") : retryDelayMs r = 1000 := by
  have h1 : retryAfterSeconds r = .finite 1 := by
    unfold retryAfterSeconds
    rw [h]
    decide
  rw [retryDelayMs, h1]
  decide

theorem reachable_idle_init (cfg : Config) (t0 : Int) : Reachable cfg (init fresh t0) :=
  ⟨t0, [], rfl⟩

set_option maxRecDepth 100000 in
/-- C11 refuted as stated: on a limiter with `maxRetries = 3` whose
`parseRateLimit` hook throws, the task that answers 429 with `Retry-After: 1`
and would then succeed is invoked once and `execute` rejects with the error of
the hook. -/
theorem c11_counterexample :
    cfgRetries3ThrowingHook.maxRetries = 3 ∧
    retryAfterOneTask 0 = .resolves retryAfterOne ∧
    retryAfterOneTask 1 = .resolves (plainResponse 200) ∧
    observe (runD cfgRetries3ThrowingHook (init fresh 0)
      [.call retryAfterOneTask none, .resume 0, .resume 0]) 0 =
        some (1, .settled (.rejected 7)) ∧
    observe (executeAlone cfgRetries3ThrowingHook (init fresh 0) retryAfterOneTask none) 0 =
        some (1, .settled (.rejected 7)) :=
  ⟨rfl, rfl, rfl, by decide, by decide⟩

/-- C11 as amended. On a limiter whose `parseRateLimit` hook, if any, does not
throw on the two responses, with at least one retry available (`maxRetries = 3`
by default), a task that answers its first invocation with a 429 carrying
`Retry-After: 1` and its second with a response that is not a 429: in every
interleaving the call invokes the task at most twice, can settle only by
resolving with the second response after exactly two invocations, and its
dispatches are at least 1000 ms apart; awaited alone on an idle limiter with
`maxConcurrent ≥ 1` it does settle that way, with exactly two dispatches, the
second at least 1000 ms after the first. -/
theorem c11_retry_after_one (cfg : Config) (task : Task) (r429 rOk : Response)
    (retries : Option Nat) (h0 : task 0 = .resolves r429) (h1 : task 1 = .resolves rOk)
    (hs429 : r429.status = 429) (hra : r429.retryAfter = some "1") (hok : rOk.status ≠ 429)
    (hbudget : 0 < retries.getD cfg.maxRetries)
    (hq1 : HookQuiet cfg r429) (hq2 : HookQuiet cfg rOk) :
    (∀ (s s1 : State) (es : List Event) (c : Call), Reachable cfg s →
      run cfg s (.call task retries :: es) = some s1 → s1.calls[s.calls.length]? = some c →
      c.invocations ≤ 2 ∧
      (∀ o, c.phase = .settled o → c.invocations = 2 ∧ o = .resolved rOk) ∧
      (dispatchesOf s.calls.length s1.log).length = c.invocations ∧
      Paced 1000 (dispatchesOf s.calls.length s1.log)) ∧
    (1 ≤ cfg.maxConcurrent → ∀ s : State, Reachable cfg s → Idle s →
      observe (executeAlone cfg s task retries) s.calls.length =
        some (2, .settled (.resolved rOk)) ∧
      ∃ t1 t2, dispatchesOf s.calls.length (executeAlone cfg s task retries).log = [t2, t1] ∧
        t1 + 1000 ≤ t2) := by
  have hsafe : ∀ (s s1 : State) (es : List Event) (c : Call), Reachable cfg s →
      run cfg s (.call task retries :: es) = some s1 → s1.calls[s.calls.length]? = some c →
      c.invocations ≤ 2 ∧
      (∀ o, c.phase = .settled o → c.invocations = 2 ∧ o = .resolved rOk) ∧
      (dispatchesOf s.calls.length s1.log).length = c.invocations ∧
      Paced 1000 (dispatchesOf s.calls.length s1.log) := by
    intro s s1 es c hreach hrun hc
    obtain ⟨s2, hstep, hnew, _⟩ := @call_spec cfg s task retries
    simp only [run, hstep] at hrun
    have hlog : s2.log = s.log := by
      simp only [step, Option.some.injEq] at hstep
      subst hstep
      rfl
    have hnil : dispatchesOf s.calls.length s2.log = [] := by
      rw [hlog]
      apply dispatchesOf_nil
      intro t ht
      exact absurd (log_known hreach _ t ht) (Nat.lt_irrefl _)
    have hQ : RetryOnceInv task r429 rOk (retries.getD cfg.maxRetries)
        (if s.lim.activeRequests < cfg.maxConcurrent then (newCall cfg task retries).granted
          else newCall cfg task retries) := by
      split_ifs
      · exact ⟨rfl, Or.inl ⟨rfl, rfl⟩⟩
      · exact ⟨rfl, Or.inl ⟨rfl, rfl⟩⟩
    have hsp : RetrySpacing 1000 s.calls.length s2 := by
      refine ⟨?_, by rw [hnil]; rfl, ?_⟩
      · intro c0 _ t ht
        rw [hnil] at ht
        cases ht
      · intro c0 hc0
        rw [hnew] at hc0
        rw [hnil]
        split_ifs at hc0 <;> (cases hc0; rfl)
    obtain ⟨c2, hc2, hQ2, hsp2⟩ := retryOnce_run h0 h1 hs429 hok hbudget hq1 hq2
      (by omega) (by rw [retryDelay_one hra]) es s2 s1 _
      (inv_step _ (inv_reachable hreach) hstep) hnew hQ hsp hrun
    rw [hc] at hc2; cases hc2
    exact ⟨(retryOnce_bound hQ2).1, (retryOnce_bound hQ2).2, hsp2.count c hc, hsp2.paced⟩
  refine ⟨hsafe, ?_⟩
  intro hK s hreach hidle
  obtain ⟨s1, es, c, hstep, _, _, hrun, hc, hset, _⟩ := executeAlone_spec hK hidle task retries
  have hrun2 : run cfg s (.call task retries :: es) = some (executeAlone cfg s task retries) := by
    simp only [run, hstep]
    exact hrun
  obtain ⟨_, hfin, hlen, hpaced⟩ := hsafe s _ es c hreach hrun2 hc
  obtain ⟨o, ho⟩ := settled_phase hset
  obtain ⟨hi2, ho2⟩ := hfin o ho
  constructor
  · simp only [observe, hc, Option.map_some', ho, hi2, ho2]
  · rw [hi2] at hlen
    cases hl : dispatchesOf s.calls.length (executeAlone cfg s task retries).log with
    | nil => rw [hl] at hlen; simp at hlen
    | cons t2 rest =>
      cases rest with
      | nil => rw [hl] at hlen; simp at hlen
      | cons t1 rest2 =>
        cases rest2 with
        | cons t0 rest3 => rw [hl] at hlen; simp at hlen
        | nil =>
          refine ⟨t1, t2, rfl, ?_⟩
          rw [hl] at hpaced
          unfold Paced at hpaced
          simp only [pacedBy, Bool.and_true, decide_eq_true_eq] at hpaced
          exact hpaced

set_option maxRecDepth 100000 in
/-- C11 as amended, at the scenario itself: `createRateLimiter({ maxRetries:
3 })`, the task answers 429 with `Retry-After: 1` and then 200; `execute`
resolves with the 200 after two invocations, dispatched at 0 and at 1000. -/
theorem c11_witness :
    cfgRetries3.maxRetries = 3 ∧
    retryAfterOneTask 0 = .resolves retryAfterOne ∧
    retryAfterOneTask 1 = .resolves (plainResponse 200) ∧
    dispatchesOf 0 (executeAlone cfgRetries3 (init fresh 0) retryAfterOneTask none).log =
      [1000, 0] ∧
    (observe (executeAlone cfgRetries3 (init fresh 0) retryAfterOneTask none) 0 =
        some (2, .settled (.resolved (plainResponse 200))) ∧
      ∃ t1 t2,
        dispatchesOf 0 (executeAlone cfgRetries3 (init fresh 0) retryAfterOneTask none).log =
          [t2, t1] ∧ t1 + 1000 ≤ t2) :=
  ⟨rfl, rfl, rfl, by decide,
    (c11_retry_after_one cfgRetries3 retryAfterOneTask retryAfterOne (plainResponse 200) none
      rfl rfl rfl rfl (by decide) (by decide)
      (fun hook hh => by simp [cfgRetries3, createRateLimiter] at hh)
      (fun hook hh => by simp [cfgRetries3, createRateLimiter] at hh)).2
      (by decide) (init fresh 0) (reachable_idle_init cfgRetries3 0) (idle_init 0)⟩

/-! ## Slot operations of a transition -/

theorem releaseSlot_nil {l : Limiter} (h : l.requestQueue = []) :
    releaseSlot l = ({ l with activeRequests := l.activeRequests - 1 }, none) := by
  unfold releaseSlot
  simp [h]

theorem releaseSlot_cons {l : Limiter} {w : Nat} {rest : List Nat}
    (h : l.requestQueue = w :: rest) :
    releaseSlot l = ({ l with requestQueue := rest }, some w) := by
  unfold releaseSlot
  simp [h]

theorem releaseEffect_releaseBy {cfg : Config} {s s0 : State} {i : Nat} {c : Call} (ph : Phase)
    (h : Inv cfg s) (hi : s.calls[i]? = some c) (hc : c.phase.holdsSlot = true)
    (hph : ph.holdsSlot = false) (hcalls : s.calls = s0.calls)
    (hact : s.lim.activeRequests = s0.lim.activeRequests)
    (hq : s.lim.requestQueue = s0.lim.requestQueue) :
    ReleaseEffect s0 (releaseBy s i c ph) i := by
  have hself := releaseBy_self c ph h hi hc
  have hiq : ∀ j ∈ s.lim.requestQueue, i ≠ j := by
    intro j hj e
    subst e
    obtain ⟨cj, hcj, hjq⟩ := h.queued i hj
    rw [hi] at hcj; cases hcj
    rw [hjq] at hc; simp at hc
  cases hqueue : s.lim.requestQueue with
  | nil =>
    have h0 : s0.lim.requestQueue = [] := by rw [← hq, hqueue]
    refine ⟨?_, ?_, ⟨c, _, hcalls ▸ hi, hc, hself, hph, rfl⟩, ?_, ?_⟩
    · simp [releaseBy, releaseSlot_nil hqueue, releaseSlot_nil h0, hact]
    · simp [releaseBy, releaseSlot_nil hqueue, releaseSlot_nil h0, hq]
    · intro w hw
      simp [releaseSlot_nil h0] at hw
    · intro j cj hji _ hj
      simp only [releaseBy, releaseSlot_nil hqueue, wake]
      rw [List.getElem?_set, if_neg (Ne.symm hji), hcalls]
      exact hj
  | cons w rest =>
    have h0 : s0.lim.requestQueue = w :: rest := by rw [← hq, hqueue]
    have hw : w ∈ s.lim.requestQueue := by rw [hqueue]; simp
    obtain ⟨cw, hcw, hwq⟩ := h.queued w hw
    have hiw : i ≠ w := hiq w hw
    have hcw1 : (s.calls.set i { c with phase := ph, releases := c.releases + 1 })[w]? =
        some cw := by
      rw [List.getElem?_set]; simp [hiw, hcw]
    refine ⟨?_, ?_, ⟨c, _, hcalls ▸ hi, hc, hself, hph, rfl⟩, ?_, ?_⟩
    · simp [releaseBy, releaseSlot_cons hqueue, releaseSlot_cons h0, hact]
    · simp [releaseBy, releaseSlot_cons hqueue, releaseSlot_cons h0]
    · intro w1 hw1
      simp only [releaseSlot_cons h0, Option.some.injEq] at hw1
      subst hw1
      refine ⟨cw, hcalls ▸ hcw, hwq, ?_⟩
      simp only [releaseBy, releaseSlot_cons hqueue, wake, hcw1]
      rw [List.getElem?_set]
      simp [getElem?_lt hcw]
    · intro j cj hji hjw hj
      simp only [releaseSlot_cons h0, ne_eq, Option.some.injEq] at hjw
      simp only [releaseBy, releaseSlot_cons hqueue, wake, hcw1]
      rw [List.getElem?_set, if_neg hjw, List.getElem?_set,
        if_neg (Ne.symm hji), hcalls]
      exact hj

theorem releaseEffect_handleStatus {cfg : Config} {s s0 : State} {i : Nat} {c : Call}
    (r : Response) (h : Inv cfg s) (hi : s.calls[i]? = some c) (hc : c.phase.holdsSlot = true)
    (hcalls : s.calls = s0.calls) (hact : s.lim.activeRequests = s0.lim.activeRequests)
    (hq : s.lim.requestQueue = s0.lim.requestQueue) :
    ReleaseEffect s0 (handleStatus s i c r) i := by
  unfold handleStatus
  split_ifs
  · exact releaseEffect_releaseBy _ h hi hc rfl hcalls hact hq
  · exact releaseEffect_releaseBy _ h hi hc rfl hcalls hact hq

theorem enterEffect_enter {cfg : Config} {s : State} {k : Nat} {c0 : Call} (c : Call)
    (hk : s.calls[k]? = some c0) (hfresh : k ∉ s.lim.requestQueue) :
    EnterEffect cfg s (enter cfg s k c) k := by
  have hlt := getElem?_lt hk
  refine ⟨rfl, hfresh, ?_, ?_⟩
  · simp only [enter]
    by_cases hf : (waitForSlot cfg s.lim k).2 = true
    · exact ⟨c.granted, by simp [hf, List.getElem?_set, hlt], by simp [hf, Call.granted]⟩
    · exact ⟨{ c with phase := .queued }, by simp [hf, List.getElem?_set, hlt], by simp [hf]⟩
  · intro j cj hjk hj
    simp only [enter]
    rw [List.getElem?_set, if_neg (Ne.symm hjk)]
    exact hj

/-- Every transition performs at most one slot operation. -/
theorem step_slot {cfg : Config} {s s1 : State} {e : Event} (h : Inv cfg s)
    (hs : step cfg s e = some s1) : SlotEffect cfg s s1 e := by
  have hset : ∀ (i : Nat) (c1 : Call) (j : Nat) (cj : Call), Event.resume i ≠ .resume j →
      s.calls[j]? = some cj → (s.calls.set i c1)[j]? = some cj := by
    intro i c1 j cj hne hj
    have hij : i ≠ j := fun e => hne (by rw [e])
    rw [List.getElem?_set, if_neg hij]
    exact hj
  cases e with
  | tick dt =>
    simp only [step, Option.some.injEq] at hs
    subst hs
    refine Or.inl ⟨rfl, rfl, fun _ _ _ hj => hj, ?_⟩
    intro j cj c1 hj hj1
    rw [show ({ s with now := s.now + dt } : State).calls[j]? = s.calls[j]? from rfl, hj] at hj1
    cases hj1
    rfl
  | call task retries =>
    simp only [step, Option.some.injEq] at hs
    subst hs
    right; left
    refine ⟨s.calls.length, Or.inr ⟨rfl, task, retries, rfl⟩, ?_⟩
    have hnew : (s.calls ++ [newCall cfg task retries])[s.calls.length]? =
        some (newCall cfg task retries) := by simp
    have hfresh : s.calls.length ∉ s.lim.requestQueue := by
      intro hmem
      obtain ⟨cj, hcj, _⟩ := h.queued _ hmem
      simp at hcj
    have he := @enterEffect_enter cfg { s with calls := s.calls ++ [newCall cfg task retries] }
      s.calls.length _ (newCall cfg task retries) hnew hfresh
    refine ⟨he.lim, hfresh, he.caller, ?_⟩
    intro j cj hjk hj
    refine he.others j cj hjk ?_
    show (s.calls ++ [newCall cfg task retries])[j]? = some cj
    rw [List.getElem?_append_left (getElem?_lt hj)]
    exact hj
  | resume i =>
    simp only [step, resume] at hs
    cases hi : s.calls[i]? with
    | none => simp [hi] at hs
    | some c =>
      simp only [hi] at hs
      have hkeep : ∀ c2 : Call, c2.phase.holdsSlot = c.phase.holdsSlot →
          ∀ (j : Nat) (cj c1 : Call), s.calls[j]? = some cj →
            (s.calls.set i c2)[j]? = some c1 → c1.phase.holdsSlot = cj.phase.holdsSlot := by
        intro c2 hc2 j cj c1 hj hj1
        rw [List.getElem?_set] at hj1
        by_cases hij : i = j
        · subst hij
          rw [hi] at hj; cases hj
          simp only [if_true, getElem?_lt hi] at hj1
          cases hj1
          exact hc2
        · rw [if_neg hij, hj] at hj1
          cases hj1
          rfl
      cases hph : c.phase with
      | queued => simp [hph] at hs
      | settled o => simp [hph] at hs
      | admitted =>
        simp only [hph, Option.some.injEq] at hs
        subst hs
        left
        unfold afterSlot
        split
        · exact ⟨rfl, rfl, fun j cj hne hj => hset i _ j cj hne hj,
            hkeep _ (by rw [hph]; rfl)⟩
        · exact ⟨rfl, rfl, fun j cj hne hj => hset i _ j cj hne hj,
            hkeep _ (by rw [hph]; rfl)⟩
      | pacing w =>
        simp only [hph] at hs
        split_ifs at hs
        simp only [Option.some.injEq] at hs
        subst hs
        exact Or.inl ⟨rfl, rfl, fun j cj hne hj => hset i _ j cj hne hj,
          hkeep _ (by rw [hph]; rfl)⟩
      | fetching =>
        simp only [hph, Option.some.injEq] at hs
        subst hs
        have hc : c.phase.holdsSlot = true := by rw [hph]; rfl
        unfold afterFetch
        simp only
        split
        · exact Or.inr (Or.inr ⟨i, rfl, releaseEffect_releaseBy _ h hi hc rfl rfl rfl rfl⟩)
        · split
          · exact Or.inr (Or.inr ⟨i, rfl, releaseEffect_handleStatus _ h hi hc rfl rfl rfl⟩)
          · split
            · exact Or.inr (Or.inr ⟨i, rfl, releaseEffect_releaseBy _ h hi hc rfl rfl rfl rfl⟩)
            · exact Or.inr (Or.inr ⟨i, rfl, releaseEffect_handleStatus _ h hi hc rfl rfl rfl⟩)
            · have h1 : Inv cfg { s with lim := { s.lim with rateLimitRemaining := some ‹Int› } } :=
                ⟨h.active_eq, h.active_le, h.nodup, h.queued⟩
              split_ifs
              · exact Or.inl ⟨rfl, rfl, fun j cj hne hj => hset i _ j cj hne hj,
                  hkeep _ (by rw [hph]; rfl)⟩
              · exact Or.inr (Or.inr ⟨i, rfl,
                  releaseEffect_handleStatus _ h1 hi hc rfl rfl rfl⟩)
      | pausing r w =>
        simp only [hph] at hs
        split_ifs at hs
        simp only [Option.some.injEq] at hs
        subst hs
        exact Or.inr (Or.inr ⟨i, rfl,
          releaseEffect_handleStatus _ h hi (by rw [hph]; rfl) rfl rfl rfl⟩)
      | retryWait w =>
        simp only [hph] at hs
        split_ifs at hs
        simp only [Option.some.injEq] at hs
        subst hs
        right; left
        refine ⟨i, Or.inl ⟨c, w, rfl, hi, hph⟩, enterEffect_enter _ hi ?_⟩
        intro hmem
        obtain ⟨cj, hcj, hq⟩ := h.queued _ hmem
        rw [hi] at hcj; cases hcj
        rw [hph] at hq; cases hq

theorem holders_nonneg (cs : List Call) : (0 : Int) ≤ (holders cs : Int) :=
  Int.ofNat_nonneg _

theorem noFreeSlot_step {cfg : Config} {s s1 : State} {e : Event} (h : Inv cfg s)
    (hn : NoFreeSlot cfg s) (hs : step cfg s e = some s1) : NoFreeSlot cfg s1 := by
  have h1 := inv_step e h hs
  have hpos : 0 ≤ s.lim.activeRequests := by rw [h.active_eq]; exact holders_nonneg _
  have hle := h.active_le
  intro hq1
  rcases step_slot h hs with ⟨ha, hq, _, _⟩ | ⟨k, _, he⟩ | ⟨i, _, hr⟩
  · rw [ha]
    exact hn (by rw [← hq]; exact hq1)
  · rw [he.lim] at hq1 ⊢
    unfold waitForSlot at hq1 ⊢
    by_cases hfree : s.lim.activeRequests < cfg.maxConcurrent
    · simp only [hfree, if_true] at hq1 ⊢
      have := hn hq1
      omega
    · simp only [hfree, if_false]
      show s.lim.activeRequests = max cfg.maxConcurrent 0
      omega
  · rw [hr.active]
    rw [hr.queue] at hq1
    cases hqueue : s.lim.requestQueue with
    | nil =>
      rw [releaseSlot_nil hqueue] at hq1
      exact absurd hqueue hq1
    | cons w rest =>
      rw [releaseSlot_cons hqueue]
      exact hn (by rw [hqueue]; simp)

theorem noFreeSlot_run {cfg : Config} (es : List Event) {s s1 : State} (h : Inv cfg s)
    (hn : NoFreeSlot cfg s) (hs : run cfg s es = some s1) : NoFreeSlot cfg s1 := by
  induction es generalizing s with
  | nil =>
    simp only [run, Option.some.injEq] at hs
    exact hs ▸ hn
  | cons e es ih =>
    simp only [run] at hs
    cases hst : step cfg s e with
    | none => simp [hst] at hs
    | some s2 =>
      simp only [hst] at hs
      exact ih (inv_step e h hst) (noFreeSlot_step h hn hst) hs

theorem noFreeSlot_reachable {cfg : Config} {s : State} (h : Reachable cfg s) :
    NoFreeSlot cfg s := by
  obtain ⟨t0, es, hrun⟩ := h
  refine noFreeSlot_run es (inv_init cfg t0) ?_ hrun
  intro hq
  exact absurd rfl hq

/-! ## The release step -/

/-- C21. `releaseSlot` on an empty queue lowers `activeRequests` by exactly 1
and wakes nobody; on a queue `w :: rest` it removes exactly the head `w`, wakes
`w`, keeps `rest` in its order and leaves `activeRequests` at its value before
the call. In every reachable state, when a slot owner `i` runs it: with an
empty queue the counter goes down by 1 and no other call is touched; with queue
`w :: rest` the counter is unchanged, the queue becomes `rest`, the queued call
`w` has its promise resolved and owns the slot, and no call other than `i` and
`w` is touched. -/
theorem c21_releaseSlot_release_step (cfg : Config) (s : State) (i : Nat) (c : Call)
    (ph : Phase) (hreach : Reachable cfg s) (hi : s.calls[i]? = some c)
    (hc : c.phase.holdsSlot = true) :
    (∀ l : Limiter, l.requestQueue = [] →
      releaseSlot l = ({ l with activeRequests := l.activeRequests - 1 }, none)) ∧
    (∀ (l : Limiter) (w : Nat) (rest : List Nat), l.requestQueue = w :: rest →
      releaseSlot l = ({ l with requestQueue := rest }, some w) ∧
      (releaseSlot l).1.activeRequests = l.activeRequests) ∧
    (s.lim.requestQueue = [] →
      (releaseBy s i c ph).lim.activeRequests = s.lim.activeRequests - 1 ∧
      (releaseBy s i c ph).lim.requestQueue = [] ∧
      ∀ (j : Nat) (cj : Call), j ≠ i → s.calls[j]? = some cj →
        (releaseBy s i c ph).calls[j]? = some cj) ∧
    (∀ (w : Nat) (rest : List Nat), s.lim.requestQueue = w :: rest →
      (releaseBy s i c ph).lim.activeRequests = s.lim.activeRequests ∧
      (releaseBy s i c ph).lim.requestQueue = rest ∧
      (∃ cw, s.calls[w]? = some cw ∧ cw.phase = .queued ∧
        (releaseBy s i c ph).calls[w]? = some cw.granted ∧
        cw.granted.phase.holdsSlot = true) ∧
      ∀ (j : Nat) (cj : Call), j ≠ i → j ≠ w → s.calls[j]? = some cj →
        (releaseBy s i c ph).calls[j]? = some cj) := by
  have hinv := inv_reachable hreach
  refine ⟨fun l h => releaseSlot_nil h, ?_, ?_, ?_⟩
  · intro l w rest h
    refine ⟨releaseSlot_cons h, ?_⟩
    rw [releaseSlot_cons h]
  · intro hq
    refine ⟨?_, ?_, ?_⟩
    · simp [releaseBy, releaseSlot_nil hq]
    · simp [releaseBy, releaseSlot_nil hq, hq]
    · intro j cj hji hj
      simp only [releaseBy, releaseSlot_nil hq, wake]
      rw [List.getElem?_set, if_neg (Ne.symm hji)]
      exact hj
  · intro w rest hq
    have hw : w ∈ s.lim.requestQueue := by rw [hq]; simp
    obtain ⟨cw, hcw, hwq⟩ := hinv.queued w hw
    have hiw : i ≠ w := by
      intro e; subst e
      rw [hi] at hcw; cases hcw
      rw [hwq] at hc; simp at hc
    have hcw1 : (s.calls.set i { c with phase := ph, releases := c.releases + 1 })[w]? =
        some cw := by
      rw [List.getElem?_set]; simp [hiw, hcw]
    refine ⟨?_, ?_, ⟨cw, hcw, hwq, ?_, rfl⟩, ?_⟩
    · simp [releaseBy, releaseSlot_cons hq]
    · simp [releaseBy, releaseSlot_cons hq]
    · simp only [releaseBy, releaseSlot_cons hq, wake, hcw1]
      rw [List.getElem?_set]
      simp [getElem?_lt hcw]
    · intro j cj hji hjw hj
      simp only [releaseBy, releaseSlot_cons hq, wake, hcw1]
      rw [List.getElem?_set, if_neg (Ne.symm hjw), List.getElem?_set, if_neg (Ne.symm hji)]
      exact hj

/-- C21 at a concrete state: call 0 holds the only slot and call 1 is queued;
when call 0 releases, the counter stays at 1, the queue becomes empty and call
1 is admitted. -/
theorem c21_witness :
    Reachable cfgOne fifoS0 ∧ fifoS0.calls[0]? = some (callAt fifoS0 0) ∧
    (callAt fifoS0 0).phase.holdsSlot = true ∧ fifoS0.lim.requestQueue = [1] ∧
    fifoS0.lim.activeRequests = 1 ∧
    (releaseBy fifoS0 0 (callAt fifoS0 0) (.settled (.rejected 0))).lim.activeRequests =
      fifoS0.lim.activeRequests ∧
    (releaseBy fifoS0 0 (callAt fifoS0 0) (.settled (.rejected 0))).lim.requestQueue = [] ∧
    phaseOf (releaseBy fifoS0 0 (callAt fifoS0 0) (.settled (.rejected 0))) 1 =
      some .admitted :=
  ⟨⟨0, fifoBefore, run_eq_runD (by decide)⟩, rfl, by decide, by decide, by decide,
    ((c21_releaseSlot_release_step cfgOne fifoS0 0 (callAt fifoS0 0) (.settled (.rejected 0))
      ⟨0, fifoBefore, run_eq_runD (by decide)⟩ rfl (by decide)).2.2.2 1 [] (by decide)).1,
    by decide, by decide⟩

/-! ## No barging -/

/-- C25. On a limiter with `maxConcurrent >= 1`, in every reachable state with
a non-empty `requestQueue` the counter `activeRequests` equals
`maxConcurrent`, and so does the number of calls that own a slot (no slot is
free while a waiter is queued); `waitForSlot` then admits nobody at once but
pushes the caller at the tail of the queue, so a new `execute` call joins the
queue behind the earlier waiters. -/
theorem c25_no_barging (cfg : Config) (s : State) (hK : 1 ≤ cfg.maxConcurrent)
    (hreach : Reachable cfg s) (hq : s.lim.requestQueue ≠ []) :
    s.lim.activeRequests = cfg.maxConcurrent ∧
    (holders s.calls : Int) = cfg.maxConcurrent ∧
    (∀ k : Nat, waitForSlot cfg s.lim k =
      ({ s.lim with requestQueue := s.lim.requestQueue ++ [k] }, false)) ∧
    (∀ (task : Task) (retries : Option Nat), ∃ s1,
      step cfg s (.call task retries) = some s1 ∧
      s1.lim.requestQueue = s.lim.requestQueue ++ [s.calls.length] ∧
      s1.lim.activeRequests = s.lim.activeRequests ∧
      phaseOf s1 s.calls.length = some .queued) := by
  have hinv := inv_reachable hreach
  have hfull : s.lim.activeRequests = cfg.maxConcurrent := by
    have := noFreeSlot_reachable hreach hq
    omega
  have hnot : ¬ s.lim.activeRequests < cfg.maxConcurrent := by omega
  refine ⟨hfull, ?_, ?_, ?_⟩
  · rw [← hinv.active_eq]; exact hfull
  · intro k
    simp [waitForSlot, hnot]
  · intro task retries
    refine ⟨_, rfl, ?_, ?_, ?_⟩
    · simp [enter, waitForSlot, hnot]
    · simp [enter, waitForSlot, hnot]
    · simp [phaseOf, enter, waitForSlot, hnot]

/-- C25 at a concrete state: one slot, held by call 0, and call 1 queued; the
counter stands at 1 and a third call is queued behind call 1. -/
theorem c25_witness :
    (1 : Int) ≤ cfgOne.maxConcurrent ∧ Reachable cfgOne fifoS0 ∧
    fifoS0.lim.requestQueue = [1] ∧ fifoS0.lim.activeRequests = cfgOne.maxConcurrent ∧
    fifoS1.lim.requestQueue = [1, 2] :=
  ⟨by decide, ⟨0, fifoBefore, run_eq_runD (by decide)⟩, by decide,
    (c25_no_barging cfgOne fifoS0 (by decide) ⟨0, fifoBefore, run_eq_runD (by decide)⟩
      (by decide)).1,
    by decide⟩

/-! ## A waiter leaves the queue once -/

/-- C23. In every reachable state a waiter `j` of `requestQueue` occurs in the
queue exactly once and its promise is pending. A transition either leaves it in
the queue (still exactly once) with its promise pending, or is a `releaseSlot`
run by a slot owner `i` that shifts `j` off the head of the queue and resolves
its promise in the same step, after which `j` is no longer in the queue. A
call that is not in the queue is not woken by any transition: its record
changes only when its own continuation runs. -/
theorem c23_waiter_leaves_once (cfg : Config) (s s1 : State) (e : Event) (j : Nat)
    (hreach : Reachable cfg s) (hj : j ∈ s.lim.requestQueue) (hs : step cfg s e = some s1) :
    s.lim.requestQueue.count j = 1 ∧
    (∃ cj, s.calls[j]? = some cj ∧ cj.phase = .queued ∧
      ((s1.lim.requestQueue.count j = 1 ∧ s1.calls[j]? = some cj) ∨
        (∃ i rest, e = .resume i ∧ i ≠ j ∧ ReleaseEffect s s1 i ∧
          (releaseSlot s.lim).2 = some j ∧ s.lim.requestQueue = j :: rest ∧
          s1.lim.requestQueue = rest ∧ s1.lim.requestQueue.count j = 0 ∧
          s1.calls[j]? = some cj.granted))) ∧
    (∀ (k : Nat) (ck : Call), k ∉ s.lim.requestQueue → s.calls[k]? = some ck →
      e ≠ .resume k → s1.calls[k]? = some ck) := by
  have hinv := inv_reachable hreach
  have hinv1 := inv_step e hinv hs
  obtain ⟨cj, hcj, hjq⟩ := hinv.queued j hj
  have hnores : e ≠ .resume j := by
    intro he; subst he
    simp [step, resume, hcj, hjq] at hs
  refine ⟨List.count_eq_one_of_mem hinv.nodup hj, ⟨cj, hcj, hjq, ?_⟩, ?_⟩
  · rcases step_slot hinv hs with ⟨_, hq, hsame, _⟩ | ⟨k, _, he⟩ | ⟨i, hei, hr⟩
    · left
      refine ⟨List.count_eq_one_of_mem hinv1.nodup (by rw [hq]; exact hj), ?_⟩
      exact hsame j cj hnores hcj
    · left
      have hjk : j ≠ k := fun h => he.fresh (h ▸ hj)
      refine ⟨List.count_eq_one_of_mem hinv1.nodup ?_, he.others j cj hjk hcj⟩
      rw [he.lim]
      unfold waitForSlot
      split_ifs
      · exact hj
      · exact List.mem_append_left _ hj
    · obtain ⟨ci, ci1, hci, hhold, _, _, _⟩ := hr.releaser
      have hij : i ≠ j := by
        intro h; subst h
        rw [hcj] at hci; cases hci
        rw [hjq] at hhold; simp at hhold
      cases hqueue : s.lim.requestQueue with
      | nil => rw [hqueue] at hj; simp at hj
      | cons w rest =>
        have hrel := releaseSlot_cons hqueue
        have hq1 : s1.lim.requestQueue = rest := by rw [hr.queue, hrel]
        by_cases hwj : w = j
        · right
          subst hwj
          have hnd : (w :: rest).Nodup := hqueue ▸ hinv.nodup
          obtain ⟨cw, hcw, _, hcw1⟩ := hr.woken w (by rw [hrel])
          rw [hcj] at hcw; cases hcw
          refine ⟨i, rest, hei, hij, hr, by rw [hrel], rfl, hq1, ?_, hcw1⟩
          rw [hq1]
          exact List.count_eq_zero_of_not_mem (List.nodup_cons.mp hnd).1
        · left
          have hjrest : j ∈ rest := by
            rw [hqueue] at hj
            rcases List.mem_cons.mp hj with h | h
            · exact absurd h.symm hwj
            · exact h
          refine ⟨List.count_eq_one_of_mem hinv1.nodup (by rw [hq1]; exact hjrest), ?_⟩
          refine hr.others j cj (Ne.symm hij) ?_ hcj
          rw [hrel]
          intro h
          exact hwj (Option.some.inj h)
  · intro k ck hk hck hne
    rcases step_slot hinv hs with ⟨_, _, hsame, _⟩ | ⟨k1, hk1, he⟩ | ⟨i, hei, hr⟩
    · exact hsame k ck hne hck
    · refine he.others k ck ?_ hck
      intro h
      subst h
      rcases hk1 with ⟨_, _, h1, _⟩ | ⟨h1, _⟩
      · exact hne h1
      · have := getElem?_lt hck
        omega
    · refine hr.others k ck ?_ ?_ hck
      · intro h
        subst h
        exact hne hei
      · intro h
        apply hk
        cases hqueue : s.lim.requestQueue with
        | nil => rw [releaseSlot_nil hqueue] at h; cases h
        | cons w rest =>
          rw [releaseSlot_cons hqueue] at h
          cases h
          simp

/-- C23 at a concrete transition: call 0 holds the only slot and call 1 is
queued; when call 0 settles and releases, call 1 leaves the queue and is
woken. -/
theorem c23_witness :
    Reachable cfgOne fifoFetching ∧ 1 ∈ fifoFetching.lim.requestQueue ∧
    step cfgOne fifoFetching (.resume 0) = some (runD cfgOne fifoFetching [.resume 0]) ∧
    fifoFetching.lim.requestQueue.count 1 = 1 ∧
    (runD cfgOne fifoFetching [.resume 0]).lim.requestQueue = [] ∧
    phaseOf fifoFetching 1 = some .queued ∧
    phaseOf (runD cfgOne fifoFetching [.resume 0]) 1 = some .admitted :=
  ⟨⟨0, fifoBefore ++ [Event.resume 0], run_eq_runD (by decide)⟩, by decide, rfl,
    (c23_waiter_leaves_once cfgOne fifoFetching (runD cfgOne fifoFetching [.resume 0])
      (.resume 0) 1 ⟨0, fifoBefore ++ [Event.resume 0], run_eq_runD (by decide)⟩ (by decide) rfl).1,
    by decide, by decide, by decide⟩

/-! ## The retry wait -/

theorem afterResponse_retryWait {c : Call} {now : Int} {r : Response} {w : Int}
    (h : (c.afterResponse now r).phase = .retryWait w) :
    r.status = 429 ∧ 0 < c.retries ∧ w = now + retryDelayMs r ∧
      (c.afterResponse now r).retries = c.retries := by
  unfold Call.afterResponse at h ⊢
  split_ifs at h ⊢ with hc
  simp only [Phase.retryWait.injEq] at h
  exact ⟨hc.1, hc.2, h.symm, rfl⟩

theorem afterTask_retryWait {cfg : Config} {c : Call} {now : Int} {w : Int}
    (h : (c.afterTask cfg now).phase = .retryWait w) :
    ∃ r, c.task (c.invocations - 1) = .resolves r ∧ r.status = 429 ∧ 0 < c.retries ∧
      w = now + retryDelayMs r ∧ (c.afterTask cfg now).retries = c.retries := by
  unfold Call.afterTask at h ⊢
  cases ht : c.task (c.invocations - 1) with
  | rejects e => simp [ht] at h
  | resolves r =>
    simp only [ht] at h ⊢
    refine ⟨r, rfl, ?_⟩
    cases hh : cfg.parseRateLimit with
    | none =>
      simp only [hh] at h ⊢
      exact afterResponse_retryWait h
    | some hook =>
      simp only [hh] at h ⊢
      cases hr : hook r with
      | throws e => simp [hr] at h
      | info o =>
        cases o with
        | none =>
          simp only [hr] at h ⊢
          exact afterResponse_retryWait h
        | some rem =>
          simp only [hr] at h ⊢
          split_ifs at h ⊢
          exact afterResponse_retryWait h

/-- The only way into the retry wait: the continuation of a slot owner acts on
a 429 response with retries left. -/
theorem advance_retryWait {cfg : Config} {l : Limiter} {now : Int} {c c1 : Call} {w : Int}
    (hadv : c.advance cfg l now = some c1) (hph1 : c1.phase = .retryWait w)
    (hne : ∀ w0, c.phase ≠ .retryWait w0) :
    c.phase.holdsSlot = true ∧
      ∃ r, c.pendingResponse = some r ∧ r.status = 429 ∧ 0 < c.retries ∧
        w = now + retryDelayMs r ∧ c1.retries = c.retries := by
  unfold Call.advance at hadv
  cases hph : c.phase with
  | queued => simp [hph] at hadv
  | settled o => simp [hph] at hadv
  | admitted =>
    simp only [hph] at hadv
    split at hadv <;> (cases hadv; simp at hph1)
  | pacing w0 =>
    simp only [hph] at hadv
    split_ifs at hadv
    cases hadv
    simp at hph1
  | fetching =>
    simp only [hph, Option.some.injEq] at hadv
    subst hadv
    obtain ⟨r, ht, h429, hret, hw, hsame⟩ := afterTask_retryWait hph1
    exact ⟨rfl, r, by simp [Call.pendingResponse, hph, ht], h429, hret, hw, hsame⟩
  | pausing r w0 =>
    simp only [hph] at hadv
    split_ifs at hadv
    cases hadv
    obtain ⟨h429, hret, hw, hsame⟩ := afterResponse_retryWait hph1
    exact ⟨rfl, r, by simp [Call.pendingResponse, hph], h429, hret, hw, hsame⟩
  | retryWait w0 => exact absurd hph (hne w0)

/-- A transition that brings call `i` into the retry wait is the continuation
of call `i`, which runs `releaseSlot()` on a 429 response with retries left. -/
theorem enter_retryWait {cfg : Config} {s s1 : State} {e : Event} {i : Nat} {c c1 : Call}
    {w : Int} (h : Inv cfg s) (hs : step cfg s e = some s1) (hi : s.calls[i]? = some c)
    (hi1 : s1.calls[i]? = some c1) (hph1 : c1.phase = .retryWait w)
    (hne : ∀ w0, c.phase ≠ .retryWait w0) :
    e = .resume i ∧ ReleaseEffect s s1 i ∧ c.phase.holdsSlot = true ∧
      ∃ r, c.pendingResponse = some r ∧ r.status = 429 ∧ 0 < c.retries ∧
        w = s.now + retryDelayMs r ∧ c1.retries = c.retries := by
  have hchanged : c1 ≠ c := by
    intro e1
    rw [e1] at hph1
    exact hne w hph1
  obtain ⟨c2, hc2, hcase⟩ := step_call_cases h hs hi
  rw [hi1] at hc2; cases hc2
  have hadv : c.advance cfg s.lim s.now = some c1 := by
    rcases hcase with h1 | ⟨_, h1⟩ | h1
    · exact absurd h1 hchanged
    · rw [h1] at hph1; simp [Call.granted] at hph1
    · exact h1
  obtain ⟨hhold, hr⟩ := advance_retryWait hadv hph1 hne
  have hnohold : c1.phase.holdsSlot = false := by rw [hph1]; rfl
  rcases step_slot h hs with ⟨_, _, _, hkeep⟩ | ⟨k, hk, he⟩ | ⟨i1, hei, hrel⟩
  · have := hkeep i c c1 hi hi1
    rw [hhold, hnohold] at this
    cases this
  · exfalso
    by_cases hik : i = k
    · subst hik
      rcases hk with ⟨c0, w0, _, hc0, hph0⟩ | ⟨hlen, _⟩
      · rw [hi] at hc0; cases hc0
        exact hne w0 hph0
      · have := getElem?_lt hi
        omega
    · have := he.others i c hik hi
      rw [hi1] at this; cases this
      exact hchanged rfl
  · have hii : i1 = i := by
      by_contra hcon
      by_cases hwk : (releaseSlot s.lim).2 = some i
      · obtain ⟨cw, hcw, hq, _⟩ := hrel.woken i hwk
        rw [hi] at hcw; cases hcw
        rw [hq] at hhold; simp at hhold
      · have := hrel.others i c (fun e1 => hcon e1.symm) hwk hi
        rw [hi1] at this; cases this
        exact hchanged rfl
    subst hii
    exact ⟨hei, hrel, hhold, hr⟩

theorem balanced_reachable {cfg : Config} {s : State} (h : Reachable cfg s) {j : Nat}
    {c : Call} (hj : s.calls[j]? = some c) : Balanced c := by
  refine all_calls_reachable Balanced ?_ ?_ ?_ h hj
  · intro l now c c1 hadv hb
    exact counts_balanced (advance_counts hadv) hb
  · intro c hq hb
    exact counts_balanced (granted_counts hq) hb
  · intro task retries
    simp [Balanced, newCall, Call.granted]

/-- C22. Take a call `i` that waits for its retry (line 99) in a reachable
state. During the wait it owns no slot: it has released every slot it was
given and it is not in the queue. The wait began with the continuation of call
`i` acting on a 429 response with retries left: that transition ran
`releaseSlot()` before the wait, and when the queue was `h :: rest` it handed
the slot to the head waiter `h`. The branch of lines 95-99 is a `releaseSlot()`
followed by the wait. The wait ends (not before its time) with a `waitForSlot()`
on behalf of the call, with `retries - 1`: when the queue is not empty the call
is pushed at its tail, and in every later state in which the retry has been
given a slot, every caller that was queued when it re-entered has been given
one too. -/
theorem c22_retry_reenters_admission (cfg : Config) (s : State) (i : Nat) (c : Call) (w : Int)
    (hreach : Reachable cfg s) (hi : s.calls[i]? = some c) (hph : c.phase = .retryWait w) :
    (c.phase.holdsSlot = false ∧ c.acquires = c.releases ∧ i ∉ s.lim.requestQueue) ∧
    (∀ (s0 : State) (e : Event) (c0 : Call), Reachable cfg s0 → step cfg s0 e = some s →
      s0.calls[i]? = some c0 → (∀ w0, c0.phase ≠ .retryWait w0) →
      e = .resume i ∧ c0.phase.holdsSlot = true ∧ ReleaseEffect s0 s i ∧
      (∃ r, c0.pendingResponse = some r ∧ r.status = 429 ∧ 0 < c0.retries ∧
        c.retries = c0.retries ∧ w = s0.now + retryDelayMs r) ∧
      (∀ (h : Nat) (rest : List Nat), s0.lim.requestQueue = h :: rest →
        s.lim.requestQueue = rest ∧ s.lim.activeRequests = s0.lim.activeRequests ∧
        phaseOf s0 h = some .queued ∧ phaseOf s h = some .admitted)) ∧
    (∀ (s0 : State) (c0 : Call) (r : Response), r.status = 429 → 0 < c0.retries →
      handleStatus s0 i c0 r = releaseBy s0 i c0 (.retryWait (s0.now + retryDelayMs r))) ∧
    (∀ s1 : State, step cfg s (.resume i) = some s1 →
      w ≤ s.now ∧ s1 = enter cfg s i { c with retries := c.retries - 1 } ∧
      s1.lim = (waitForSlot cfg s.lim i).1 ∧
      (∃ c1, s1.calls[i]? = some c1 ∧ c1.retries = c.retries - 1 ∧ c1.task = c.task ∧
        c1.phase = (if s.lim.activeRequests < cfg.maxConcurrent then Phase.admitted
          else Phase.queued)) ∧
      (s.lim.requestQueue ≠ [] →
        s1.lim.requestQueue = s.lim.requestQueue ++ [i] ∧ phaseOf s1 i = some .queued) ∧
      ∀ (es : List Event) (s2 : State) (a : Nat), run cfg s1 es = some s2 →
        a ∈ s.lim.requestQueue → acquiresOf s1 i < acquiresOf s2 i →
        acquiresOf s1 a < acquiresOf s2 a) := by
  have hinv := inv_reachable hreach
  have hlt := getElem?_lt hi
  have hnotq : i ∉ s.lim.requestQueue := by
    intro hmem
    obtain ⟨cj, hcj, hq⟩ := hinv.queued i hmem
    rw [hi] at hcj; cases hcj
    rw [hph] at hq; cases hq
  refine ⟨⟨by rw [hph]; rfl, ?_, hnotq⟩, ?_, ?_, ?_⟩
  · have hb := balanced_reachable hreach hi
    unfold Balanced at hb
    rw [hph] at hb
    simpa using hb
  · intro s0 e c0 hreach0 hs0 hi0 hne
    obtain ⟨he, hrel, hhold, r, hr, h429, hret, hw, hsame⟩ :=
      enter_retryWait (inv_reachable hreach0) hs0 hi0 hi hph hne
    refine ⟨he, hhold, hrel, ⟨r, hr, h429, hret, hsame, hw⟩, ?_⟩
    intro h rest hq
    have hrs := releaseSlot_cons hq
    obtain ⟨cw, hcw, hcwq, hcw1⟩ := hrel.woken h (by rw [hrs])
    refine ⟨by rw [hrel.queue, hrs], by rw [hrel.active, hrs], ?_, ?_⟩
    · simp [phaseOf, hcw, hcwq]
    · simp [phaseOf, hcw1, Call.granted]
  · intro s0 c0 r h429 hret
    simp [handleStatus, h429, hret]
  · intro s1 hs1
    simp only [step, resume, hi, hph] at hs1
    split_ifs at hs1 with hw
    simp only [Option.some.injEq] at hs1
    have hs1' : s1 = enter cfg s i { c with retries := c.retries - 1 } := by
      rw [← hs1]; rfl
    have hstep : step cfg s (.resume i) = some s1 := by
      simp only [step, resume, hi, hph, hw, if_true, hs1']
      rfl
    have hinv1 := inv_step _ hinv hstep
    refine ⟨hw, hs1', by rw [hs1']; rfl, ?_, ?_, ?_⟩
    · rw [hs1']
      simp only [enter, waitForSlot]
      by_cases hfree : s.lim.activeRequests < cfg.maxConcurrent
      · simp [hfree, List.getElem?_set, hlt, Call.granted]
      · simp [hfree, List.getElem?_set, hlt]
    · intro hq
      have hfull := noFreeSlot_reachable hreach hq
      have hle := hinv.active_le
      have hnot : ¬ s.lim.activeRequests < cfg.maxConcurrent := by omega
      rw [hs1']
      constructor
      · simp [enter, waitForSlot, hnot]
      · simp [phaseOf, enter, waitForSlot, hnot, List.getElem?_set, hlt]
    · intro es s2 a hrun ha hlt2
      have hq : s.lim.requestQueue ≠ [] := by
        intro h0; rw [h0] at ha; simp at ha
      have hfull := noFreeSlot_reachable hreach hq
      have hle := hinv.active_le
      have hnot : ¬ s.lim.activeRequests < cfg.maxConcurrent := by omega
      have hq1 : s1.lim.requestQueue = s.lim.requestQueue ++ [i] := by
        rw [hs1']; simp [enter, waitForSlot, hnot]
      have hbefore : Before a i s1.lim.requestQueue := by
        obtain ⟨l1, l2, hsplit⟩ := List.append_of_mem ha
        exact ⟨l1, l2, [], by rw [hq1, hsplit]; simp⟩
      have m := acquires_mono_run a es hinv1 hrun
      by_contra hcon
      have := fifo_run es hinv1 hbefore hrun (by omega)
      omega

/-- C22 at a concrete state: one slot, call 0 waits for its retry, call 1 was
handed the slot that call 0 released, call 2 is queued. When the wait is over
call 0 re-enters admission and is queued behind call 2. -/
theorem c22_witness :
    Reachable cfgOne retryWaiting ∧ retryWaiting.calls[0]? = some (callAt retryWaiting 0) ∧
    (callAt retryWaiting 0).phase = .retryWait 2000 ∧
    phaseOf retryWaiting 1 = some .admitted ∧
    retryWaiting.lim.requestQueue = [2] ∧
    step cfgOne retryWaiting (.resume 0) = some (runD cfgOne retryWaiting [.resume 0]) ∧
    (runD cfgOne retryWaiting [.resume 0]).lim.requestQueue = retryWaiting.lim.requestQueue ++ [0] ∧
    phaseOf (runD cfgOne retryWaiting [.resume 0]) 0 = some .queued :=
  ⟨⟨0, retryQueueDemo, run_eq_runD (by decide)⟩, rfl, by decide, by decide, by decide, rfl,
    (((c22_retry_reenters_admission cfgOne retryWaiting 0 (callAt retryWaiting 0) 2000
      ⟨0, retryQueueDemo, run_eq_runD (by decide)⟩ rfl (by decide)).2.2.2
        (runD cfgOne retryWaiting [.resume 0]) rfl).2.2.2.2.1 (by decide)).1,
    by decide⟩

/-! ## `parseInt` on decimal numerals -/

theorem isDigit_bounds {c : Char} (h : c.isDigit = true) : 48 ≤ c.toNat ∧ c.toNat ≤ 57 := by
  simp only [Char.isDigit, Bool.and_eq_true, decide_eq_true_eq] at h
  exact ⟨h.1, h.2⟩

theorem digitChar_spec {k : Nat} (h : k < 10) :
    (Nat.digitChar k).isDigit = true ∧ (Nat.digitChar k).toNat - 48 = k := by
  interval_cases k <;> exact ⟨rfl, rfl⟩

theorem digitsValue_append (xs : List Char) (d : Char) :
    digitsValue (xs ++ [d]) = 10 * digitsValue xs + (d.toNat - 48) := by
  simp [digitsValue, List.foldl_append]

theorem toDigitsCore_spec (fuel : Nat) : ∀ (n : Nat) (ds : List Char), n < fuel →
    ∃ xs, Nat.toDigitsCore 10 fuel n ds = xs ++ ds ∧ xs ≠ [] ∧
      (∀ d ∈ xs, d.isDigit = true) ∧ digitsValue xs = n := by
  induction fuel with
  | zero => intro n ds h; omega
  | succ f ih =>
    intro n ds h
    have hd := digitChar_spec (Nat.mod_lt n (by decide : 0 < 10))
    unfold Nat.toDigitsCore
    by_cases h0 : n / 10 = 0
    · simp only [h0, if_true]
      refine ⟨[Nat.digitChar (n % 10)], rfl, by simp, ?_, ?_⟩
      · intro d hmem
        simp only [List.mem_singleton] at hmem
        rw [hmem]; exact hd.1
      · have := digitsValue_append [] (Nat.digitChar (n % 10))
        simp only [List.nil_append] at this
        rw [this, hd.2]
        simp [digitsValue]
        omega
    · simp only [h0, if_false]
      obtain ⟨xs, hxs, hne, hdig, hval⟩ :=
        ih (n / 10) (Nat.digitChar (n % 10) :: ds) (by omega)
      refine ⟨xs ++ [Nat.digitChar (n % 10)], by rw [hxs]; simp, by simp, ?_, ?_⟩
      · intro d hmem
        rcases List.mem_append.mp hmem with h1 | h1
        · exact hdig d h1
        · simp only [List.mem_singleton] at h1
          rw [h1]; exact hd.1
      · rw [digitsValue_append, hval, hd.2]
        omega

/-- On a non-empty run of digits `parseInt` returns the double nearest to its
value. -/
theorem parseInt_digits (cs : List Char) (hne : cs ≠ [])
    (hd : ∀ d ∈ cs, d.isDigit = true) :
    parseInt (String.mk cs) = JsNumber.ofMagnitude false (digitsValue cs) := by
  cases cs with
  | nil => exact absurd rfl hne
  | cons c rest =>
    have hc := isDigit_bounds (hd c (by simp))
    have hsp : isJsSpace c = false := by
      simp only [isJsSpace, Bool.or_eq_false_iff, Bool.and_eq_false_imp, decide_eq_false_iff_not,
        decide_eq_true_eq]
      omega
    have htake : List.takeWhile Char.isDigit (c :: rest) = c :: rest :=
      List.takeWhile_eq_self_iff.mpr hd
    have h45 : c.toNat ≠ 45 := by omega
    have h43 : c.toNat ≠ 43 := by omega
    unfold parseInt
    have hcd : c.isDigit = true := hd c (by simp)
    simp only [String.toList, List.dropWhile_cons, hsp]
    simp [htake, h45, h43, hcd]

theorem toString_eq_digits (n : Nat) :
    ∃ xs, toString n = String.mk xs ∧ xs ≠ [] ∧ (∀ d ∈ xs, d.isDigit = true) ∧
      digitsValue xs = n := by
  obtain ⟨xs, hxs, hne, hdig, hval⟩ := toDigitsCore_spec (n + 1) n [] (by omega)
  refine ⟨xs, ?_, hne, hdig, hval⟩
  show Nat.repr n = _
  simp [Nat.repr, Nat.toDigits, hxs, List.asString]

theorem parseInt_toString (n : Nat) : parseInt (toString n) = JsNumber.ofMagnitude false n := by
  obtain ⟨xs, hxs, hne, hdig, hval⟩ := toString_eq_digits n
  rw [hxs, parseInt_digits xs hne hdig, hval]

/-! ## Rounding to a double -/

theorem two_pow_53 : (2 : Nat) ^ 53 = 9007199254740992 := by norm_num

theorem two_pow_52 : (2 : Nat) ^ 52 = 4503599627370496 := by norm_num

theorem excessBits_succ (fuel v : Nat) :
    excessBits (fuel + 1) v = if v < 2 ^ 53 then 0 else excessBits fuel (v / 2) + 1 := rfl

theorem excessBits_spec (fuel v : Nat) :
    excessBits fuel v = 0 ∨ 2 ^ 52 ≤ v / 2 ^ excessBits fuel v := by
  induction fuel generalizing v with
  | zero => exact Or.inl rfl
  | succ f ih =>
    by_cases hv : v < 2 ^ 53
    · left
      rw [excessBits_succ, if_pos hv]
    · right
      rw [excessBits_succ, if_neg hv]
      have hdiv : v / 2 ^ (excessBits f (v / 2) + 1) = v / 2 / 2 ^ excessBits f (v / 2) := by
        rw [Nat.div_div_eq_div_mul, pow_succ, Nat.mul_comm]
      rw [hdiv]
      rcases ih (v / 2) with h0 | h1
      · rw [h0, pow_zero, Nat.div_one, two_pow_52]
        rw [two_pow_53] at hv
        omega
      · exact h1

theorem roundedSignificand_zero (v : Nat) : roundedSignificand v 0 = v := by
  unfold roundedSignificand
  simp only [pow_zero, Nat.div_one, Nat.mod_one, Nat.mul_zero]
  rw [if_neg]
  omega

theorem roundedSignificand_ge (v e : Nat) : v / 2 ^ e ≤ roundedSignificand v e := by
  unfold roundedSignificand
  simp only
  split_ifs <;> omega

/-- A natural number below `2 ^ 53` is a double. -/
theorem roundToDouble_small {v : Nat} (h : v < 2 ^ 53) : roundToDouble v = some v := by
  have he : excessBits 1100 v = 0 := by
    rw [show (1100 : Nat) = 1099 + 1 from rfl, excessBits_succ, if_pos h]
  unfold roundToDouble
  simp only [he, roundedSignificand_zero, pow_zero, Nat.mul_one]
  rw [if_neg]
  omega

/-- Rounding does not bring a number below `2 ^ 52` unless it leaves it as it
is. -/
theorem roundToDouble_ge {v x : Nat} (h : roundToDouble v = some x) : x = v ∨ 2 ^ 52 ≤ x := by
  unfold roundToDouble at h
  simp only at h
  split_ifs at h
  simp only [Option.some.injEq] at h
  rcases excessBits_spec 1100 v with h0 | h1
  · left
    rw [h0, roundedSignificand_zero, pow_zero, Nat.mul_one] at h
    exact h.symm
  · right
    rw [← h]
    calc 2 ^ 52 ≤ v / 2 ^ excessBits 1100 v := h1
      _ ≤ roundedSignificand v (excessBits 1100 v) := roundedSignificand_ge _ _
      _ = roundedSignificand v (excessBits 1100 v) * 1 := (Nat.mul_one _).symm
      _ ≤ roundedSignificand v (excessBits 1100 v) * 2 ^ excessBits 1100 v :=
        Nat.mul_le_mul_left _ Nat.one_le_two_pow

theorem ofMagnitude_small {v : Nat} (h : v < 2 ^ 53) :
    JsNumber.ofMagnitude false v = .finite (v : Int) := by
  simp [JsNumber.ofMagnitude, roundToDouble_small h]

/-- The double for a number of at least `k`, with `k` at most `2 ^ 52`, is
`Infinity` or at least `k`. -/
theorem ofMagnitude_large {v k : Nat} (hk : k ≤ 2 ^ 52) (hv : k ≤ v) :
    JsNumber.ofMagnitude false v = .infinite false ∨
      ∃ x : Nat, JsNumber.ofMagnitude false v = .finite (x : Int) ∧ k ≤ x := by
  unfold JsNumber.ofMagnitude
  cases hr : roundToDouble v with
  | none => exact Or.inl rfl
  | some x =>
    right
    refine ⟨x, by simp, ?_⟩
    rcases roundToDouble_ge hr with h1 | h1
    · omega
    · omega

/-! ## Length of the retry wait -/

theorem toString_nonempty (n : Nat) : (toString n).isEmpty = false := by
  obtain ⟨xs, hxs, hne, _, _⟩ := toString_eq_digits n
  cases he : (toString n).isEmpty with
  | false => rfl
  | true =>
    exfalso
    have h1 := (String.isEmpty_iff _).mp he
    rw [hxs] at h1
    exact hne (by simpa using congrArg String.data h1)

theorem retryAfterSeconds_decimal {r : Response} {n : Nat}
    (h : r.retryAfter = some (toString n)) :
    retryAfterSeconds r = JsNumber.ofMagnitude false n := by
  unfold retryAfterSeconds
  rw [h]
  simp only [toString_nonempty n]
  exact parseInt_toString n

/-- A header that is the decimal numeral of `n` with `1 <= n <= 2147483`
makes the retry wait last `n * 1000` ms. -/
theorem retryDelay_decimal {r : Response} {n : Nat} (h : r.retryAfter = some (toString n))
    (h1 : 1 ≤ n) (h2 : n ≤ 2147483) : retryDelayMs r = (n : Int) * 1000 := by
  have hn : n < 2 ^ 53 := by rw [two_pow_53]; omega
  have hn2 : n * 1000 < 2 ^ 53 := by rw [two_pow_53]; omega
  have hneg : decide ((n : Int) < 0) = false := by simp
  rw [retryDelayMs, retryAfterSeconds_decimal h, ofMagnitude_small hn]
  simp only [JsNumber.times1000, hneg, Int.natAbs_ofNat, ofMagnitude_small hn2, timeoutMs,
    timeoutMax]
  rw [if_pos]
  · push_cast; ring
  · constructor <;> push_cast <;> omega

/-- A header that is the decimal numeral of 0 or of a number from 2147484 on
makes the retry wait last 1 ms: the timer replaces the duration. -/
theorem retryDelay_replaced {r : Response} {n : Nat} (h : r.retryAfter = some (toString n))
    (hn : n = 0 ∨ 2147484 ≤ n) : retryDelayMs r = 1 := by
  rw [retryDelayMs, retryAfterSeconds_decimal h]
  rcases hn with h0 | hbig
  · subst h0
    decide
  · have hk : 2147484 ≤ 2 ^ 52 := by rw [two_pow_52]; omega
    have hk2 : 2147484000 ≤ 2 ^ 52 := by rw [two_pow_52]; omega
    rcases ofMagnitude_large hk hbig with hinf | ⟨x, hx, hxk⟩
    · rw [hinf]; rfl
    · rw [hx]
      have hneg : decide ((x : Int) < 0) = false := by simp
      simp only [JsNumber.times1000, hneg, Int.natAbs_ofNat]
      rcases ofMagnitude_large hk2 (show 2147484000 ≤ x * 1000 by omega) with
        hinf | ⟨y, hy, hyk⟩
      · rw [hinf]; rfl
      · rw [hy]
        simp only [timeoutMs, timeoutMax]
        rw [if_neg]
        intro hcon
        have := hcon.2
        omega

theorem retryDelay_default {r : Response}
    (h : r.retryAfter = none ∨ r.retryAfter = some "") : retryDelayMs r = 2000 := by
  have h1 : retryAfterSeconds r = .finite 2 := by
    unfold retryAfterSeconds
    rcases h with h | h
    · rw [h]; decide
    · rw [h]; decide
  rw [retryDelayMs, h1]
  decide

set_option maxRecDepth 100000 in
/-- C27 refuted as stated: a 429 response with `Retry-After: 2147484` (the
decimal numeral of `n = 2147484`, retries left) asks for a wait of
2147484000 ms, which is above `TIMEOUT_MAX`, so the timer of `delay` fires
after 1 ms: the call enters a retry wait that ends at clock 1, and at clock 1
the task has been invoked a second time. The number read from the header is a
double: `parseInt("9007199254740993")` is 9007199254740992. -/
theorem c27_counterexample :
    retryAfterLong.status = 429 ∧ retryAfterLong.retryAfter = some (toString 2147484) ∧
    retryAfterLongTask 0 = .resolves retryAfterLong ∧
    retryAfterSeconds retryAfterLong = .finite 2147484 ∧
    (retryAfterSeconds retryAfterLong).times1000 = .finite 2147484000 ∧
    retryDelayMs retryAfterLong = 1 ∧
    retryDelayMs retryAfterLong ≠ 2147484 * 1000 ∧
    observe (runD cfgRetries3 (init fresh 0)
      [.call retryAfterLongTask none, .resume 0, .resume 0]) 0 = some (1, .retryWait 1) ∧
    (run cfgRetries3 (init fresh 0)
      [.call retryAfterLongTask none, .resume 0, .resume 0, .tick 1, .resume 0,
        .resume 0]).isSome = true ∧
    (runD cfgRetries3 (init fresh 0)
      [.call retryAfterLongTask none, .resume 0, .resume 0, .tick 1, .resume 0,
        .resume 0]).now = 1 ∧
    observe (runD cfgRetries3 (init fresh 0)
      [.call retryAfterLongTask none, .resume 0, .resume 0, .tick 1, .resume 0,
        .resume 0]) 0 = some (2, .fetching) ∧
    parseInt "9007199254740993" = .finite 9007199254740992 := by
  refine ⟨rfl, by decide, rfl, by decide, by decide, by decide, by decide, by decide,
    by decide, by decide, by decide, by decide⟩

/-- C27, amended. Whenever a transition brings a call into the retry wait of
line 99, the call was acting on a 429 response `r` with retries left, and the
wait ends at the current clock plus the duration that the timer makes of
`parseInt(Retry-After || "2", 10) * 1000`: `n * 1000` ms when the header is the
decimal numeral of `n` with `1 <= n <= 2147483`, 2000 ms when the header is
absent or empty, whatever the configuration of the limiter; and 1 ms when the
header is the numeral of 0 or of a number from 2147484 on. The retry can run
once that time has come, and not before. -/
theorem c27_retry_wait_duration (cfg : Config) (s s1 : State) (e : Event) (i : Nat)
    (c c1 : Call) (w : Int) (hreach : Reachable cfg s) (hs : step cfg s e = some s1)
    (hi : s.calls[i]? = some c) (hne : ∀ w0, c.phase ≠ .retryWait w0)
    (hi1 : s1.calls[i]? = some c1) (hph1 : c1.phase = .retryWait w) :
    (∀ (r : Response) (n : Nat), r.retryAfter = some (toString n) → 1 ≤ n → n ≤ 2147483 →
      retryDelayMs r = (n : Int) * 1000) ∧
    (∀ (r : Response) (n : Nat), r.retryAfter = some (toString n) → n = 0 ∨ 2147484 ≤ n →
      retryDelayMs r = 1) ∧
    (∀ r : Response, r.retryAfter = none ∨ r.retryAfter = some "" → retryDelayMs r = 2000) ∧
    (∃ r, c.pendingResponse = some r ∧ r.status = 429 ∧ 0 < c.retries ∧
      s1.now = s.now ∧ w = s.now + retryDelayMs r ∧
      (∀ n : Nat, r.retryAfter = some (toString n) → 1 ≤ n → n ≤ 2147483 →
        w = s.now + (n : Int) * 1000) ∧
      (r.retryAfter = none ∨ r.retryAfter = some "" → w = s.now + 2000)) ∧
    (∀ s2 : State, s2.calls[i]? = some c1 → ((resume cfg s2 i).isSome = true ↔ w ≤ s2.now)) := by
  obtain ⟨he, _, _, r, hr, h429, hret, hw, _⟩ :=
    enter_retryWait (inv_reachable hreach) hs hi hi1 hph1 hne
  refine ⟨fun r n h h1 h2 => retryDelay_decimal h h1 h2, fun r n h hn => retryDelay_replaced h hn,
    fun r h => retryDelay_default h, ⟨r, hr, h429, hret, ?_, hw, ?_, ?_⟩, ?_⟩
  · subst he
    simp only [step] at hs
    have hadv := resume_self (inv_reachable hreach) hi hs
    rw [hi1] at hadv
    exact (resume_dispatches i hi hs hadv.symm).1
  · intro n hn h1 h2
    rw [hw, retryDelay_decimal hn h1 h2]
  · intro hn
    rw [hw, retryDelay_default hn]
  · intro s2 hi2
    simp only [resume, hi2, hph1]
    split_ifs with hle
    · simp [hle]
    · simp [hle]

/-- C27 at a concrete transition: a call on `createRateLimiter({ maxRetries:
3 })` is answered at clock 0 with 429 and `Retry-After: 1`; it enters the retry
wait until clock 1000. -/
theorem c27_witness :
    Reachable cfgRetries3 retryAfterOnePending ∧
    step cfgRetries3 retryAfterOnePending (.resume 0) =
      some (runD cfgRetries3 retryAfterOnePending [.resume 0]) ∧
    phaseOf retryAfterOnePending 0 = some .fetching ∧
    phaseOf (runD cfgRetries3 retryAfterOnePending [.resume 0]) 0 = some (.retryWait 1000) ∧
    retryAfterOne.retryAfter = some (toString 1) ∧
    retryDelayMs retryAfterOne = ((1 : Nat) : Int) * 1000 :=
  ⟨⟨0, _, run_eq_runD (by decide)⟩, rfl, by decide, by decide, by decide,
    (c27_retry_wait_duration cfgRetries3 retryAfterOnePending
      (runD cfgRetries3 retryAfterOnePending [.resume 0]) (.resume 0) 0
      (callAt retryAfterOnePending 0)
      (callAt (runD cfgRetries3 retryAfterOnePending [.resume 0]) 0) 1000
      ⟨0, _, run_eq_runD (by decide)⟩ rfl rfl
      (fun w0 h => Phase.noConfusion
        ((show (callAt retryAfterOnePending 0).phase = .fetching from by decide).symm.trans h))
      rfl (by decide)).1 retryAfterOne 1 (by decide) (by decide) (by decide)⟩

/-! ## Pacing on one slot -/

theorem releaseBy_log (s : State) (i : Nat) (c : Call) (ph : Phase) :
    (releaseBy s i c ph).log = s.log := rfl

theorem dispatch_fetching {s : State} {i : Nat} {c0 : Call} (c : Call)
    (hi : s.calls[i]? = some c0) :
    ∃ c1, (dispatch s i c).calls[i]? = some c1 ∧ c1.phase = .fetching :=
  ⟨{ c with phase := .fetching, invocations := c.invocations + 1 },
    by simp [dispatch, List.getElem?_set, getElem?_lt hi], rfl⟩

/-- `lastRequestTime` and the dispatch times change together, at a dispatch. -/
theorem step_pacing {cfg : Config} {s s1 : State} {e : Event} (hs : step cfg s e = some s1) :
    PacingEffect cfg s s1 := by
  cases e with
  | tick dt =>
    simp only [step, Option.some.injEq] at hs
    subst hs
    exact Or.inl ⟨rfl, rfl⟩
  | call task retries =>
    simp only [step, Option.some.injEq] at hs
    subst hs
    exact Or.inl ⟨enter_lastRequestTime _ _ _ _, rfl⟩
  | resume i =>
    simp only [step, resume] at hs
    cases hi : s.calls[i]? with
    | none => simp [hi] at hs
    | some c =>
      simp only [hi] at hs
      cases hph : c.phase with
      | queued => simp [hph] at hs
      | settled o => simp [hph] at hs
      | admitted =>
        simp only [hph, Option.some.injEq] at hs
        subst hs
        unfold afterSlot
        cases hp : pacingDelay cfg s.lim s.now with
        | some d => exact Or.inl ⟨rfl, rfl⟩
        | none =>
          obtain ⟨c1, hc1, hf⟩ := dispatch_fetching c hi
          exact Or.inr ⟨i, c, c1, hi, Or.inl ⟨hph, hp⟩, hc1, hf, rfl, rfl⟩
      | pacing w =>
        simp only [hph] at hs
        split_ifs at hs with hw
        simp only [Option.some.injEq] at hs
        subst hs
        obtain ⟨c1, hc1, hf⟩ := dispatch_fetching c hi
        exact Or.inr ⟨i, c, c1, hi, Or.inr ⟨w, hph, hw⟩, hc1, hf, rfl, rfl⟩
      | fetching =>
        simp only [hph, Option.some.injEq] at hs
        subst hs
        left
        unfold afterFetch
        simp only
        split
        · exact ⟨releaseBy_lastRequestTime _ _ _ _, rfl⟩
        · split
          · exact ⟨handleStatus_lastRequestTime _ _ _ _, by rw [(handleStatus_log _ _ _ _).1]⟩
          · split
            · exact ⟨releaseBy_lastRequestTime _ _ _ _, rfl⟩
            · exact ⟨handleStatus_lastRequestTime _ _ _ _, by rw [(handleStatus_log _ _ _ _).1]⟩
            · split_ifs
              · exact ⟨rfl, rfl⟩
              · exact ⟨handleStatus_lastRequestTime
                    { s with lim := { s.lim with rateLimitRemaining := some ‹Int› } } _ _ _,
                  by rw [(handleStatus_log _ _ _ _).1]⟩
      | pausing r w =>
        simp only [hph] at hs
        split_ifs at hs
        simp only [Option.some.injEq] at hs
        subst hs
        exact Or.inl ⟨handleStatus_lastRequestTime _ _ _ _, by rw [(handleStatus_log _ _ _ _).1]⟩
      | retryWait w =>
        simp only [hph] at hs
        split_ifs at hs
        simp only [Option.some.injEq] at hs
        subst hs
        exact Or.inl ⟨enter_lastRequestTime _ _ _ _, rfl⟩

/-- A continuation that leaves its call in the pacing wait is the one of a
call just admitted, and the wait ends `delayBetweenRequests` after
`lastRequestTime`. -/
theorem advance_pacing {cfg : Config} {l : Limiter} {now : Int} {c c1 : Call} {w : Int}
    (hadv : c.advance cfg l now = some c1) (hph1 : c1.phase = .pacing w) :
    w = l.lastRequestTime + cfg.delayBetweenRequests := by
  unfold Call.advance at hadv
  cases hph : c.phase with
  | queued => simp [hph] at hadv
  | settled o => simp [hph] at hadv
  | admitted =>
    simp only [hph] at hadv
    cases hp : pacingDelay cfg l now with
    | none =>
      simp only [hp, Option.some.injEq] at hadv
      subst hadv
      simp at hph1
    | some d =>
      simp only [hp, Option.some.injEq] at hadv
      subst hadv
      simp only [Phase.pacing.injEq] at hph1
      unfold pacingDelay at hp
      simp only at hp
      split_ifs at hp
      simp only [Option.some.injEq] at hp
      omega
  | pacing w0 =>
    simp only [hph] at hadv
    split_ifs at hadv
    cases hadv
    simp at hph1
  | fetching =>
    simp only [hph, Option.some.injEq] at hadv
    subst hadv
    rcases afterTask_phase cfg c now with ⟨r, _, h1, _⟩ | ⟨o, h1⟩ | ⟨r, w1, h1⟩
    · rw [h1] at hph1; cases hph1
    · rw [h1] at hph1; cases hph1
    · rw [h1] at hph1; cases hph1
  | pausing r w0 =>
    simp only [hph] at hadv
    split_ifs at hadv
    cases hadv
    rcases afterResponse_phase c now r with ⟨h1, _⟩ | h1
    · rw [h1] at hph1; cases hph1
    · rw [h1] at hph1; cases hph1
  | retryWait w0 =>
    simp only [hph] at hadv
    split at hadv
    · split at hadv <;> (cases hadv; simp [Call.granted] at hph1)
    · cases hadv

theorem pacing_step {cfg : Config} {s s1 : State} {e : Event} (hK : cfg.maxConcurrent = 1)
    (hD : 0 < cfg.delayBetweenRequests) (h : Inv cfg s) (hp : PacingInv cfg s)
    (hs : step cfg s e = some s1) : PacingInv cfg s1 := by
  have h1 := inv_step e h hs
  rcases step_pacing hs with ⟨hlast, hlog⟩ | ⟨i, c, c1, hi, hcond, hi1, hf1, hlast, hlog⟩
  · refine ⟨?_, ?_, ?_⟩
    · intro t rest ht
      rw [hlast]
      exact hp.latest t rest (by rw [← hlog]; exact ht)
    · rw [hlog]; exact hp.paced
    · intro j cj1 w hj1 hph1
      rw [hlast]
      cases hj : s.calls[j]? with
      | none =>
        obtain ⟨task, retries, hnew⟩ := step_new_call hs hj hj1
        rcases hnew with hnew | hnew <;> (rw [hnew] at hph1; simp [newCall, Call.granted] at hph1)
      | some cj =>
        obtain ⟨c2, hc2, hcase⟩ := step_call_cases h hs hj
        rw [hj1] at hc2; cases hc2
        rcases hcase with h2 | ⟨_, h2⟩ | h2
        · rw [h2] at hph1
          exact hp.waiting j cj w hj hph1
        · rw [h2] at hph1; simp [Call.granted] at hph1
        · rw [advance_pacing h2 hph1]
  · have hgap : ∀ t rest, dispatchTimes s.log = t :: rest →
        t + cfg.delayBetweenRequests ≤ s.now := by
      intro t rest ht
      have hl := hp.latest t rest ht
      rcases hcond with ⟨_, hnone⟩ | ⟨w, hphw, hw⟩
      · unfold pacingDelay at hnone
        rw [if_pos hD] at hnone
        simp only at hnone
        split_ifs at hnone
        omega
      · have := hp.waiting i c w hi hphw
        omega
    refine ⟨?_, ?_, ?_⟩
    · intro t rest ht
      rw [hlog] at ht
      simp only [List.cons.injEq] at ht
      rw [hlast]; exact ht.1
    · rw [hlog]
      cases hd : dispatchTimes s.log with
      | nil => rfl
      | cons t rest =>
        have hpaced := hp.paced
        rw [hd] at hpaced
        have := hgap t rest hd
        unfold Paced at hpaced ⊢
        simp only [pacedBy, Bool.and_eq_true, decide_eq_true_eq]
        exact ⟨this, hpaced⟩
    · intro j cj1 w hj1 hph1
      exfalso
      have hij : i ≠ j := by
        intro e1; subst e1
        rw [hi1] at hj1; cases hj1
        rw [hf1] at hph1; cases hph1
      have h2 := two_holders hij hi1 hj1 (by rw [hf1]; rfl) (by rw [hph1]; rfl)
      have hle := h1.active_le
      rw [h1.active_eq, hK] at hle
      have : (2 : Int) ≤ (holders s1.calls : Int) := by exact_mod_cast h2
      omega

theorem pacing_run {cfg : Config} (hK : cfg.maxConcurrent = 1)
    (hD : 0 < cfg.delayBetweenRequests) (es : List Event) {s s1 : State} (h : Inv cfg s)
    (hp : PacingInv cfg s) (hs : run cfg s es = some s1) : PacingInv cfg s1 := by
  induction es generalizing s with
  | nil =>
    simp only [run, Option.some.injEq] at hs
    exact hs ▸ hp
  | cons e es ih =>
    simp only [run] at hs
    cases hst : step cfg s e with
    | none => simp [hst] at hs
    | some s2 =>
      simp only [hst] at hs
      exact ih (inv_step e h hst) (pacing_step hK hD h hp hst) hs

/-- C26. On a limiter with `maxConcurrent = 1` and `delayBetweenRequests = D >
0`, in every reachable state (whatever the interleaving of calls, retries
included, under a clock that does not go back and timers that do not fire
early) any two consecutive dispatches of `fetchFn` are at least `D`
milliseconds apart, and `lastRequestTime` is the time of the latest one. -/
theorem c26_single_slot_pacing (cfg : Config) (s : State) (hK : cfg.maxConcurrent = 1)
    (hD : 0 < cfg.delayBetweenRequests) (hreach : Reachable cfg s) :
    Paced cfg.delayBetweenRequests (dispatchTimes s.log) ∧
    (∀ (t : Int) (rest : List Int), dispatchTimes s.log = t :: rest →
      s.lim.lastRequestTime = t) ∧
    (∀ (l1 l2 : List Int) (later earlier : Int),
      dispatchTimes s.log = l1 ++ later :: earlier :: l2 →
      earlier + cfg.delayBetweenRequests ≤ later) := by
  obtain ⟨t0, es, hrun⟩ := hreach
  have hp : PacingInv cfg s := by
    refine pacing_run hK hD es (inv_init cfg t0) ⟨?_, ?_, ?_⟩ hrun
    · intro t rest ht
      simp [init, dispatchTimes] at ht
    · rfl
    · intro i c w hi
      simp [init] at hi
  refine ⟨hp.paced, hp.latest, ?_⟩
  have hpaced := hp.paced
  generalize dispatchTimes s.log = ts at hpaced
  intro l1
  induction l1 generalizing ts with
  | nil =>
    intro l2 later earlier hts
    subst hts
    unfold Paced at hpaced
    simp only [List.nil_append, pacedBy, Bool.and_eq_true, decide_eq_true_eq] at hpaced
    exact hpaced.1
  | cons x l1 ih =>
    intro l2 later earlier hts
    subst hts
    refine ih (l1 ++ later :: earlier :: l2) ?_ l2 later earlier rfl
    unfold Paced at hpaced ⊢
    cases l1 with
    | nil =>
      simp only [List.cons_append, List.nil_append, pacedBy, Bool.and_eq_true] at hpaced
      simp only [List.nil_append, pacedBy, Bool.and_eq_true]
      exact hpaced.2
    | cons y l1 =>
      simp only [List.cons_append, pacedBy, Bool.and_eq_true] at hpaced
      exact hpaced.2

set_option maxRecDepth 100000 in
/-- C26 at a concrete run: three calls made in the same turn on
`createRateLimiter({ maxConcurrent: 1, delayBetweenRequests: 50 })` at clock
1000 are dispatched at 1000, 1050 and 1100. -/
theorem c26_witness :
    cfgPacedOne.maxConcurrent = 1 ∧ (0 : Int) < cfgPacedOne.delayBetweenRequests ∧
    Reachable cfgPacedOne (runD cfgPacedOne (init fresh 1000) burstOne) ∧
    dispatchTimes (runD cfgPacedOne (init fresh 1000) burstOne).log = [1100, 1050, 1000] ∧
    Paced cfgPacedOne.delayBetweenRequests
      (dispatchTimes (runD cfgPacedOne (init fresh 1000) burstOne).log) :=
  ⟨by decide, by decide, ⟨1000, burstOne, run_eq_runD (by decide)⟩, by decide,
    (c26_single_slot_pacing cfgPacedOne (runD cfgPacedOne (init fresh 1000) burstOne)
      (by decide) (by decide) ⟨1000, burstOne, run_eq_runD (by decide)⟩).1⟩

end RateLimiter

/-! # Image URLs -/

namespace Images

/-- C15, the code at failing inputs: for "http://host/x.jpg" and for "httpfoo"
both copies of `getImageUrl` return the input unchanged, which does not start
with "https://". -/
theorem c15_not_https :
    getImageUrl (some "http://host/x.jpg") = some "http://host/x.jpg" ∧
    hasHttps (getImageUrl (some "http://host/x.jpg")) = false ∧
    getImageUrl (some "httpfoo") = some "httpfoo" ∧
    hasHttps (getImageUrl (some "httpfoo")) = false ∧
    ApiTrakt.getImageUrl (some "http://host/x.jpg") = some "http://host/x.jpg" ∧
    hasHttps (ApiTrakt.getImageUrl (some "http://host/x.jpg")) = false ∧
    ApiTrakt.getImageUrl (some "httpfoo") = some "httpfoo" ∧
    hasHttps (ApiTrakt.getImageUrl (some "httpfoo")) = false ∧
    hasHttps (getImageUrl (some "walter-r2.trakt.tv/images/x.webp")) = true := by
  decide

theorem startsWith_https (u : String) : startsWith ("https://" ++ u) "http" = true := by
  simp [startsWith, String.data_append, List.isPrefixOf]

theorem https_ne_empty (u : String) : "https://" ++ u ≠ "" := by
  intro h
  have := congrArg String.length h
  simp only [String.length_append] at this
  have h8 : "https://".length = 8 := by decide
  have h0 : "".length = 0 := by decide
  omega

/-- C16. The two exported copies of `getImageUrl` compute the function of the
reference (`null` for `null`, `undefined` or the empty string; the input
unchanged when it starts with "http"; otherwise "https://" prepended), the
Trakt path of the example gets "https://" in front, and each copy is
idempotent. -/
theorem c16_getImageUrl_copies_agree (x : Option String) :
    getImageUrl x = getImageUrlReference x ∧
    ApiTrakt.getImageUrl x = getImageUrlReference x ∧
    getImageUrl
        (some "walter-r2.trakt.tv/images/shows/000/146/535/posters/thumb/c0ab89fe80.jpg.webp") =
      some "https://walter-r2.trakt.tv/images/shows/000/146/535/posters/thumb/c0ab89fe80.jpg.webp" ∧
    getImageUrl (getImageUrl x) = getImageUrl x ∧
    ApiTrakt.getImageUrl (ApiTrakt.getImageUrl x) = ApiTrakt.getImageUrl x := by
  have hidem : getImageUrl (getImageUrl x) = getImageUrl x := by
    cases x with
    | none => rfl
    | some u =>
      by_cases he : u = ""
      · simp [getImageUrl, he]
      · by_cases hs : startsWith u "http" = true
        · simp [getImageUrl, he, hs]
        · simp [getImageUrl, he, hs, https_ne_empty, startsWith_https]
  refine ⟨rfl, rfl, by decide, hidem, hidem⟩

end Images

/-! # Viewing years -/

namespace SeriesDB

/-- C17, the code on the data of the module and on a two-season sample: the
distinct years come out in ascending order, smallest first (the comparator is
`a - b`), not in descending order. -/
theorem c17_ascending :
    getAvailableYears = [2024, 2025, 2026] ∧
    descending getAvailableYears = false ∧
    getAvailableYearsOf
      [entry "loki-2021" 2 2026 "Disney+" "completed",
       entry "blue-lock" 1 2025 "crunchyroll" "completed",
       entry "i-am-groot" 2 2026 "Disney+" "completed"] = [2025, 2026] ∧
    descending [2026, 2025, 2024] = true := by
  decide

end SeriesDB

/-! # OMDB ratings -/

namespace OMDB

theorem buildRatings_fields {percent : String → String} {d : Data} {ratings : Ratings}
    (h : buildRatings percent d = .ok ratings) :
    ratings.imdb = naToNull d.imdbRating ∧ ratings.imdbVotes = naToNull d.imdbVotes ∧
      ratings.metascore = naToNull d.Metascore := by
  unfold buildRatings at h
  simp only at h
  split at h
  · cases h
  · rename_i r0 hr0
    have hbase : r0.imdb = naToNull d.imdbRating ∧ r0.imdbVotes = naToNull d.imdbVotes ∧
        r0.metascore = naToNull d.Metascore := by
      split at hr0
      · cases hr0; exact ⟨rfl, rfl, rfl⟩
      · split at hr0
        · cases hr0
        · cases hr0; exact ⟨rfl, rfl, rfl⟩
        · cases hr0; exact ⟨rfl, rfl, rfl⟩
    split at h
    · split_ifs at h
      · cases h; exact hbase
      · cases h; exact hbase
    · cases h; exact hbase

/-- C18. `getMovieRatings` never rejects. It resolves with `null`, without
calling the limiter and without touching the cache, when `imdbId` is falsy;
it resolves with `null` and leaves the cache alone on every error path; on
the success path it resolves with a ratings object whose `imdb`, `imdbVotes`
and `metascore` are the body's values with "N/A" replaced by `null`, and
stores exactly that object in the cache; the cache changes in no other
case. -/
theorem c18_getMovieRatings_never_rejects (percent : String → String) (cache : Cache)
    (imdbId : Option String) (fetched : Fetched) :
    (∃ v, (getMovieRatings percent cache imdbId fetched).settled = .resolved v) ∧
    ((imdbId = none ∨ imdbId = some "") →
      getMovieRatings percent cache imdbId fetched =
        { settled := .resolved none, cache := cache, calledLimiter := false }) ∧
    (∀ id, imdbId = some id → id ≠ "" → Cache.get cache id = none →
      failed percent fetched = true →
      getMovieRatings percent cache imdbId fetched =
        { settled := .resolved none, cache := cache, calledLimiter := true }) ∧
    (∀ id, imdbId = some id → id ≠ "" → Cache.get cache id = none →
      failed percent fetched = false →
      ∃ response d ratings, fetched = .resolves response ∧ response.json = .data d ∧
        ratings.imdb = naToNull d.imdbRating ∧ ratings.imdbVotes = naToNull d.imdbVotes ∧
        ratings.metascore = naToNull d.Metascore ∧
        getMovieRatings percent cache imdbId fetched =
          { settled := .resolved (some ratings), cache := Cache.set cache id ratings,
            calledLimiter := true }) ∧
    (naToNull (.str "N/A") = .null ∧ ∀ x, x ≠ .str "N/A" → naToNull x = x) ∧
    ((getMovieRatings percent cache imdbId fetched).cache = cache ∨
      ∃ id ratings,
        (getMovieRatings percent cache imdbId fetched).settled = .resolved (some ratings) ∧
        (getMovieRatings percent cache imdbId fetched).cache = Cache.set cache id ratings) := by
  have hsucc : ∀ id, imdbId = some id → id ≠ "" → Cache.get cache id = none →
      failed percent fetched = false →
      ∃ response d ratings, fetched = .resolves response ∧ response.json = .data d ∧
        ratings.imdb = naToNull d.imdbRating ∧ ratings.imdbVotes = naToNull d.imdbVotes ∧
        ratings.metascore = naToNull d.Metascore ∧
        getMovieRatings percent cache imdbId fetched =
          { settled := .resolved (some ratings), cache := Cache.set cache id ratings,
            calledLimiter := true } := by
    intro id hid hne hc hf
    subst hid
    cases fetched with
    | rejects => simp [failed] at hf
    | resolves response =>
      cases hj : response.json with
      | throws => simp [failed, hj] at hf
      | null => simp [failed, hj] at hf
      | data d =>
        cases hb : buildRatings percent d with
        | error e => simp [failed, hj, hb] at hf
        | ok ratings =>
          simp only [failed, hj, hb, Bool.or_false, Bool.or_eq_false_iff, Bool.not_eq_false',
            decide_eq_false_iff_not] at hf
          obtain ⟨hok, hresp⟩ := hf
          obtain ⟨h1, h2, h3⟩ := buildRatings_fields hb
          refine ⟨response, d, ratings, rfl, hj, h1, h2, h3, ?_⟩
          simp [getMovieRatings, hne, hc, tryBlock, hok, hj, hresp, hb]
  have hfail : ∀ id, imdbId = some id → id ≠ "" → Cache.get cache id = none →
      failed percent fetched = true →
      getMovieRatings percent cache imdbId fetched =
        { settled := .resolved none, cache := cache, calledLimiter := true } := by
    intro id hid hne hc hf
    subst hid
    cases fetched with
    | rejects => simp [getMovieRatings, hne, hc, tryBlock]
    | resolves response =>
      cases hok : response.ok with
      | false => simp [getMovieRatings, hne, hc, tryBlock, hok]
      | true =>
        cases hj : response.json with
        | throws => simp [getMovieRatings, hne, hc, tryBlock, hok, hj]
        | null => simp [getMovieRatings, hne, hc, tryBlock, hok, hj]
        | data d =>
          by_cases hresp : d.Response = .str "False"
          · simp [getMovieRatings, hne, hc, tryBlock, hok, hj, hresp]
          · cases hb : buildRatings percent d with
            | error e => simp [getMovieRatings, hne, hc, tryBlock, hok, hj, hresp, hb]
            | ok ratings => simp [failed, hok, hj, hresp, hb] at hf
  have hfalsy : (imdbId = none ∨ imdbId = some "") →
      getMovieRatings percent cache imdbId fetched =
        { settled := .resolved none, cache := cache, calledLimiter := false } := by
    rintro (h | h) <;> subst h <;> simp [getMovieRatings]
  have hall : (∃ v, (getMovieRatings percent cache imdbId fetched).settled = .resolved v) ∧
      ((getMovieRatings percent cache imdbId fetched).cache = cache ∨
        ∃ id ratings,
          (getMovieRatings percent cache imdbId fetched).settled = .resolved (some ratings) ∧
          (getMovieRatings percent cache imdbId fetched).cache = Cache.set cache id ratings) := by
    cases imdbId with
    | none => rw [hfalsy (Or.inl rfl)]; exact ⟨⟨_, rfl⟩, Or.inl rfl⟩
    | some id =>
      by_cases hne : id = ""
      · subst hne
        rw [hfalsy (Or.inr rfl)]; exact ⟨⟨_, rfl⟩, Or.inl rfl⟩
      · cases hc : Cache.get cache id with
        | some ratings =>
          simp [getMovieRatings, hne, hc]
        | none =>
          cases hf : failed percent fetched with
          | true => rw [hfail id rfl hne hc hf]; exact ⟨⟨_, rfl⟩, Or.inl rfl⟩
          | false =>
            obtain ⟨_, _, ratings, _, _, _, _, _, h⟩ := hsucc id rfl hne hc hf
            rw [h]
            exact ⟨⟨_, rfl⟩, Or.inr ⟨id, ratings, rfl, rfl⟩⟩
  refine ⟨hall.1, hfalsy, hfail, hsucc, ⟨by decide, ?_⟩, hall.2⟩
  intro x hx
  simp [naToNull, hx]

end OMDB

/-! # `searchGame` of `scripts/fetch-next-games.js` -/

namespace FetchNextGames

theorem findExact_eq_find (toLowerCase : String → String) (title : String) :
    ∀ results : List Game, (∀ r ∈ results, r.name ≠ none) →
      findExact toLowerCase title results = .ok (results.find? (matchesTitle toLowerCase title)) := by
  intro results
  induction results with
  | nil => intro _; rfl
  | cons r rest ih =>
    intro hnames
    have hr := hnames r (by simp)
    have ih1 := ih (fun x hx => hnames x (List.mem_cons_of_mem _ hx))
    cases hn : r.name with
    | none => exact absurd hn hr
    | some n =>
      by_cases hm : toLowerCase n = toLowerCase title
      · simp [findExact, List.find?, matchesTitle, hn, hm]
      · simp [findExact, List.find?, matchesTitle, hn, hm, ih1]

/-- C24. For every title and every non-empty list of results (each with a
name), `searchGame` resolves with the first result whose name equals the title
ignoring case when there is one and with the first result of the list
otherwise. It resolves with `null` when the list is empty or missing and when
the request fails, and in no case does it reject. -/
theorem c24_searchGame_exact_or_first (toLowerCase : String → String) (title : String)
    (results : List Game) (hne : results ≠ []) (hnames : ∀ r ∈ results, r.name ≠ none) :
    searchGame toLowerCase title (.value (some results)) =
      .resolved (firstMatchOrFirst toLowerCase title results) ∧
    (∀ m, results.find? (matchesTitle toLowerCase title) = some m →
      searchGame toLowerCase title (.value (some results)) = .resolved (some m)) ∧
    (results.find? (matchesTitle toLowerCase title) = none →
      searchGame toLowerCase title (.value (some results)) = .resolved results.head?) ∧
    searchGame toLowerCase title (.value (some [])) = .resolved none ∧
    searchGame toLowerCase title (.value none) = .resolved none ∧
    searchGame toLowerCase title .throws = .resolved none ∧
    (∀ fetched : Fetched, searchGame toLowerCase title fetched ≠ .rejected) := by
  have hmain : searchGame toLowerCase title (.value (some results)) =
      .resolved (firstMatchOrFirst toLowerCase title results) := by
    cases results with
    | nil => exact absurd rfl hne
    | cons first rest =>
      simp only [searchGame, findExact_eq_find toLowerCase title _ hnames, firstMatchOrFirst]
      cases List.find? (matchesTitle toLowerCase title) (first :: rest) <;> rfl
  refine ⟨hmain, ?_, ?_, rfl, rfl, rfl, ?_⟩
  · intro m hm
    rw [hmain, firstMatchOrFirst, hm]
  · intro hm
    rw [hmain, firstMatchOrFirst, hm]
  · intro fetched
    unfold searchGame
    split
    · simp
    · simp
    · simp
    · split <;> simp

/-- C24 on a sample: for the title "Hades" the second result, the first whose
name equals the title ignoring case, is returned. -/
theorem c24_witness :
    sampleResults ≠ [] ∧ (∀ r ∈ sampleResults, r.name ≠ none) ∧
    firstMatchOrFirst asciiLower "Hades" sampleResults = some { id := 2, name := some "HADES" } ∧
    searchGame asciiLower "Hades" (.value (some sampleResults)) =
      .resolved (firstMatchOrFirst asciiLower "Hades" sampleResults) :=
  ⟨by decide, by decide, by decide,
    (c24_searchGame_exact_or_first asciiLower "Hades" sampleResults (by decide)
      (by decide)).1⟩

end FetchNextGames

/-! # `fetchTrakt` of the fetch scripts -/

namespace Scripts

@[simp] theorem after_fetches (delays : List Int) (e : Effect) :
    (e.after delays).fetches = e.fetches + 1 := rfl

@[simp] theorem after_outcome (delays : List Int) (e : Effect) :
    (e.after delays).outcome = e.outcome := rfl

theorem movies_all429 {net : Nat → FetchResult} (retries : Nat)
    (h : ∀ k, ∃ r, net k = .resolves r ∧ r.status = 429) (k attempt : Nat) :
    (FetchMovies.attempts net retries k attempt).outcome = .returned none ∧
      (FetchMovies.attempts net retries k attempt).fetches = k := by
  induction k generalizing attempt with
  | zero => exact ⟨rfl, rfl⟩
  | succ k ih =>
    obtain ⟨r, hr, h429⟩ := h (attempt - 1)
    simp only [FetchMovies.attempts, hr, h429, if_true, after_fetches, after_outcome]
    exact ⟨(ih (attempt + 1)).1, by rw [(ih (attempt + 1)).2]⟩

theorem series_all429 {net : Nat → FetchResult} (retries : Nat)
    (h : ∀ k, ∃ r, net k = .resolves r ∧ r.status = 429) (k attempt : Nat) :
    (FetchSeries.attempts net retries k attempt).outcome = .returned none ∧
      (FetchSeries.attempts net retries k attempt).fetches = k := by
  induction k generalizing attempt with
  | zero => exact ⟨rfl, rfl⟩
  | succ k ih =>
    obtain ⟨r, hr, h429⟩ := h (attempt - 1)
    simp only [FetchSeries.attempts, hr, h429, if_true, after_fetches, after_outcome]
    exact ⟨(ih (attempt + 1)).1, by rw [(ih (attempt + 1)).2]⟩

theorem movies_allFail {net : Nat → FetchResult} (retries : Nat)
    (h : ∀ k, ∃ r, net k = .resolves r ∧ r.ok = false ∧ r.status ≠ 429) (k attempt : Nat)
    (hk : attempt + k = retries) :
    (∃ r, net (retries - 1) = .resolves r ∧
      (FetchMovies.attempts net retries (k + 1) attempt).outcome = .threw (.http r.status)) ∧
      (FetchMovies.attempts net retries (k + 1) attempt).fetches = k + 1 := by
  induction k generalizing attempt with
  | zero =>
    obtain ⟨r, hr, hok, hst⟩ := h (attempt - 1)
    have ha : attempt = retries := by omega
    subst ha
    refine ⟨⟨r, hr, ?_⟩, ?_⟩ <;> simp [FetchMovies.attempts, hr, hst, hok]
  | succ k ih =>
    obtain ⟨r, hr, hok, hst⟩ := h (attempt - 1)
    have ha : attempt ≠ retries := by omega
    obtain ⟨⟨r1, hr1, ho⟩, hf⟩ := ih (attempt + 1) (by omega)
    rw [FetchMovies.attempts]
    simp only [hr, hst, hok, ha, if_false, if_true, Bool.not_false, after_fetches,
      after_outcome]
    exact ⟨⟨r1, hr1, ho⟩, by rw [hf]⟩

theorem series_allFail {net : Nat → FetchResult} (retries : Nat)
    (h : ∀ k, ∃ r, net k = .resolves r ∧ r.ok = false ∧ r.status ≠ 429) (k attempt : Nat)
    (hk : attempt + k = retries) :
    (∃ r, net (retries - 1) = .resolves r ∧
      (FetchSeries.attempts net retries (k + 1) attempt).outcome = .threw (.http r.status)) ∧
      (FetchSeries.attempts net retries (k + 1) attempt).fetches = k + 1 := by
  induction k generalizing attempt with
  | zero =>
    obtain ⟨r, hr, hok, hst⟩ := h (attempt - 1)
    have ha : attempt = retries := by omega
    subst ha
    refine ⟨⟨r, hr, ?_⟩, ?_⟩ <;> simp [FetchSeries.attempts, hr, hst, hok]
  | succ k ih =>
    obtain ⟨r, hr, hok, hst⟩ := h (attempt - 1)
    have ha : attempt ≠ retries := by omega
    obtain ⟨⟨r1, hr1, ho⟩, hf⟩ := ih (attempt + 1) (by omega)
    rw [FetchSeries.attempts]
    simp only [hr, hst, hok, ha, if_false, if_true, Bool.not_false, after_fetches,
      after_outcome]
    exact ⟨⟨r1, hr1, ho⟩, by rw [hf]⟩

/-- C28. For `fetchTrakt` of `fetch-movies.js` and of `fetch-series.js` with
`retries = n >= 1`: when every response has status 429 it calls `fetch` exactly
`n` times and resolves with `undefined`, without throwing; when every response
is not OK with a status other than 429 it calls `fetch` exactly `n` times and
then throws the error built from the status of the last response. -/
theorem c28_fetchTrakt_exhausted (net : Nat → FetchResult) (n : Nat) (hn : 1 ≤ n) :
    ((∀ k, ∃ r, net k = .resolves r ∧ r.status = 429) →
      (FetchMovies.fetchTrakt net n).outcome = .returned none ∧
      (FetchMovies.fetchTrakt net n).fetches = n ∧
      (FetchSeries.fetchTrakt net n).outcome = .returned none ∧
      (FetchSeries.fetchTrakt net n).fetches = n) ∧
    ((∀ k, ∃ r, net k = .resolves r ∧ r.ok = false ∧ r.status ≠ 429) →
      (∃ r, net (n - 1) = .resolves r ∧
        (FetchMovies.fetchTrakt net n).outcome = .threw (.http r.status) ∧
        (FetchSeries.fetchTrakt net n).outcome = .threw (.http r.status)) ∧
      (FetchMovies.fetchTrakt net n).fetches = n ∧
      (FetchSeries.fetchTrakt net n).fetches = n) := by
  constructor
  · intro h
    exact ⟨(movies_all429 n h n 1).1, (movies_all429 n h n 1).2, (series_all429 n h n 1).1,
      (series_all429 n h n 1).2⟩
  · intro h
    obtain ⟨m, hm⟩ : ∃ m, n = m + 1 := ⟨n - 1, by omega⟩
    subst hm
    obtain ⟨⟨r, hr, ho⟩, hf⟩ := movies_allFail (m + 1) h m 1 (by omega)
    obtain ⟨⟨r1, hr1, ho1⟩, hf1⟩ := series_allFail (m + 1) h m 1 (by omega)
    rw [hr] at hr1
    cases hr1
    exact ⟨⟨r, hr, ho, ho1⟩, hf, hf1⟩

/-- C28 with the default `retries = 3`: three requests answered with 429, then
`undefined`; three requests answered with 500, then the error is thrown. -/
theorem c28_witness :
    (1 : Nat) ≤ 3 ∧
    FetchMovies.fetchTrakt always429 3 =
      { outcome := .returned none, fetches := 3, delays := [10000, 10000, 10000] } ∧
    FetchMovies.fetchTrakt always500 3 =
      { outcome := .threw (.http 500), fetches := 3, delays := [2000, 2000] } ∧
    (FetchSeries.fetchTrakt always429 3).outcome = .returned none ∧
    (FetchSeries.fetchTrakt always429 3).fetches = 3 :=
  ⟨by decide, by decide, by decide,
    (((c28_fetchTrakt_exhausted always429 3 (by decide)).1
      (fun _ => ⟨_, rfl, rfl⟩)).2.2.1),
    (((c28_fetchTrakt_exhausted always429 3 (by decide)).1
      (fun _ => ⟨_, rfl, rfl⟩)).2.2.2)⟩

end Scripts
